import Mathlib

/-!
# DropletUtils: downsampling of count data (`src/downsample_counts.cpp`)

A shallow embedding of the downsampling engine and of its two drivers.

Conventions of the embedding

* `bigint_t` (`std::uint64_t`) is a natural number below `2 ^ 64`; every
  addition, increment and subtraction on it is taken modulo `2 ^ 64`.
* An R integer vector is a `List Int`; a forward iterator into a vector is the
  list of the elements it has still to visit, so an iterator range
  `[it, it + n)` is the first `n` elements of that list.
* A `double` is a value of IEEE 754 binary64 (`Double`): not-a-number, an
  infinity, or a finite value, held as the rational number it denotes. The result
  of an arithmetic operation is the exact result rounded to the nearest `double`,
  a tie going to the even significand (`fl`); the conversion of a `bigint_t` to
  `double` rounds in the same way. `std::round` is rounding to the nearest integer,
  halves away from zero.
* `R::unif_rand()` reads the next element of a stream `u : Nat → ℚ` of finite
  values; the number of draws taken so far is threaded through every function.
  The values R delivers are values of `double` in the unit interval, which is what
  `unit_draws` says of a stream.
* The entries of a matrix of `double` are only converted with `static_cast<int>`
  and compared with an `int`, both without rounding; they are held as rationals.
* `throw std::runtime_error(msg)` is `Except.error e`, with one constructor of
  `Error` for each message; one more constructor marks an access outside a vector,
  for which C++ defines no behaviour.
-/

namespace DropletUtils

/-! ## Wide sums -/

/-- The number of values of `bigint_t`, `2 ^ 64`. -/
def bigint_mod : Nat := 2 ^ 64

/-- `bigsum(start, end)` for a range of `int`, on which `static_cast<int>` changes
nothing: every element is converted to `bigint_t` and added to the accumulator,
modulo `2 ^ 64`. -/
def bigsum (xs : List Int) : Nat :=
  xs.foldl (fun sum x => Int.toNat (((sum : Int) + x) % (bigint_mod : Int))) 0

/-! ## Doubles -/

/-- Rounding of an exact value to the nearest integer, a tie going to the even one: the
rounding the floating-point unit applies to the significand of a result. -/
def round_even (x : ℚ) : Int :=
  if x - Int.floor x < 1 / 2 then Int.floor x
  else if 1 / 2 < x - Int.floor x then Int.floor x + 1
  else if Int.floor x % 2 = 0 then Int.floor x
  else Int.floor x + 1

/-- The number of times `n` can be halved before it falls below 2, counted in at most
`fuel` steps. -/
def log2_steps : Nat → Nat → Nat
  | 0, _ => 0
  | fuel + 1, n => if 2 ≤ n then log2_steps fuel (n / 2) + 1 else 0

/-- The position of the leading binary digit of `n`: the largest `k` with `2 ^ k ≤ n`. -/
def log2 (n : Nat) : Nat := log2_steps n n

/-- The binary exponent of a non-zero value `x`: the integer `e` with
`2 ^ e ≤ |x| < 2 ^ (e + 1)`. -/
def ilog2 (x : ℚ) : Int :=
  if 2 ^ log2 x.num.natAbs * x.den ≤ x.num.natAbs * 2 ^ log2 x.den then
    (log2 x.num.natAbs : Int) - log2 x.den
  else (log2 x.num.natAbs : Int) - log2 x.den - 1

/-- The distance between neighbouring values of `double` at `x`: 53 significant binary
digits, and no exponent below -1022 (the subnormal range). -/
def quantum (x : ℚ) : ℚ := (2 : ℚ) ^ (max (ilog2 x) (-1022) - 52)

/-- The value of `double` nearest to the exact value `x`, a tie going to the even
significand (IEEE 754 binary64, round to nearest even), the exponent unbounded above. -/
def fl (x : ℚ) : ℚ := round_even (x / quantum x) * quantum x

/-- The rational `x` is a value of `double`. -/
def is_double (x : ℚ) : Prop := fl x = x ∧ |x| < 2 ^ 1024

instance (x : ℚ) : Decidable (is_double x) :=
  inferInstanceAs (Decidable (fl x = x ∧ |x| < 2 ^ 1024))

/-- A value of type `double`: not-a-number, an infinity, or a finite value, which is
held as the rational it denotes. The sign of a zero is not kept: nothing in the program
tells the two zeros apart. -/
inductive Double where
  | nan
  | inf (negative : Bool)
  | fin (q : ℚ)
deriving DecidableEq

/-- The result of an operation whose exact value is `x`: the nearest `double`, or an
infinity when that lies beyond the largest finite value. -/
def Double.of_rat (x : ℚ) : Double :=
  if (2 : ℚ) ^ 1024 ≤ |fl x| then Double.inf (decide (x < 0)) else Double.fin (fl x)

/-- The conversion of a `bigint_t` to `double`, exact below `2 ^ 53` and rounded to the
nearest `double` above. -/
def Double.of_bigint (n : Nat) : Double := Double.of_rat (n : ℚ)

/-- The product of two values of `double`. -/
def Double.mul : Double → Double → Double
  | Double.fin p, Double.fin q => Double.of_rat (p * q)
  | Double.fin p, Double.inf s => if p = 0 then Double.nan else Double.inf (s != decide (p < 0))
  | Double.inf s, Double.fin q => if q = 0 then Double.nan else Double.inf (s != decide (q < 0))
  | Double.inf s, Double.inf t => Double.inf (s != t)
  | Double.nan, _ => Double.nan
  | _, Double.nan => Double.nan

/-- The comparison `x < y` of two values of `double`, false whenever one of them is
not-a-number. -/
def Double.lt : Double → Double → Bool
  | Double.fin p, Double.fin q => decide (p < q)
  | Double.fin _, Double.inf s => !s
  | Double.inf s, Double.fin _ => s
  | Double.inf s, Double.inf t => s && !t
  | Double.nan, _ => false
  | _, Double.nan => false

instance : LT Double := ⟨fun x y => Double.lt x y = true⟩

instance (x y : Double) : Decidable (x < y) :=
  inferInstanceAs (Decidable (Double.lt x y = true))

instance : Zero Double := ⟨Double.fin 0⟩

instance : One Double := ⟨Double.fin 1⟩

/-- `std::round` on an exact value: nearest integer, halves away from zero. -/
def std_round (x : ℚ) : Int :=
  if 0 ≤ x then Int.floor (x + 1 / 2) else - Int.floor (-x + 1 / 2)

/-- `std::round` on a `double`; the result is an integer that `double` holds exactly. -/
def Double.round : Double → Double
  | Double.fin q => Double.fin (std_round q)
  | x => x

/-- The conversion of a `double` to `bigint_t`, which drops the fraction. C++ defines it
when the result lies from 0 to `2 ^ 64 - 1`; for every other value (negative, too large,
an infinity, not-a-number) the behaviour is undefined, and the model takes 0. -/
def Double.to_bigint : Double → Nat
  | Double.fin q => if q < 2 ^ 64 then Int.toNat (Int.floor q) else 0
  | _ => 0

/-- The wording "`x` lies in the closed interval [0, 1]" for a `double`. -/
def Double.in_unit : Double → Prop
  | Double.fin q => 0 ≤ q ∧ q ≤ 1
  | _ => False

/-! ## The sampler -/

/-- The private state of `class downsampler`; a new object holds zeros. -/
structure downsampler where
  num_total : Nat := 0
  num_sample : Nat := 0
  num_processed : Nat := 0
  num_selected : Nat := 0
deriving DecidableEq, Repr

/-- `downsampler::set_num_sample`: `num_sample = std::round(prop * num_total)`. The
total is converted to `double`, the product is formed in `double`, `std::round` is
applied and the result is converted to `bigint_t`. -/
def downsampler.set_num_sample (d : downsampler) (prop : Double) : downsampler :=
  { d with num_sample :=
      Double.to_bigint (Double.round (Double.mul prop (Double.of_bigint d.num_total))) }

/-- `downsampler::set_global`. -/
def downsampler.set_global (d : downsampler) (total : Nat) (prop : Double) : downsampler :=
  ({ d with num_total := total }).set_num_sample prop

/-- The state of one run of the sampling loop: the output cell under
`freqOut`, the sampler, and the number of uniform draws taken so far. -/
structure Cell where
  out : Int
  down : downsampler
  drawn : Nat
deriving DecidableEq, Repr

/-- One pass through the body of the inner `for` loop, the guard
`num_sample > num_selected` having held: one draw, the selection test on
`(num_total - num_processed) * unif_rand() < num_sample - num_selected`,
and the increment of `num_processed`. Both differences are formed in `bigint_t` and
converted to `double`; the product and the comparison are those of `double`. -/
def event (u : Nat → ℚ) (c : Cell) : Cell :=
  if Double.mul
        (Double.of_bigint ((c.down.num_total + bigint_mod - c.down.num_processed) % bigint_mod))
        (Double.fin (u c.drawn))
      < Double.of_bigint ((c.down.num_sample + bigint_mod - c.down.num_selected) % bigint_mod)
  then
    { out := c.out + 1,
      down := { c.down with num_selected := (c.down.num_selected + 1) % bigint_mod,
                            num_processed := (c.down.num_processed + 1) % bigint_mod },
      drawn := c.drawn + 1 }
  else
    { out := c.out,
      down := { c.down with num_processed := (c.down.num_processed + 1) % bigint_mod },
      drawn := c.drawn + 1 }

/-- The inner loop `for (int i=0; i<*freqIt && num_sample > num_selected; ++i)`,
by recursion on the number `*freqIt - i` of values of `i` still to come. -/
def for_events (u : Nat → ℚ) : Nat → Cell → Cell
  | 0, c => c
  | n + 1, c =>
    if c.down.num_sample > c.down.num_selected then for_events u n (event u c) else c

/-- The state between two rounds of the outer loop: the output range from
`freqOut` on, the sampler, and the number of draws taken. -/
structure Pass where
  out : List Int
  down : downsampler
  drawn : Nat
deriving DecidableEq, Repr

/-- The three-argument `downsampler::operator()`: while the frequency range is
not exhausted and `num_selected < num_sample`, run the inner loop at the
current position and step both iterators. `freq` is the range
`[freqIt, freqEnd)`, `out` the output vector from `freqOut` on. A position for
which the output vector has no cell left is sampled but not recorded. -/
def apply (u : Nat → ℚ) : List Int → List Int → downsampler → Nat → Pass
  | [], out, d, k => ⟨out, d, k⟩
  | x :: freq, out, d, k =>
    if d.num_selected < d.num_sample then
      match out with
      | [] =>
        let c := for_events u x.toNat ⟨0, d, k⟩
        let r := apply u freq [] c.down c.drawn
        ⟨[], r.down, r.drawn⟩
      | o :: os =>
        let c := for_events u x.toNat ⟨o, d, k⟩
        let r := apply u freq os c.down c.drawn
        ⟨c.out :: r.out, r.down, r.drawn⟩
    else ⟨out, d, k⟩

/-- The four-argument `downsampler::operator()`, for a single vector:
`num_total` is the wide sum of the range, the budget is set from `prop`,
both counters are reset, and the three-argument operator runs. -/
def apply_single (u : Nat → ℚ) (freq out : List Int) (prop : Double) (d : downsampler)
    (k : Nat) : Pass :=
  let d1 := ({ d with num_total := bigsum freq }).set_num_sample prop
  apply u freq out { d1 with num_processed := 0, num_selected := 0 } k

/-! ## Choosing the mode -/

/-- The ways in which an entry point ends without a result: one constructor for each
message of a `std::runtime_error` it raises, and `overrun`, which is no exception: it
marks a run of the program that forms an iterator outside a vector or reads or writes
past its end, where C++ defines no behaviour.

* `logical_scalar`: the per-column specifier is not a logical scalar.
* `numeric_scalar`: the downsampling proportion is not a double-precision scalar.
* `prop_length`: length of `prop` should be equal to number of cells (the
  specification's ShapeMismatch for the proportions).
* `prop_range`: downsampling proportion must lie in [0, 1] (RangeViolation).
* `reads_length`: length of `reads` vector should be equal to sum of RLE lengths
  (ShapeMismatch for the run lengths).
* `overrun`: an access outside a vector; no message, no exception. -/
inductive Error where
  | logical_scalar
  | numeric_scalar
  | prop_length
  | prop_range
  | reads_length
  | overrun
deriving DecidableEq, Repr

/-- Modelled from the spec: `check_logical_scalar` is declared in `utils.h`, which is
not among the sources. The specification speaks of a boolean flag; a logical vector
stands for one exactly when it holds a single value, which is returned. -/
def check_logical_scalar (v : List Bool) : Except Error Bool :=
  match v with
  | [b] => .ok b
  | _ => .error .logical_scalar

/-- Modelled from the spec: `check_numeric_scalar` is declared in `utils.h`, which is
not among the sources. In global mode the proportion input "must resolve to a single
scalar": a numeric vector does so exactly when it holds a single value, which is
returned unchanged. -/
def check_numeric_scalar (v : List Double) : Except Error Double :=
  match v with
  | [x] => .ok x
  | _ => .error .numeric_scalar

/-- The loop `for (const auto& curprop : prop)` of `check_downsampling_mode`: the
first entry for which `curprop < 0 || curprop > 1` holds raises the range failure. Both
comparisons are false of not-a-number. -/
def check_each_prop : List Double → Except Error Unit
  | [] => .ok ()
  | curprop :: rest =>
    if curprop < 0 ∨ curprop > 1 then .error .prop_range else check_each_prop rest

/-- `check_downsampling_mode(ncells, prop, bycol)`. -/
def check_downsampling_mode (ncells : Nat) (prop : List Double) (bycol : List Bool) :
    Except Error Bool :=
  match check_logical_scalar bycol with
  | .error e => .error e
  | .ok do_bycol =>
    if do_bycol then
      if prop.length ≠ ncells then .error .prop_length
      else
        match check_each_prop prop with
        | .error e => .error e
        | .ok _ => .ok do_bycol
    else
      match check_numeric_scalar prop with
      | .error e => .error e
      | .ok curprop =>
        if curprop < 0 ∨ curprop > 1 then .error .prop_range else .ok do_bycol

/-! ## Downsampling the runs of a vector -/

/-- The loop `for (const auto& cell : cell_vec)` of `downsample_runs`. The iterators
`rIt` and `oIt` move together: `cursor` is their position in `reads` and in `output`,
two vectors of the same length, and `pIt` is the part of the proportions still to be
read. A run is handed to the sampler as the range `[rIt, rIt + cell)`.

* When `rIt + cell` lies outside the vector, forming it is already undefined.
* In per-run mode `bigsum` walks from `rIt` until it meets `rIt + cell`; for a negative
  `cell` it never does and reads past the end of `reads`.
* In global mode the three-argument operator stops when it meets `rIt + cell` or when
  the budget is used up; for a negative `cell` only the budget can stop it, and when the
  end of `reads` comes first it reads past it. When the budget stops it, the call has
  sampled from `rIt` on, and the iterators then step back by `cell`. -/
def runs_loop (u : Nat → ℚ) (percol : Bool) (reads : List Int) :
    List Int → Nat → List Double → List Int → downsampler → Nat → Except Error Pass
  | [], _, _, output, d, k => .ok ⟨output, d, k⟩
  | cell :: cells, cursor, pIt, output, d, k =>
    if (cursor : Int) + cell < 0 ∨ (reads.length : Int) < (cursor : Int) + cell then
      .error .overrun
    else if percol then
      match pIt with
      | [] => .error .overrun
      | prop :: pNext =>
        if cell < 0 then .error .overrun
        else
          let r := apply_single u ((reads.drop cursor).take cell.toNat) (output.drop cursor)
            prop d k
          runs_loop u percol reads cells (cursor + cell.toNat) pNext
            (output.take cursor ++ r.out) r.down r.drawn
    else if cell < 0 then
      let r := apply u (reads.drop cursor) (output.drop cursor) d k
      if r.down.num_selected < r.down.num_sample then .error .overrun
      else
        runs_loop u percol reads cells ((cursor : Int) + cell).toNat pIt
          (output.take cursor ++ r.out) r.down r.drawn
    else
      let r := apply u ((reads.drop cursor).take cell.toNat) (output.drop cursor) d k
      runs_loop u percol reads cells (cursor + cell.toNat) pIt
        (output.take cursor ++ r.out) r.down r.drawn

/-- `downsample_runs(cells, reads, prop, bycol)`, entered when `k` draws have been
taken: the value returned or the way the call ends without one, and the number of
draws taken when control leaves the function (after an access outside a vector that
number has no meaning, and `k` stands in its place). -/
def downsample_runs (u : Nat → ℚ) (cells reads : List Int) (prop : List Double)
    (bycol : List Bool) (k : Nat) : Except Error (List Int) × Nat :=
  let nmolecules := bigsum cells
  if nmolecules ≠ reads.length then (.error .reads_length, k)
  else
    match check_downsampling_mode cells.length prop bycol with
    | .error e => (.error e, k)
    | .ok percol =>
      let fresh : downsampler := {}
      let down := if percol then fresh else fresh.set_global (bigsum reads) (prop.headD 0)
      match runs_loop u percol reads cells 0 prop (List.replicate nmolecules 0) down k with
      | .error e => (.error e, k)
      | .ok r => (.ok r.out, r.drawn)

/-! ## Downsampling the columns of a matrix -/

/-- Modelled from the spec: the column view of `beachmat::const_column`, which is not
among the sources. A dense column gives all its values in row order; a sparse one
gives its stored values together with their row indices. -/
inductive Column where
  | dense (values : List Int)
  | sparse (indices : List Nat) (values : List Int)
deriving DecidableEq, Repr

/-- The values `get_values()` points to; there are `get_n()` of them. -/
def Column.get_values : Column → List Int
  | .dense values => values
  | .sparse _ values => values

/-- The number of values of the column, `get_n()`. -/
def Column.get_n (c : Column) : Nat := c.get_values.length

/-- The flag `is_sparse()`. -/
def Column.is_sparse : Column → Bool
  | .dense _ => false
  | .sparse _ _ => true

/-- The entry of the column in row `r`: a row a sparse column does not store holds 0. -/
def Column.entry (c : Column) (r : Nat) : Int :=
  match c with
  | .dense values => values.getD r 0
  | .sparse indices values => ((indices.zip values).lookup r).getD 0

/-- Modelled from the spec: a matrix of `beachmat`, input or output, as its number of
rows and its columns in order. -/
structure Matrix where
  nrow : Nat
  cols : List Column
deriving DecidableEq, Repr

/-- The number of columns, `get_ncol()`. -/
def Matrix.ncol (m : Matrix) : Nat := m.cols.length

/-- The entry in row `r` and column `c`; 0 outside the matrix. -/
def Matrix.entry (m : Matrix) (r c : Nat) : Int :=
  match m.cols.get? c with
  | some col => col.entry r
  | none => 0

/-- The sum of the entries of a column over the rows `0 .. nrow - 1`. -/
def Column.entry_sum (nrow : Nat) (c : Column) : Int :=
  ∑ r in Finset.range nrow, c.entry r

/-- The sum of all the entries of the matrix. -/
def Matrix.entry_sum (m : Matrix) : Int :=
  (m.cols.map (Column.entry_sum m.nrow)).sum

/-- The first loop of `downsample_matrix_internal`: `num_total += bigsum(...)` over
the columns. -/
def matrix_total (cols : List Column) : Nat :=
  cols.foldl (fun num_total col => (num_total + bigsum col.get_values) % bigint_mod) 0

/-- Modelled from the spec: what the output matrix of `beachmat` receives for a column,
by `set_col_indexed(i, n, indices, outgoing)` when the column is sparse (the first `n`
values of `outgoing`, at the row indices of the input column) and by
`set_col(i, outgoing)` when it is dense (a value for each of the `ngenes` rows). -/
def store_column (ngenes : Nat) (col : Column) (outgoing : List Int) : Column :=
  match col with
  | .sparse indices _ => Column.sparse indices (outgoing.take col.get_n)
  | .dense _ => Column.dense (outgoing.take ngenes)

/-- The `std::fill` that follows: zeros over the first `get_n()` cells of `outgoing`
for a sparse column, over all of `outgoing` for a dense one. -/
def clear_outgoing (col : Column) (outgoing : List Int) : List Int :=
  if col.is_sparse then
    List.replicate (min col.get_n outgoing.length) 0 ++ outgoing.drop col.get_n
  else List.replicate outgoing.length 0

/-- The second loop of `downsample_matrix_internal`, over the columns: sample into
`outgoing`, hand the column to the output matrix, and clear the part of `outgoing`
that was used. -/
def matrix_loop (u : Nat → ℚ) (percol : Bool) (ngenes : Nat) :
    List Column → List Double → List Int → downsampler → Nat →
      List Column × downsampler × Nat
  | [], _, _, d, k => ([], d, k)
  | col :: cols, pIt, outgoing, d, k =>
    let r :=
      if percol then apply_single u col.get_values outgoing (pIt.headD 0) d k
      else apply u col.get_values outgoing d k
    let rest := matrix_loop u percol ngenes cols (if percol then pIt.tail else pIt)
      (clear_outgoing col r.out) r.down r.drawn
    (store_column ngenes col r.out :: rest.1, rest.2.1, rest.2.2)

/-- `downsample_matrix_internal` at the integer types (`Rcpp::IntegerVector`,
`beachmat::integer_matrix`, `beachmat::integer_output`), entered when `k` draws have
been taken: the matrix returned or the failure raised, and the number of draws taken
when control leaves the function. -/
def downsample_matrix_internal (u : Nat → ℚ) (input : Matrix) (prop : List Double)
    (bycol : List Bool) (k : Nat) : Except Error Matrix × Nat :=
  let ngenes := input.nrow
  let ncells := input.ncol
  match check_downsampling_mode ncells prop bycol with
  | .error e => (.error e, k)
  | .ok percol =>
    let fresh : downsampler := {}
    let down :=
      if percol then fresh else fresh.set_global (matrix_total input.cols) (prop.headD 0)
    let r := matrix_loop u percol ngenes input.cols prop (List.replicate ngenes 0) down k
    (.ok ⟨ngenes, r.1⟩, r.2.2)

/-- `downsample_matrix` on a matrix of integer type (`rtype == INTSXP`): the integer
instance of `downsample_matrix_internal`. -/
def downsample_matrix (u : Nat → ℚ) (rmat : Matrix) (prop : List Double) (bycol : List Bool)
    (k : Nat) : Except Error Matrix × Nat :=
  downsample_matrix_internal u rmat prop bycol k

/-! ## Vocabulary of the statements -/

/-- A stream of uniform draws: every value is a `double` and lies in `[0, 1)`. -/
def unit_draws (u : Nat → ℚ) : Prop := ∀ i, is_double (u i) ∧ 0 ≤ u i ∧ u i < 1

/-- A stream that alternates between seven eighths and one eighth. -/
def mixed_draws : Nat → ℚ := fun i => if i % 2 = 0 then 7 / 8 else 1 / 8

/-- The `double` that the literal `0.35` denotes, a little below 7/20. -/
def double_0_35 : ℚ := 3152519739159347 / 2 ^ 53

/-- The `double` that the literal `0.3` denotes, a little below 3/10. -/
def double_0_3 : ℚ := 5404319552844595 / 2 ^ 54

/-- The `double` nearest to one third, a little below it. -/
def double_third : ℚ := 6004799503160661 / 2 ^ 54

/-- The `double` that the literal `-0.1` denotes. -/
def double_minus_0_1 : ℚ := -3602879701896397 / 2 ^ 55

/-- A vector of `2 ^ 23 + 1` counts, each of which fits an `int`, whose sum is
`2 ^ 53 + 1`. -/
def wide_counts : List Int := List.replicate (2 ^ 23) (2 ^ 30) ++ [1]

/-- A sequence of calls of the three-argument operator on one sampler, each into an
output vector of its own that starts all zero and is as long as its frequency vector:
the outputs in order, and the sampler and the number of draws after the last call. -/
def apply_each (u : Nat → ℚ) : List (List Int) → downsampler → Nat →
    List (List Int) × downsampler × Nat
  | [], d, k => ([], d, k)
  | v :: vs, d, k =>
    let r := apply u v (List.replicate v.length 0) d k
    let rest := apply_each u vs r.down r.drawn
    (r.out :: rest.1, rest.2.1, rest.2.2)

/-- The number of events selected in a sequence of outputs. -/
def selected_in (outs : List (List Int)) : Int := (outs.map List.sum).sum

/-- The contiguous runs of `xs` that the run lengths `cells` mark out, in order. -/
def run_slices : List Int → List Int → List (List Int)
  | [], _ => []
  | cell :: cells, xs => xs.take cell.toNat :: run_slices cells (xs.drop cell.toNat)

/-- A column that fits a matrix of `nrow` rows: a dense column has `nrow` values; a
sparse column has one row index below `nrow` for each stored value, in increasing
order. -/
def Column.fits (nrow : Nat) : Column → Prop
  | .dense values => values.length = nrow
  | .sparse indices values =>
    indices.length = values.length ∧ indices.Pairwise (· < ·) ∧ ∀ i ∈ indices, i < nrow

/-! ## Invariants of the sampler -/

/-- The invariant of the sampler: the total is one that `double` holds exactly, the
counters stay within the total and the budget, and no more events are left to select
than are left to process. -/
def Inv (d : downsampler) : Prop :=
  d.num_total < 2 ^ 53 ∧ d.num_selected ≤ d.num_sample ∧
    d.num_selected ≤ d.num_processed ∧ d.num_processed ≤ d.num_total ∧
    d.num_sample + d.num_processed ≤ d.num_total + d.num_selected

/-- The effect on the sampler of a stretch of the loops that had `n` events to handle. -/
structure Progress (d d' : downsampler) (n : Nat) : Prop where
  inv : Inv d'
  total : d'.num_total = d.num_total
  sample : d'.num_sample = d.num_sample
  sel_mono : d.num_selected ≤ d'.num_selected
  proc_mono : d.num_processed ≤ d'.num_processed
  proc_le : d'.num_processed ≤ d.num_processed + n
  sel_le : d'.num_selected + d.num_processed ≤ d.num_selected + d'.num_processed
  all : d'.num_selected < d'.num_sample → d'.num_processed = d.num_processed + n

/-- The number of events a frequency range stands for: the sum of the number of rounds
the inner loop can make at each position. -/
def events (freq : List Int) : Nat := (freq.map Int.toNat).sum

/-- Every event still to come has to be selected: as many are left to select as to
process. -/
def Tight (d : downsampler) : Prop :=
  d.num_sample + d.num_processed = d.num_total + d.num_selected

/-! ## The states a run of the sampler passes through -/

/-- The samplers met in the inner loop: the state after each pass through its body,
in order. -/
def for_events_states (u : Nat → ℚ) : Nat → Cell → List downsampler
  | 0, _ => []
  | n + 1, c =>
    if c.down.num_sample > c.down.num_selected then
      (event u c).down :: for_events_states u n (event u c)
    else []

/-- The samplers met in one call of the three-argument operator: the state after each
pass through the body of the inner loop, in order. -/
def apply_states (u : Nat → ℚ) : List Int → List Int → downsampler → Nat → List downsampler
  | [], _, _, _ => []
  | x :: freq, out, d, k =>
    if d.num_selected < d.num_sample then
      match out with
      | [] =>
        let c := for_events u x.toNat ⟨0, d, k⟩
        for_events_states u x.toNat ⟨0, d, k⟩ ++ apply_states u freq [] c.down c.drawn
      | o :: os =>
        let c := for_events u x.toNat ⟨o, d, k⟩
        for_events_states u x.toNat ⟨o, d, k⟩ ++ apply_states u freq os c.down c.drawn
    else []

/-- The samplers met in one single-vector call: the state in which the loops start,
then the state after each pass through the body of the inner loop. -/
def apply_single_states (u : Nat → ℚ) (freq out : List Int) (prop : Double)
    (d : downsampler)
    (k : Nat) : List downsampler :=
  let d1 := ({ d with num_total := bigsum freq }).set_num_sample prop
  { d1 with num_processed := 0, num_selected := 0 }
    :: apply_states u freq out { d1 with num_processed := 0, num_selected := 0 } k

/-- The samplers met in a sequence of calls of the three-argument operator as
`apply_each` makes them. -/
def apply_each_states (u : Nat → ℚ) : List (List Int) → downsampler → Nat → List downsampler
  | [], _, _ => []
  | v :: vs, d, k =>
    let r := apply u v (List.replicate v.length 0) d k
    apply_states u v (List.replicate v.length 0) d k ++ apply_each_states u vs r.down r.drawn

/-- The bounds the specification puts on the counters of the sampler. -/
def Bounds (d : downsampler) : Prop :=
  0 ≤ d.num_processed ∧ d.num_processed ≤ d.num_total ∧
    0 ≤ d.num_selected ∧ d.num_selected ≤ d.num_sample ∧ d.num_sample ≤ d.num_total

/-! ## The templates at `double` -/

/-- `static_cast<int>` on a `double`: the fraction is dropped, towards zero. C++
defines it for values that fit an `int` only. -/
def cast_int (x : ℚ) : Int :=
  if 0 ≤ x then Int.floor x else Int.ceil x

/-- `bigsum(start, end)` for a range of `double`: every element goes through
`static_cast<int>`, is converted to `bigint_t` and added to the accumulator, modulo
`2 ^ 64`. -/
def bigsum_numeric (xs : List ℚ) : Nat :=
  xs.foldl (fun sum x => Int.toNat (((sum : Int) + cast_int x) % (bigint_mod : Int))) 0

/-- The number of values `i = 0, 1, 2, ...` of the `int` counter with `i < x`, which
is how many rounds the bound `i<*freqIt` of the inner loop allows when `*freqIt` is a
`double`. -/
def rounds_numeric (x : ℚ) : Nat :=
  Int.toNat (Int.ceil x)

/-- The three-argument `downsampler::operator()` on a frequency range of `double`. -/
def apply_numeric (u : Nat → ℚ) : List ℚ → List Int → downsampler → Nat → Pass
  | [], out, d, k => ⟨out, d, k⟩
  | x :: freq, out, d, k =>
    if d.num_selected < d.num_sample then
      match out with
      | [] =>
        let c := for_events u (rounds_numeric x) ⟨0, d, k⟩
        let r := apply_numeric u freq [] c.down c.drawn
        ⟨[], r.down, r.drawn⟩
      | o :: os =>
        let c := for_events u (rounds_numeric x) ⟨o, d, k⟩
        let r := apply_numeric u freq os c.down c.drawn
        ⟨c.out :: r.out, r.down, r.drawn⟩
    else ⟨out, d, k⟩

/-- The four-argument `downsampler::operator()` on a frequency range of `double`. -/
def apply_single_numeric (u : Nat → ℚ) (freq : List ℚ) (out : List Int) (prop : Double)
    (d : downsampler) (k : Nat) : Pass :=
  let d1 := ({ d with num_total := bigsum_numeric freq }).set_num_sample prop
  apply_numeric u freq out { d1 with num_processed := 0, num_selected := 0 } k

/-- Modelled from the spec: the column view of `beachmat::const_column` on a matrix of
`double`, which is not among the sources; as `Column`, with values of type `double`. -/
inductive NumColumn where
  | dense (values : List ℚ)
  | sparse (indices : List Nat) (values : List ℚ)
deriving DecidableEq, Repr

/-- The values `get_values()` points to; there are `get_n()` of them. -/
def NumColumn.get_values : NumColumn → List ℚ
  | .dense values => values
  | .sparse _ values => values

/-- The number of values of the column, `get_n()`. -/
def NumColumn.get_n (c : NumColumn) : Nat := c.get_values.length

/-- The flag `is_sparse()`. -/
def NumColumn.is_sparse : NumColumn → Bool
  | .dense _ => false
  | .sparse _ _ => true

/-- The entry of the column in row `r`: a row a sparse column does not store holds 0. -/
def NumColumn.entry (c : NumColumn) (r : Nat) : ℚ :=
  match c with
  | .dense values => values.getD r 0
  | .sparse indices values => ((indices.zip values).lookup r).getD 0

/-- Modelled from the spec: a matrix of `double` of `beachmat`, input or output, as its
number of rows and its columns in order. -/
structure NumMatrix where
  nrow : Nat
  cols : List NumColumn
deriving DecidableEq, Repr

/-- The number of columns, `get_ncol()`. -/
def NumMatrix.ncol (m : NumMatrix) : Nat := m.cols.length

/-- The entry in row `r` and column `c`; 0 outside the matrix. -/
def NumMatrix.entry (m : NumMatrix) (r c : Nat) : ℚ :=
  match m.cols.get? c with
  | some col => col.entry r
  | none => 0

/-- The first loop of `downsample_matrix_internal` on a matrix of `double`. -/
def matrix_total_numeric (cols : List NumColumn) : Nat :=
  cols.foldl
    (fun num_total col => (num_total + bigsum_numeric col.get_values) % bigint_mod) 0

/-- Modelled from the spec: what the output matrix of `double` receives for a column
from the integer vector `outgoing`, as `store_column` for an integer matrix. -/
def store_column_numeric (ngenes : Nat) (col : NumColumn) (outgoing : List Int) :
    NumColumn :=
  match col with
  | .sparse indices _ =>
    NumColumn.sparse indices ((outgoing.take col.get_n).map (fun o : Int => (o : ℚ)))
  | .dense _ => NumColumn.dense ((outgoing.take ngenes).map (fun o : Int => (o : ℚ)))

/-- The `std::fill` that follows, as `clear_outgoing`. -/
def clear_outgoing_numeric (col : NumColumn) (outgoing : List Int) : List Int :=
  if col.is_sparse then
    List.replicate (min col.get_n outgoing.length) 0 ++ outgoing.drop col.get_n
  else List.replicate outgoing.length 0

/-- The second loop of `downsample_matrix_internal` on a matrix of `double`. -/
def matrix_loop_numeric (u : Nat → ℚ) (percol : Bool) (ngenes : Nat) :
    List NumColumn → List Double → List Int → downsampler → Nat →
      List NumColumn × downsampler × Nat
  | [], _, _, d, k => ([], d, k)
  | col :: cols, pIt, outgoing, d, k =>
    let r :=
      if percol then apply_single_numeric u col.get_values outgoing (pIt.headD 0) d k
      else apply_numeric u col.get_values outgoing d k
    let rest := matrix_loop_numeric u percol ngenes cols (if percol then pIt.tail else pIt)
      (clear_outgoing_numeric col r.out) r.down r.drawn
    (store_column_numeric ngenes col r.out :: rest.1, rest.2.1, rest.2.2)

/-- `downsample_matrix_internal` at the types of `double` (`Rcpp::NumericVector`,
`beachmat::numeric_matrix`, `beachmat::numeric_output`), entered when `k` draws have
been taken. -/
def downsample_matrix_internal_numeric (u : Nat → ℚ) (input : NumMatrix)
    (prop : List Double)
    (bycol : List Bool) (k : Nat) : Except Error NumMatrix × Nat :=
  let ngenes := input.nrow
  let ncells := input.ncol
  match check_downsampling_mode ncells prop bycol with
  | .error e => (.error e, k)
  | .ok percol =>
    let fresh : downsampler := {}
    let down :=
      if percol then fresh
      else fresh.set_global (matrix_total_numeric input.cols) (prop.headD 0)
    let r := matrix_loop_numeric u percol ngenes input.cols prop (List.replicate ngenes 0)
      down k
    (.ok ⟨ngenes, r.1⟩, r.2.2)

/-- `downsample_matrix` on a matrix that is not of integer type (the `else` branch):
the instance of `downsample_matrix_internal` at `double`. -/
def downsample_matrix_numeric (u : Nat → ℚ) (rmat : NumMatrix) (prop : List Double)
    (bycol : List Bool) (k : Nat) : Except Error NumMatrix × Nat :=
  downsample_matrix_internal_numeric u rmat prop bycol k

/-- A column of integer counts held in a matrix of `double`. -/
def Column.to_numeric : Column → NumColumn
  | .dense values => NumColumn.dense (values.map (fun x : Int => (x : ℚ)))
  | .sparse indices values => NumColumn.sparse indices (values.map (fun x : Int => (x : ℚ)))

/-- A matrix of integer counts held as a matrix of `double`. -/
def Matrix.to_numeric (m : Matrix) : NumMatrix :=
  ⟨m.nrow, m.cols.map Column.to_numeric⟩

/-! ## The selection test as a set of draws -/

/-- The selection test of the inner loop,
`(num_total - num_processed) * unif_rand() < num_sample - num_selected`, read as the
specification reads it, in exact arithmetic: a property of the value `x` of the draw,
which ranges over an ordered field, the rationals or the reals on which the uniform
distribution lives. The test the program makes, in `double`, is the one in `event`. -/
def selects {K : Type} [LinearOrderedField K] (d : downsampler) (x : K) : Prop :=
  (((d.num_total + bigint_mod - d.num_processed) % bigint_mod : Nat) : K) * x
    < (((d.num_sample + bigint_mod - d.num_selected) % bigint_mod : Nat) : K)

/-! ## Lemmas -/

theorem log2_steps_spec (fuel n : Nat) (h : n ≤ fuel) (hn : 0 < n) :
    2 ^ log2_steps fuel n ≤ n ∧ n < 2 ^ (log2_steps fuel n + 1) := by
  induction fuel generalizing n with
  | zero => omega
  | succ fuel ih =>
    by_cases h2 : 2 ≤ n
    · simp only [log2_steps, if_pos h2]
      obtain ⟨a, b⟩ := ih (n / 2) (by omega) (by omega)
      constructor
      · rw [pow_succ]; omega
      · rw [pow_succ]; omega
    · simp only [log2_steps, if_neg h2]
      omega

theorem log2_spec (n : Nat) (hn : 0 < n) : 2 ^ log2 n ≤ n ∧ n < 2 ^ (log2 n + 1) :=
  log2_steps_spec n n le_rfl hn

theorem ilog2_spec (x : ℚ) (hx : 0 < x) :
    (2 : ℚ) ^ ilog2 x ≤ x ∧ x < (2 : ℚ) ^ (ilog2 x + 1) := by
  have hnum : 0 < x.num := Rat.num_pos.mpr hx
  have hNpos : 0 < x.num.natAbs := Int.natAbs_pos.mpr (ne_of_gt hnum)
  have hDpos : 0 < x.den := x.den_pos
  have hNq : ((x.num.natAbs : Nat) : ℚ) = (x.num : ℚ) := by
    have h1 : ((x.num.natAbs : Nat) : Int) = x.num := Int.natAbs_of_nonneg (le_of_lt hnum)
    have h2 : (((x.num.natAbs : Nat) : Int) : ℚ) = (x.num : ℚ) := by rw [h1]
    rw [← h2, Int.cast_natCast]
  have hxe : x = ((x.num.natAbs : Nat) : ℚ) / ((x.den : Nat) : ℚ) := by
    rw [hNq]
    exact (Rat.num_div_den x).symm
  obtain ⟨a1, a2⟩ := log2_spec x.num.natAbs hNpos
  obtain ⟨b1, b2⟩ := log2_spec x.den hDpos
  unfold ilog2
  generalize x.num.natAbs = N at *
  generalize x.den = D at *
  generalize log2 N = a at *
  generalize log2 D = b at *
  clear hnum hNq
  subst hxe
  have hDq : (0 : ℚ) < (D : ℚ) := by exact_mod_cast hDpos
  have a1q : ((2 : ℚ) ^ a) ≤ (N : ℚ) := by exact_mod_cast a1
  have a2q : (N : ℚ) < (2 : ℚ) ^ (a + 1) := by exact_mod_cast a2
  have b1q : ((2 : ℚ) ^ b) ≤ (D : ℚ) := by exact_mod_cast b1
  have b2q : (D : ℚ) < (2 : ℚ) ^ (b + 1) := by exact_mod_cast b2
  have hpa : (0 : ℚ) < (2 : ℚ) ^ a := by positivity
  have hpb : (0 : ℚ) < (2 : ℚ) ^ b := by positivity
  have two : (2 : ℚ) ≠ 0 := two_ne_zero
  have e1 : (2 : ℚ) ^ ((a : Int) - (b : Int)) = (2 : ℚ) ^ a / (2 : ℚ) ^ b := by
    rw [zpow_sub₀ two, zpow_natCast, zpow_natCast]
  have e2 : (2 : ℚ) ^ ((a : Int) - (b : Int) + 1) = (2 : ℚ) ^ (a + 1) / (2 : ℚ) ^ b := by
    rw [zpow_add_one₀ two, e1, pow_succ]
    ring
  have e3 : (2 : ℚ) ^ ((a : Int) - (b : Int) - 1) = (2 : ℚ) ^ a / (2 : ℚ) ^ (b + 1) := by
    rw [zpow_sub_one₀ two, e1, pow_succ]
    field_simp
  have e4 : (2 : ℚ) ^ ((a : Int) - (b : Int) - 1 + 1) = (2 : ℚ) ^ a / (2 : ℚ) ^ b := by
    rw [sub_add_cancel, e1]
  have hpb1 : (0 : ℚ) < (2 : ℚ) ^ (b + 1) := by positivity
  by_cases hc : 2 ^ a * D ≤ N * 2 ^ b
  · have hcq : (2 : ℚ) ^ a * (D : ℚ) ≤ (N : ℚ) * (2 : ℚ) ^ b := by exact_mod_cast hc
    rw [if_pos hc, e1, e2]
    constructor
    · rw [div_le_div_iff₀ hpb hDq]
      exact hcq
    · rw [div_lt_div_iff₀ hDq hpb]
      nlinarith
  · have hcq : (N : ℚ) * (2 : ℚ) ^ b < (2 : ℚ) ^ a * (D : ℚ) := by
      have := not_le.mp hc
      exact_mod_cast this
    rw [if_neg hc, e3, e4]
    constructor
    · rw [div_le_div_iff₀ hpb1 hDq]
      nlinarith
    · rw [div_lt_div_iff₀ hDq hpb]
      exact hcq

theorem floor_facts (x : ℚ) :
    ((Int.floor x : Int) : ℚ) ≤ x ∧ x < ((Int.floor x : Int) : ℚ) + 1 :=
  ⟨Int.floor_le x, Int.lt_floor_add_one x⟩

theorem round_even_intCast (m : Int) : round_even (m : ℚ) = m := by
  have h : (m : ℚ) - (m : ℚ) < 1 / 2 := by norm_num
  simp only [round_even, Int.floor_intCast, if_pos h]

theorem round_even_le (x : ℚ) (m : Int) (h : x ≤ m) : round_even x ≤ m := by
  obtain ⟨f1, f2⟩ := floor_facts x
  have hf : Int.floor x ≤ m := by
    have : ((Int.floor x : Int) : ℚ) ≤ (m : ℚ) := le_trans f1 h
    exact_mod_cast this
  have key : 0 < x - ((Int.floor x : Int) : ℚ) → Int.floor x + 1 ≤ m := by
    intro hpos
    have : ((Int.floor x : Int) : ℚ) < (m : ℚ) := by linarith
    have : Int.floor x < m := by exact_mod_cast this
    omega
  unfold round_even
  split_ifs with h1 h2 h3
  · exact hf
  · exact key (by linarith)
  · exact hf
  · exact key (by linarith)

theorem le_round_even (x : ℚ) (m : Int) (h : (m : ℚ) ≤ x) : m ≤ round_even x := by
  have hf : m ≤ Int.floor x := Int.le_floor.mpr h
  unfold round_even
  split_ifs <;> omega

theorem round_even_lt (x : ℚ) (m : Int) (h : x < (m : ℚ) - 1 / 2) : round_even x < m := by
  obtain ⟨f1, f2⟩ := floor_facts x
  have hf : Int.floor x < m := by
    have : ((Int.floor x : Int) : ℚ) < (m : ℚ) := by linarith
    exact_mod_cast this
  have key : 1 / 2 ≤ x - ((Int.floor x : Int) : ℚ) → Int.floor x + 1 < m := by
    intro hpos
    have : ((Int.floor x : Int) : ℚ) + 1 < (m : ℚ) := by linarith
    have : Int.floor x + 1 < m := by exact_mod_cast this
    exact this
  unfold round_even
  split_ifs with h1 h2 h3
  · exact hf
  · exact key (by linarith)
  · exact hf
  · exact key (by linarith)

theorem round_even_close (x : ℚ) : |(round_even x : ℚ) - x| ≤ 1 / 2 := by
  obtain ⟨f1, f2⟩ := floor_facts x
  rw [abs_le]
  unfold round_even
  split_ifs with h1 h2 h3
  · constructor <;> linarith
  · push_cast
    constructor <;> linarith
  · have : x - ((Int.floor x : Int) : ℚ) = 1 / 2 := le_antisymm (not_lt.mp h2) (not_lt.mp h1)
    constructor <;> linarith
  · have : x - ((Int.floor x : Int) : ℚ) = 1 / 2 := le_antisymm (not_lt.mp h2) (not_lt.mp h1)
    push_cast
    constructor <;> linarith

/-- The shape of the spacing of `double` at a positive value below `2 ^ 53`: a power
`1 / 2 ^ j` of one half for which `x * 2 ^ j` lies below `2 ^ 53`, and from `2 ^ 52` on
unless the value is subnormal. -/
theorem quantum_shape (x : ℚ) (h0 : 0 < x) (h53 : x < 2 ^ 53) :
    ∃ j : Nat, quantum x = 1 / (2 : ℚ) ^ j ∧ x * (2 : ℚ) ^ j < 2 ^ 53 ∧
      ((2 : ℚ) ^ 52 ≤ x * (2 : ℚ) ^ j ∨ j = 1074) := by
  obtain ⟨s1, s2⟩ := ilog2_spec x h0
  have two : (2 : ℚ) ≠ 0 := two_ne_zero
  have he : ilog2 x ≤ 52 := by
    have h1 : (2 : ℚ) ^ (ilog2 x) < (2 : ℚ) ^ (53 : Int) := by
      refine lt_of_le_of_lt s1 ?_
      rw [show ((53 : Int)) = ((53 : Nat) : Int) from rfl, zpow_natCast]
      exact h53
    have h2 := (zpow_lt_zpow_iff_right₀ (by norm_num : (1 : ℚ) < 2)).mp h1
    omega
  unfold quantum
  generalize ilog2 x = e at *
  by_cases hn : -1022 ≤ e
  · obtain ⟨j, hj⟩ : ∃ j : Nat, e = 52 - (j : Int) := ⟨(52 - e).toNat, by omega⟩
    subst hj
    have hp : (0 : ℚ) < (2 : ℚ) ^ j := by positivity
    have e1 : (2 : ℚ) ^ ((52 : Int) - (j : Int)) = (2 : ℚ) ^ 52 / (2 : ℚ) ^ j := by
      rw [zpow_sub₀ two, zpow_natCast]
      norm_num
    have e2 : (2 : ℚ) ^ ((52 : Int) - (j : Int) + 1) = (2 : ℚ) ^ 53 / (2 : ℚ) ^ j := by
      rw [zpow_add_one₀ two, e1]
      ring
    have e3 : max ((52 : Int) - (j : Int)) (-1022) - 52 = - (j : Int) := by
      rw [max_eq_left hn]
      ring
    rw [e1] at s1
    rw [e2] at s2
    refine ⟨j, ?_, ?_, Or.inl ?_⟩
    · rw [e3, zpow_neg, zpow_natCast, one_div]
    · rwa [lt_div_iff₀ hp] at s2
    · rwa [div_le_iff₀ hp] at s1
  · have hn' : e < -1022 := not_le.mp hn
    have e3 : max e (-1022) - 52 = - ((1074 : Nat) : Int) := by
      rw [max_eq_right (le_of_lt hn')]
      rfl
    have h1 : (2 : ℚ) ^ (e + 1) ≤ (2 : ℚ) ^ (-1022 : Int) :=
      zpow_le_zpow_right₀ (by norm_num) (by omega)
    have h2 : (2 : ℚ) ^ (-1022 : Int) = 1 / (2 : ℚ) ^ 1022 := by
      rw [show (-1022 : Int) = - ((1022 : Nat) : Int) from rfl, zpow_neg, zpow_natCast, one_div]
    have h3 : x < 1 / (2 : ℚ) ^ 1022 := by
      rw [← h2]
      exact lt_of_lt_of_le s2 h1
    have hp : (0 : ℚ) < (2 : ℚ) ^ 1022 := by positivity
    refine ⟨1074, ?_, ?_, Or.inr rfl⟩
    · rw [e3, zpow_neg, zpow_natCast, one_div]
    · rw [lt_div_iff₀ hp] at h3
      have h4 : (2 : ℚ) ^ 1074 = (2 : ℚ) ^ 1022 * (2 : ℚ) ^ 52 := by
        rw [← pow_add]
      rw [h4, ← mul_assoc]
      have h5 : (0 : ℚ) < (2 : ℚ) ^ 52 := by positivity
      have h6 : (2 : ℚ) ^ 52 < (2 : ℚ) ^ 53 := by norm_num
      nlinarith

theorem fl_zero : fl 0 = 0 := by decide!

/-- What rounding does to a positive value below `2 ^ 53`: the significand
`x * 2 ^ j` is rounded to an integer. -/
theorem fl_shape (x : ℚ) (h0 : 0 < x) (h53 : x < 2 ^ 53) :
    ∃ j : Nat, fl x = (round_even (x * (2 : ℚ) ^ j) : ℚ) / (2 : ℚ) ^ j ∧
      x * (2 : ℚ) ^ j < 2 ^ 53 ∧ ((2 : ℚ) ^ 52 ≤ x * (2 : ℚ) ^ j ∨ j = 1074) := by
  obtain ⟨j, q, a, b⟩ := quantum_shape x h0 h53
  refine ⟨j, ?_, a, b⟩
  unfold fl
  rw [q, div_div_eq_mul_div, div_one, mul_one_div]

theorem fl_nonneg (x : ℚ) (h0 : 0 ≤ x) : 0 ≤ fl x := by
  have hq : (0 : ℚ) < quantum x := by
    unfold quantum
    positivity
  unfold fl
  have h1 : ((0 : Int) : ℚ) ≤ x / quantum x := by
    rw [Int.cast_zero]
    exact div_nonneg h0 (le_of_lt hq)
  have h2 := le_round_even _ 0 h1
  have h3 : (0 : ℚ) ≤ (round_even (x / quantum x) : ℚ) := by exact_mod_cast h2
  exact mul_nonneg h3 (le_of_lt hq)

theorem fl_natCast (n : Nat) (hn : n < 2 ^ 53) : fl (n : ℚ) = n := by
  rcases Nat.eq_zero_or_pos n with rfl | hpos
  · simpa using fl_zero
  · have h0 : (0 : ℚ) < (n : ℚ) := by exact_mod_cast hpos
    have h53 : (n : ℚ) < 2 ^ 53 := by exact_mod_cast hn
    obtain ⟨j, e, -, -⟩ := fl_shape (n : ℚ) h0 h53
    have hp : (0 : ℚ) < (2 : ℚ) ^ j := by positivity
    have hc : (n : ℚ) * (2 : ℚ) ^ j = (((n * 2 ^ j : Nat) : Int) : ℚ) := by push_cast; ring
    rw [e, hc, round_even_intCast, ← hc]
    field_simp

theorem fl_le_natCast (x : ℚ) (h0 : 0 ≤ x) (n : Nat) (hn : n < 2 ^ 53) (hx : x ≤ n) :
    fl x ≤ n := by
  rcases eq_or_lt_of_le h0 with rfl | hpos
  · rw [fl_zero]
    exact Nat.cast_nonneg n
  · have h53 : x < 2 ^ 53 := lt_of_le_of_lt hx (by exact_mod_cast hn)
    obtain ⟨j, e, -, -⟩ := fl_shape x hpos h53
    have hp : (0 : ℚ) < (2 : ℚ) ^ j := by positivity
    have hc : (n : ℚ) * (2 : ℚ) ^ j = (((n * 2 ^ j : Nat) : Int) : ℚ) := by push_cast; ring
    have h1 : x * (2 : ℚ) ^ j ≤ (((n * 2 ^ j : Nat) : Int) : ℚ) := by
      rw [← hc]
      exact mul_le_mul_of_nonneg_right hx (le_of_lt hp)
    have h2 := round_even_le _ _ h1
    have h3 : (round_even (x * (2 : ℚ) ^ j) : ℚ) ≤ (n : ℚ) * (2 : ℚ) ^ j := by
      rw [hc]
      exact_mod_cast h2
    rw [e, div_le_iff₀ hp]
    exact h3

theorem natCast_le_fl (x : ℚ) (h53 : x < 2 ^ 53) (n : Nat) (hx : (n : ℚ) ≤ x) :
    (n : ℚ) ≤ fl x := by
  have h0 : 0 ≤ x := le_trans (Nat.cast_nonneg n) hx
  rcases eq_or_lt_of_le h0 with rfl | hpos
  · rw [fl_zero]
    exact hx
  · obtain ⟨j, e, -, -⟩ := fl_shape x hpos h53
    have hp : (0 : ℚ) < (2 : ℚ) ^ j := by positivity
    have hc : (n : ℚ) * (2 : ℚ) ^ j = (((n * 2 ^ j : Nat) : Int) : ℚ) := by push_cast; ring
    have h1 : (((n * 2 ^ j : Nat) : Int) : ℚ) ≤ x * (2 : ℚ) ^ j := by
      rw [← hc]
      exact mul_le_mul_of_nonneg_right hx (le_of_lt hp)
    have h2 := le_round_even _ _ h1
    have h3 : (n : ℚ) * (2 : ℚ) ^ j ≤ (round_even (x * (2 : ℚ) ^ j) : ℚ) := by
      rw [hc]
      exact_mod_cast h2
    rw [e, le_div_iff₀ hp]
    exact h3

/-- A value that lies below the integer `b` by at least the relative spacing
`2 ^ -53` rounds to a `double` below `b`. -/
theorem fl_lt_natCast (x : ℚ) (h0 : 0 ≤ x) (b : Nat) (hb0 : 0 < b) (hb : b < 2 ^ 53)
    (hx : x ≤ (b : ℚ) * (1 - 1 / 2 ^ 53)) : fl x < b := by
  have hbq : (0 : ℚ) < (b : ℚ) := by exact_mod_cast hb0
  have hb1 : (1 : ℚ) ≤ (b : ℚ) := by exact_mod_cast hb0
  rcases eq_or_lt_of_le h0 with rfl | hpos
  · rw [fl_zero]
    exact hbq
  · have hxb : x < b := by
      have : (b : ℚ) * (1 - 1 / 2 ^ 53) < b := by nlinarith
      linarith
    have h53 : x < 2 ^ 53 := lt_trans hxb (by exact_mod_cast hb)
    obtain ⟨j, e, -, hj⟩ := fl_shape x hpos h53
    have hp : (0 : ℚ) < (2 : ℚ) ^ j := by positivity
    have hc : (b : ℚ) * (2 : ℚ) ^ j = (((b * 2 ^ j : Nat) : Int) : ℚ) := by push_cast; ring
    have hbig : (2 : ℚ) ^ 52 < (b : ℚ) * (2 : ℚ) ^ j := by
      rcases hj with hj | hj
      · exact lt_of_le_of_lt hj (mul_lt_mul_of_pos_right hxb hp)
      · subst hj
        have h4 : (2 : ℚ) ^ 52 < (2 : ℚ) ^ 1074 := by norm_num
        nlinarith
    have h1 : x * (2 : ℚ) ^ j < (((b * 2 ^ j : Nat) : Int) : ℚ) - 1 / 2 := by
      rw [← hc]
      have h5 : x * (2 : ℚ) ^ j ≤ (b : ℚ) * (1 - 1 / 2 ^ 53) * (2 : ℚ) ^ j :=
        mul_le_mul_of_nonneg_right hx (le_of_lt hp)
      have h6 : (b : ℚ) * (1 - 1 / 2 ^ 53) * (2 : ℚ) ^ j
          = (b : ℚ) * (2 : ℚ) ^ j - (b : ℚ) * (2 : ℚ) ^ j / 2 ^ 53 := by ring
      have h7 : (1 : ℚ) / 2 < (b : ℚ) * (2 : ℚ) ^ j / 2 ^ 53 := by
        rw [lt_div_iff₀ (by positivity)]
        have : (1 : ℚ) / 2 * 2 ^ 53 = 2 ^ 52 := by norm_num
        rw [this]
        exact hbig
      linarith
    have h2 := round_even_lt _ _ h1
    have h3 : (round_even (x * (2 : ℚ) ^ j) : ℚ) < (b : ℚ) * (2 : ℚ) ^ j := by
      rw [hc]
      exact_mod_cast h2
    rw [e, div_lt_iff₀ hp]
    exact h3

/-- The largest `double` below 1 is `1 - 2 ^ -53`. -/
theorem double_lt_one (u : ℚ) (hd : is_double u) (h0 : 0 ≤ u) (h1 : u < 1) :
    u ≤ 1 - 1 / 2 ^ 53 := by
  rcases eq_or_lt_of_le h0 with rfl | hpos
  · norm_num
  · have h53 : u < 2 ^ 53 := lt_trans h1 (by norm_num)
    obtain ⟨j, e, a, b⟩ := fl_shape u hpos h53
    have hp : (0 : ℚ) < (2 : ℚ) ^ j := by positivity
    rw [hd.1] at e
    have hm : u * (2 : ℚ) ^ j = (round_even (u * (2 : ℚ) ^ j) : ℚ) := by
      rw [eq_div_iff (ne_of_gt hp)] at e
      exact e
    generalize round_even (u * (2 : ℚ) ^ j) = m at *
    rw [hm] at a b
    have hm53 : m ≤ 2 ^ 53 - 1 := by
      have : m < 2 ^ 53 := by exact_mod_cast a
      omega
    have hj : (2 : ℚ) ^ 53 ≤ (2 : ℚ) ^ j := by
      rcases b with b | b
      · have hlt : (m : ℚ) < (2 : ℚ) ^ j := by
          rw [← hm]
          nlinarith
        have h2 : (2 : ℚ) ^ 52 < (2 : ℚ) ^ j := lt_of_le_of_lt b hlt
        have h3 : 52 < j := (pow_lt_pow_iff_right₀ (by norm_num : (1 : ℚ) < 2)).mp h2
        exact pow_le_pow_right₀ (by norm_num) h3
      · subst b
        norm_num
    have hmq : (m : ℚ) ≤ 2 ^ 53 - 1 := by exact_mod_cast hm53
    rw [e, div_le_iff₀ hp]
    have h5 : (0 : ℚ) ≤ 1 - 1 / 2 ^ 53 := by norm_num
    have h6 : (1 - 1 / 2 ^ 53 : ℚ) * 2 ^ 53 = 2 ^ 53 - 1 := by norm_num
    calc (m : ℚ) ≤ 2 ^ 53 - 1 := hmq
      _ = (1 - 1 / 2 ^ 53 : ℚ) * 2 ^ 53 := h6.symm
      _ ≤ (1 - 1 / 2 ^ 53 : ℚ) * (2 : ℚ) ^ j := mul_le_mul_of_nonneg_left hj h5

/-- The product of a count below `2 ^ 53` and a draw below 1 rounds to a `double`
below the count. -/
theorem fl_mul_draw_lt (a : Nat) (ha0 : 0 < a) (ha : a < 2 ^ 53) (u : ℚ) (hd : is_double u)
    (h0 : 0 ≤ u) (h1 : u < 1) : fl ((a : ℚ) * u) < a := by
  have hu := double_lt_one u hd h0 h1
  exact fl_lt_natCast _ (mul_nonneg (Nat.cast_nonneg a) h0) a ha0 ha
    (mul_le_mul_of_nonneg_left hu (Nat.cast_nonneg a))

/-- Rounding moves a value between 0 and an integer `n` below `2 ^ 53` by at most
`n / 2 ^ 53`. -/
theorem fl_close (x : ℚ) (h0 : 0 ≤ x) (n : Nat) (hn : n < 2 ^ 53) (hx : x ≤ n) :
    |fl x - x| ≤ (n : ℚ) / 2 ^ 53 := by
  rcases eq_or_lt_of_le h0 with rfl | hpos
  · rw [fl_zero, sub_zero, abs_zero]
    positivity
  · have h53 : x < 2 ^ 53 := lt_of_le_of_lt hx (by exact_mod_cast hn)
    have hn1 : (1 : ℚ) ≤ (n : ℚ) := by
      have : 0 < n := by
        have : (0 : ℚ) < (n : ℚ) := lt_of_lt_of_le hpos hx
        exact_mod_cast this
      exact_mod_cast this
    obtain ⟨j, e, -, hj⟩ := fl_shape x hpos h53
    have hp : (0 : ℚ) < (2 : ℚ) ^ j := by positivity
    have hr := round_even_close (x * (2 : ℚ) ^ j)
    have hbig : (2 : ℚ) ^ 52 ≤ (n : ℚ) * (2 : ℚ) ^ j := by
      rcases hj with hj | hj
      · exact le_trans hj (mul_le_mul_of_nonneg_right hx (le_of_lt hp))
      · subst hj
        have h4 : (2 : ℚ) ^ 52 < (2 : ℚ) ^ 1074 := by norm_num
        nlinarith
    have h1 : fl x - x = ((round_even (x * (2 : ℚ) ^ j) : ℚ) - x * (2 : ℚ) ^ j) / (2 : ℚ) ^ j := by
      rw [e]
      field_simp
      ring
    rw [h1, abs_div, abs_of_pos hp, div_le_iff₀ hp]
    have h2 : (n : ℚ) / 2 ^ 53 * (2 : ℚ) ^ j = (n : ℚ) * (2 : ℚ) ^ j / 2 ^ 53 := by ring
    rw [h2]
    have h3 : (1 : ℚ) / 2 ≤ (n : ℚ) * (2 : ℚ) ^ j / 2 ^ 53 := by
      rw [le_div_iff₀ (by positivity)]
      have : (1 : ℚ) / 2 * 2 ^ 53 = 2 ^ 52 := by norm_num
      rw [this]
      exact hbig
    exact le_trans hr h3

theorem fl_le_two_mul (x : ℚ) (h1 : 1 ≤ x) : fl x ≤ 2 * x := by
  have h0 : 0 < x := lt_of_lt_of_le one_pos h1
  obtain ⟨s1, s2⟩ := ilog2_spec x h0
  have he : 0 ≤ ilog2 x := by
    have h2 : (2 : ℚ) ^ (0 : Int) < (2 : ℚ) ^ (ilog2 x + 1) := by
      rw [zpow_zero]
      exact lt_of_le_of_lt h1 s2
    have h3 := (zpow_lt_zpow_iff_right₀ (by norm_num : (1 : ℚ) < 2)).mp h2
    omega
  have hq : quantum x ≤ x := by
    unfold quantum
    rw [max_eq_left (by omega)]
    refine le_trans ?_ s1
    exact zpow_le_zpow_right₀ (by norm_num) (by omega)
  have hq0 : (0 : ℚ) < quantum x := by
    unfold quantum
    positivity
  have hr := round_even_close (x / quantum x)
  have hr2 : (round_even (x / quantum x) : ℚ) ≤ x / quantum x + 1 / 2 := by
    have := (abs_le.mp hr).2
    linarith
  unfold fl
  calc (round_even (x / quantum x) : ℚ) * quantum x
      ≤ (x / quantum x + 1 / 2) * quantum x := mul_le_mul_of_nonneg_right hr2 (le_of_lt hq0)
    _ = x + quantum x / 2 := by
      field_simp
      ring
    _ ≤ 2 * x := by linarith

theorem fin_lt_fin (p q : ℚ) : Double.fin p < Double.fin q ↔ p < q := by
  show decide (p < q) = true ↔ p < q
  exact decide_eq_true_iff

theorem fin_lt_zero (p : ℚ) : Double.fin p < 0 ↔ p < 0 :=
  fin_lt_fin p 0

theorem one_lt_fin (p : ℚ) : (1 : Double) < Double.fin p ↔ 1 < p :=
  fin_lt_fin 1 p

theorem of_rat_of_le (x : ℚ) (h0 : 0 ≤ x) (n : Nat) (hn : n < 2 ^ 53) (hx : x ≤ n) :
    Double.of_rat x = Double.fin (fl x) := by
  have h1 := fl_nonneg x h0
  have h2 := fl_le_natCast x h0 n hn hx
  have h3 : (n : ℚ) < 2 ^ 53 := by exact_mod_cast hn
  have h4 : ¬ (2 : ℚ) ^ 1024 ≤ |fl x| := by
    rw [abs_of_nonneg h1, not_le]
    have : (2 : ℚ) ^ 53 < 2 ^ 1024 := by norm_num
    linarith
  simp only [Double.of_rat, if_neg h4]

theorem of_bigint_exact (n : Nat) (hn : n < 2 ^ 53) : Double.of_bigint n = Double.fin n := by
  unfold Double.of_bigint
  rw [of_rat_of_le n (Nat.cast_nonneg n) n hn le_rfl, fl_natCast n hn]

/-- The conversion of a `bigint_t` to `double` gives a finite value that is not
negative. -/
theorem of_bigint_fin (n : Nat) (hn : n < bigint_mod) :
    ∃ q : ℚ, Double.of_bigint n = Double.fin q ∧ 0 ≤ q := by
  have h0 : (0 : ℚ) ≤ (n : ℚ) := Nat.cast_nonneg n
  have h1 := fl_nonneg (n : ℚ) h0
  have h2 : fl (n : ℚ) < 2 ^ 1024 := by
    rcases Nat.eq_zero_or_pos n with rfl | hpos
    · rw [Nat.cast_zero, fl_zero]
      positivity
    · have hn1 : (1 : ℚ) ≤ (n : ℚ) := by exact_mod_cast hpos
      have h3 := fl_le_two_mul (n : ℚ) hn1
      have h4 : (n : ℚ) < 2 ^ 64 := by
        have : n < 2 ^ 64 := hn
        exact_mod_cast this
      have h5 : (2 : ℚ) * 2 ^ 64 < 2 ^ 1024 := by norm_num
      linarith
  have h4 : ¬ (2 : ℚ) ^ 1024 ≤ |fl (n : ℚ)| := by
    rw [abs_of_nonneg h1, not_le]
    exact h2
  refine ⟨fl (n : ℚ), ?_, h1⟩
  simp only [Double.of_bigint, Double.of_rat, if_neg h4]

theorem of_rat_zero : Double.of_rat 0 = Double.fin 0 := by decide!

theorem to_bigint_round_zero :
    Double.to_bigint (Double.round (Double.fin 0)) = 0 := by decide!

/-- The budget is 0 when the proportion is 0 or the total is 0. -/
theorem budget_zero (p : ℚ) (N : Nat) (hN : N < bigint_mod) (h : p = 0 ∨ N = 0) :
    Double.to_bigint (Double.round (Double.mul (Double.fin p) (Double.of_bigint N))) = 0 := by
  obtain ⟨q, hq, -⟩ := of_bigint_fin N hN
  have hq0 : p * q = 0 := by
    rcases h with h | h
    · rw [h, zero_mul]
    · subst h
      have : Double.of_bigint 0 = Double.fin 0 := by decide!
      rw [this] at hq
      injection hq with hq
      rw [← hq, mul_zero]
  rw [hq]
  simp only [Double.mul, hq0, of_rat_zero]
  exact to_bigint_round_zero

/-- The budget on a total of 0, whatever the proportion. -/
theorem budget_zero_total (p : Double) :
    Double.to_bigint (Double.round (Double.mul p (Double.of_bigint 0))) = 0 := by
  have h0 : Double.of_bigint 0 = Double.fin 0 := by decide!
  rw [h0]
  cases p with
  | nan => rfl
  | inf s => rfl
  | fin q =>
    simp only [Double.mul, mul_zero, of_rat_zero]
    exact to_bigint_round_zero

/-- The budget `std::round(prop * num_total)` for a total that `double` holds exactly
and a proportion in [0, 1]: the product is rounded to the nearest `double`, then to the
nearest integer, and lies between 0 and the total. -/
theorem budget_spec (N : Nat) (hN : N < 2 ^ 53) (p : ℚ) (h0 : 0 ≤ p) (h1 : p ≤ 1) :
    Double.to_bigint (Double.round (Double.mul (Double.fin p) (Double.of_bigint N)))
      = (std_round (fl (p * (N : ℚ)))).toNat ∧
    0 ≤ std_round (fl (p * (N : ℚ))) ∧ std_round (fl (p * (N : ℚ))) ≤ N := by
  have hn : (0 : ℚ) ≤ (N : ℚ) := Nat.cast_nonneg N
  have hx0 : 0 ≤ p * (N : ℚ) := mul_nonneg h0 hn
  have hxN : p * (N : ℚ) ≤ N := by nlinarith
  have hy0 := fl_nonneg _ hx0
  have hyN := fl_le_natCast _ hx0 N hN hxN
  have hr : std_round (fl (p * (N : ℚ))) = Int.floor (fl (p * (N : ℚ)) + 1 / 2) := by
    simp only [std_round, if_pos hy0]
  have hr0 : 0 ≤ std_round (fl (p * (N : ℚ))) := by
    rw [hr]
    exact Int.floor_nonneg.mpr (by linarith)
  have hrN : std_round (fl (p * (N : ℚ))) ≤ N := by
    rw [hr]
    have : Int.floor (fl (p * (N : ℚ)) + 1 / 2) < (N : Int) + 1 := by
      rw [Int.floor_lt]
      push_cast
      linarith
    omega
  refine ⟨?_, hr0, hrN⟩
  rw [of_bigint_exact N hN]
  simp only [Double.mul, of_rat_of_le _ hx0 N hN hxN, Double.round, Double.to_bigint]
  have hlt : ((std_round (fl (p * (N : ℚ))) : Int) : ℚ) < 2 ^ 64 := by
    have h2 : ((std_round (fl (p * (N : ℚ))) : Int) : ℚ) ≤ (N : ℚ) := by exact_mod_cast hrN
    have h3 : (N : ℚ) < 2 ^ 53 := by exact_mod_cast hN
    have h4 : (2 : ℚ) ^ 53 < 2 ^ 64 := by norm_num
    linarith
  rw [if_pos hlt, Int.floor_intCast]

/-- The selection test of `event` on counts that `double` holds exactly and a draw in
the unit interval: the product is rounded once. -/
theorem event_test (a b : Nat) (ha : a < 2 ^ 53) (hb : b < 2 ^ 53) (x : ℚ) (h0 : 0 ≤ x)
    (h1 : x ≤ 1) :
    Double.mul (Double.of_bigint a) (Double.fin x) < Double.of_bigint b
      ↔ fl ((a : ℚ) * x) < b := by
  have hn : (0 : ℚ) ≤ (a : ℚ) := Nat.cast_nonneg a
  have hx0 : 0 ≤ (a : ℚ) * x := mul_nonneg hn h0
  have hxa : (a : ℚ) * x ≤ a := by nlinarith
  rw [of_bigint_exact a ha, of_bigint_exact b hb]
  simp only [Double.mul, of_rat_of_le _ hx0 a ha hxa]
  exact fin_lt_fin _ _

theorem bigsum_foldl (xs : List Int) (acc : Nat) (h0 : ∀ x ∈ xs, 0 ≤ x)
    (hlt : (acc : Int) + xs.sum < bigint_mod) :
    ((xs.foldl (fun sum x => Int.toNat (((sum : Int) + x) % (bigint_mod : Int))) acc : Nat) : Int)
      = acc + xs.sum := by
  induction xs generalizing acc with
  | nil => simp
  | cons x xs ih =>
    have hx : 0 ≤ x := h0 x (List.mem_cons_self _ _)
    have hs : 0 ≤ xs.sum := List.sum_nonneg (fun y hy => h0 y (List.mem_cons_of_mem _ hy))
    simp only [List.sum_cons] at hlt
    simp only [List.foldl_cons, List.sum_cons]
    have hm : ((acc : Int) + x) % (bigint_mod : Int) = acc + x :=
      Int.emod_eq_of_lt (by omega) (by omega)
    have hn : ((Int.toNat (((acc : Int) + x) % (bigint_mod : Int)) : Nat) : Int) = acc + x := by
      rw [hm]; exact Int.toNat_of_nonneg (by omega)
    rw [ih _ (fun y hy => h0 y (List.mem_cons_of_mem _ hy)) (by rw [hn]; omega), hn]
    ring

theorem bigsum_eq_sum (xs : List Int) (h0 : ∀ x ∈ xs, 0 ≤ x) (hlt : xs.sum < bigint_mod) :
    (bigsum xs : Int) = xs.sum := by
  have := bigsum_foldl xs 0 h0 (by simpa using hlt)
  simpa [bigsum] using this

theorem event_spec (u : Nat → ℚ) (c : Cell)
    (hu : is_double (u c.drawn) ∧ 0 ≤ u c.drawn ∧ u c.drawn < 1) (h : Inv c.down)
    (hlt : c.down.num_selected < c.down.num_sample) :
    Inv (event u c).down ∧ (event u c).down.num_total = c.down.num_total ∧
      (event u c).down.num_sample = c.down.num_sample ∧
      (event u c).down.num_processed = c.down.num_processed + 1 ∧
      (event u c).drawn = c.drawn + 1 ∧
      (((event u c).out = c.out ∧ (event u c).down.num_selected = c.down.num_selected) ∨
       ((event u c).out = c.out + 1 ∧
          (event u c).down.num_selected = c.down.num_selected + 1)) := by
  obtain ⟨o, ⟨T, S, P, s⟩, k⟩ := c
  obtain ⟨hT, hsS, hsP, hPT, hrem⟩ := h
  simp only at hT hsS hsP hPT hrem hlt hu
  have h1 : (T + bigint_mod - P) % bigint_mod = T - P := by
    show (T + 2 ^ 64 - P) % 2 ^ 64 = T - P
    omega
  have h2 : (S + bigint_mod - s) % bigint_mod = S - s := by
    show (S + 2 ^ 64 - s) % 2 ^ 64 = S - s
    omega
  have h4 : (P + 1) % bigint_mod = P + 1 := by
    show (P + 1) % 2 ^ 64 = P + 1
    omega
  have hpos : 0 < T - P := by omega
  have ha : T - P < 2 ^ 53 := by omega
  have hb : S - s < 2 ^ 53 := by omega
  have htest := event_test (T - P) (S - s) ha hb (u k) hu.2.1 (le_of_lt hu.2.2)
  simp only [event, h1, h2, h4, Inv]
  by_cases hk : Double.mul (Double.of_bigint (T - P)) (Double.fin (u k))
      < Double.of_bigint (S - s)
  · have h3 : (s + 1) % bigint_mod = s + 1 := by
      show (s + 1) % 2 ^ 64 = s + 1
      omega
    rw [if_pos hk]
    simp only [h3]
    refine ⟨⟨hT, by omega, by omega, by omega, by omega⟩, ?_⟩
    simp
  · have hq : ((S - s : Nat) : ℚ) < ((T - P : Nat) : ℚ) := by
      have h5 := fl_mul_draw_lt (T - P) hpos ha (u k) hu.1 hu.2.1 hu.2.2
      have h6 : ¬ fl (((T - P : Nat) : ℚ) * u k) < ((S - s : Nat) : ℚ) :=
        fun h => hk (htest.mpr h)
      exact lt_of_le_of_lt (not_lt.mp h6) h5
    have hn : S - s < T - P := by exact_mod_cast hq
    rw [if_neg hk]
    dsimp only
    refine ⟨⟨hT, by omega, by omega, by omega, by omega⟩, ?_⟩
    simp

theorem Progress.refl {d : downsampler} (h : Inv d) : Progress d d 0 :=
  ⟨h, rfl, rfl, le_refl _, le_refl _, le_refl _, le_refl _, fun _ => rfl⟩

theorem Progress.stop {d : downsampler} (h : Inv d) (hs : ¬ d.num_selected < d.num_sample)
    (n : Nat) : Progress d d n :=
  ⟨h, rfl, rfl, le_refl _, le_refl _, Nat.le_add_right _ _, le_refl _, fun h' => absurd h' hs⟩

theorem Progress.trans {d d' d'' : downsampler} {n m : Nat} (h1 : Progress d d' n)
    (h2 : Progress d' d'' m) : Progress d d'' (n + m) := by
  obtain ⟨i1, t1, s1, a1, b1, c1, e1, f1⟩ := h1
  obtain ⟨i2, t2, s2, a2, b2, c2, e2, f2⟩ := h2
  refine ⟨i2, t2.trans t1, s2.trans s1, by omega, by omega, by omega, by omega, ?_⟩
  intro h
  have h3 := f2 h
  have h4 := f1 (by omega)
  omega

theorem event_progress (u : Nat → ℚ) (c : Cell) (hu : unit_draws u) (h : Inv c.down)
    (hlt : c.down.num_selected < c.down.num_sample) :
    Progress c.down (event u c).down 1 := by
  obtain ⟨i, t, s, p, -, hor⟩ := event_spec u c (hu _) h hlt
  refine ⟨i, t, s, ?_, by omega, by omega, ?_, fun _ => p⟩
  · rcases hor with ⟨-, h1⟩ | ⟨-, h1⟩ <;> omega
  · rcases hor with ⟨-, h1⟩ | ⟨-, h1⟩ <;> omega

theorem event_out (u : Nat → ℚ) (c : Cell) (hu : unit_draws u) (h : Inv c.down)
    (hlt : c.down.num_selected < c.down.num_sample) :
    (event u c).out + c.down.num_selected = c.out + (event u c).down.num_selected ∧
      (event u c).drawn + c.down.num_processed = c.drawn + (event u c).down.num_processed := by
  obtain ⟨-, -, -, p, q, hor⟩ := event_spec u c (hu _) h hlt
  constructor
  · rcases hor with ⟨h0, h1⟩ | ⟨h0, h1⟩
    · rw [h0, h1]
    · rw [h0, h1]; push_cast; ring
  · omega

theorem for_events_spec (u : Nat → ℚ) (hu : unit_draws u) (n : Nat) (c : Cell)
    (h : Inv c.down) :
    Progress c.down (for_events u n c).down n ∧
      (for_events u n c).out + c.down.num_selected
        = c.out + (for_events u n c).down.num_selected ∧
      (for_events u n c).drawn + c.down.num_processed
        = c.drawn + (for_events u n c).down.num_processed := by
  induction n generalizing c with
  | zero => exact ⟨Progress.refl h, rfl, rfl⟩
  | succ n ih =>
    by_cases hlt : c.down.num_sample > c.down.num_selected
    · have e : for_events u (n + 1) c = for_events u n (event u c) := by
        simp only [for_events, if_pos hlt]
      have hp := event_progress u c hu h hlt
      obtain ⟨o1, k1⟩ := event_out u c hu h hlt
      obtain ⟨p2, o2, k2⟩ := ih (event u c) hp.inv
      rw [e]
      refine ⟨?_, by linarith, by omega⟩
      have := hp.trans p2
      rwa [Nat.add_comm] at this
    · have e : for_events u (n + 1) c = c := by
        simp only [for_events, if_neg hlt]
      rw [e]
      exact ⟨Progress.stop h hlt _, rfl, rfl⟩

theorem event_out_bounds (u : Nat → ℚ) (c : Cell) :
    c.out ≤ (event u c).out ∧ (event u c).out ≤ c.out + 1 := by
  unfold event
  split <;> dsimp only <;> omega

theorem for_events_out_bounds (u : Nat → ℚ) (n : Nat) (c : Cell) :
    c.out ≤ (for_events u n c).out ∧ (for_events u n c).out ≤ c.out + n := by
  induction n generalizing c with
  | zero => simp [for_events]
  | succ n ih =>
    by_cases hlt : c.down.num_sample > c.down.num_selected
    · simp only [for_events, if_pos hlt]
      have h1 := event_out_bounds u c
      have h2 := ih (event u c)
      push_cast
      omega
    · simp only [for_events, if_neg hlt]
      push_cast
      omega

theorem apply_stop (u : Nat → ℚ) (freq out : List Int) (d : downsampler) (k : Nat)
    (hs : ¬ d.num_selected < d.num_sample) : apply u freq out d k = ⟨out, d, k⟩ := by
  cases freq with
  | nil => rfl
  | cons x freq => simp only [apply, if_neg hs]

theorem apply_cons_cons (u : Nat → ℚ) (x : Int) (freq : List Int) (o : Int) (os : List Int)
    (d : downsampler) (k : Nat) (hs : d.num_selected < d.num_sample) :
    apply u (x :: freq) (o :: os) d k
      = ⟨(for_events u x.toNat ⟨o, d, k⟩).out ::
          (apply u freq os (for_events u x.toNat ⟨o, d, k⟩).down
            (for_events u x.toNat ⟨o, d, k⟩).drawn).out,
         (apply u freq os (for_events u x.toNat ⟨o, d, k⟩).down
            (for_events u x.toNat ⟨o, d, k⟩).drawn).down,
         (apply u freq os (for_events u x.toNat ⟨o, d, k⟩).down
            (for_events u x.toNat ⟨o, d, k⟩).drawn).drawn⟩ := by
  simp only [apply, if_pos hs]

theorem apply_length (u : Nat → ℚ) (freq out : List Int) (d : downsampler) (k : Nat) :
    (apply u freq out d k).out.length = out.length := by
  induction freq generalizing out d k with
  | nil => rfl
  | cons x freq ih =>
    by_cases hs : d.num_selected < d.num_sample
    · cases out with
      | nil => simp only [apply, if_pos hs]
      | cons o os =>
        rw [apply_cons_cons u x freq o os d k hs]
        simp only [List.length_cons, ih]
    · rw [apply_stop u _ _ _ _ hs]

theorem apply_progress (u : Nat → ℚ) (hu : unit_draws u) (freq out : List Int)
    (d : downsampler) (k : Nat) (h : Inv d) :
    Progress d (apply u freq out d k).down (events freq) ∧
      (apply u freq out d k).drawn + d.num_processed
        = k + (apply u freq out d k).down.num_processed := by
  induction freq generalizing out d k with
  | nil => exact ⟨Progress.refl h, rfl⟩
  | cons x freq ih =>
    by_cases hs : d.num_selected < d.num_sample
    · have key : ∀ o : Int,
          Progress d (apply u freq out.tail (for_events u x.toNat ⟨o, d, k⟩).down
              (for_events u x.toNat ⟨o, d, k⟩).drawn).down (events (x :: freq)) ∧
            (apply u freq out.tail (for_events u x.toNat ⟨o, d, k⟩).down
              (for_events u x.toNat ⟨o, d, k⟩).drawn).drawn + d.num_processed
            = k + (apply u freq out.tail (for_events u x.toNat ⟨o, d, k⟩).down
              (for_events u x.toNat ⟨o, d, k⟩).drawn).down.num_processed := by
        intro o
        obtain ⟨p1, -, k1⟩ := for_events_spec u hu x.toNat ⟨o, d, k⟩ h
        obtain ⟨p2, k2⟩ := ih out.tail (for_events u x.toNat ⟨o, d, k⟩).down
          (for_events u x.toNat ⟨o, d, k⟩).drawn p1.inv
        refine ⟨?_, ?_⟩
        · have := p1.trans p2
          simpa [events] using this
        · simp only at k1
          omega
      cases out with
      | nil =>
        have := key 0
        simpa only [apply, if_pos hs, List.tail_nil] using this
      | cons o os =>
        have := key o
        rw [apply_cons_cons u x freq o os d k hs]
        simpa only [List.tail_cons] using this
    · rw [apply_stop u _ _ _ _ hs]
      exact ⟨Progress.stop h hs _, rfl⟩

theorem apply_sum (u : Nat → ℚ) (hu : unit_draws u) (freq out : List Int)
    (d : downsampler) (k : Nat) (h : Inv d) (hlen : freq.length ≤ out.length) :
    (apply u freq out d k).out.sum + d.num_selected
      = out.sum + (apply u freq out d k).down.num_selected := by
  induction freq generalizing out d k with
  | nil => rfl
  | cons x freq ih =>
    by_cases hs : d.num_selected < d.num_sample
    · cases out with
      | nil => simp at hlen
      | cons o os =>
        rw [apply_cons_cons u x freq o os d k hs]
        obtain ⟨p1, o1, -⟩ := for_events_spec u hu x.toNat ⟨o, d, k⟩ h
        have h2 := ih os (for_events u x.toNat ⟨o, d, k⟩).down
          (for_events u x.toNat ⟨o, d, k⟩).drawn p1.inv
          (by simpa using hlen)
        simp only [List.sum_cons] at *
        linarith
    · rw [apply_stop u _ _ _ _ hs]

theorem apply_bounds (u : Nat → ℚ) (freq out : List Int) (d : downsampler) (k : Nat)
    (i : Nat) :
    out.getD i 0 ≤ (apply u freq out d k).out.getD i 0 ∧
      (apply u freq out d k).out.getD i 0 ≤ out.getD i 0 + ((freq.getD i 0).toNat : Int) := by
  induction freq generalizing out d k i with
  | nil => simp [apply]
  | cons x freq ih =>
    by_cases hs : d.num_selected < d.num_sample
    · cases out with
      | nil =>
        simp only [apply, if_pos hs, List.getD_nil]
        omega
      | cons o os =>
        rw [apply_cons_cons u x freq o os d k hs]
        cases i with
        | zero =>
          simp only [List.getD_cons_zero]
          exact for_events_out_bounds u x.toNat ⟨o, d, k⟩
        | succ i =>
          simp only [List.getD_cons_succ]
          exact ih os _ _ i
    · rw [apply_stop u _ _ _ _ hs]
      dsimp only
      omega

theorem apply_drop (u : Nat → ℚ) (freq out : List Int) (d : downsampler) (k : Nat) :
    (apply u freq out d k).out.drop freq.length = out.drop freq.length := by
  induction freq generalizing out d k with
  | nil => rfl
  | cons x freq ih =>
    by_cases hs : d.num_selected < d.num_sample
    · cases out with
      | nil => simp only [apply, if_pos hs]
      | cons o os =>
        rw [apply_cons_cons u x freq o os d k hs]
        simp only [List.length_cons, List.drop_succ_cons]
        exact ih os _ _
    · rw [apply_stop u _ _ _ _ hs]

theorem events_eq_sum (freq : List Int) (h0 : ∀ x ∈ freq, 0 ≤ x) :
    ((events freq : Nat) : Int) = freq.sum := by
  induction freq with
  | nil => rfl
  | cons x freq ih =>
    have hx : 0 ≤ x := h0 x (List.mem_cons_self _ _)
    have := ih (fun y hy => h0 y (List.mem_cons_of_mem _ hy))
    simp only [events, List.map_cons, List.sum_cons] at *
    rw [Nat.cast_add, this, Int.toNat_of_nonneg hx]

/-- The sampler as the single-vector operator leaves it before it starts the loops. -/
theorem single_start_inv (N : Nat) (hN : N < 2 ^ 53) (p : ℚ) (h0 : 0 ≤ p) (h1 : p ≤ 1)
    (d : downsampler) :
    Inv { (({ d with num_total := N }).set_num_sample (Double.fin p)) with
            num_processed := 0, num_selected := 0 } ∧
    (((({ d with num_total := N }).set_num_sample (Double.fin p)).num_sample : Nat) : Int)
      = std_round (fl (p * (N : ℚ))) := by
  obtain ⟨e, r0, r1⟩ := budget_spec N hN p h0 h1
  simp only [downsampler.set_num_sample, Inv, e]
  refine ⟨⟨hN, Nat.zero_le _, le_refl _, Nat.zero_le _, by omega⟩, ?_⟩
  exact Int.toNat_of_nonneg r0

theorem apply_exhaust (u : Nat → ℚ) (hu : unit_draws u) (freq out : List Int)
    (d : downsampler) (k : Nat) (h : Inv d)
    (hall : d.num_processed + events freq = d.num_total) :
    (apply u freq out d k).down.num_selected = d.num_sample := by
  obtain ⟨p, -⟩ := apply_progress u hu freq out d k h
  obtain ⟨-, i1, -, -, i4⟩ := p.inv
  have hs := p.sample
  have ht := p.total
  by_contra hne
  have hlt : (apply u freq out d k).down.num_selected
      < (apply u freq out d k).down.num_sample := by omega
  have := p.all hlt
  omega

theorem event_tight (u : Nat → ℚ) (c : Cell)
    (hu : is_double (u c.drawn) ∧ 0 ≤ u c.drawn ∧ u c.drawn < 1) (h : Inv c.down)
    (ht : Tight c.down) (hlt : c.down.num_selected < c.down.num_sample) :
    event u c = ⟨c.out + 1,
      { c.down with num_selected := c.down.num_selected + 1,
                    num_processed := c.down.num_processed + 1 },
      c.drawn + 1⟩ := by
  obtain ⟨o, ⟨T, S, P, s⟩, k⟩ := c
  obtain ⟨hT, hsS, hsP, hPT, hrem⟩ := h
  simp only [Tight] at ht
  simp only at hT hsS hsP hPT hrem hlt hu
  have h1 : (T + bigint_mod - P) % bigint_mod = S - s := by
    show (T + 2 ^ 64 - P) % 2 ^ 64 = S - s
    omega
  have h2 : (S + bigint_mod - s) % bigint_mod = S - s := by
    show (S + 2 ^ 64 - s) % 2 ^ 64 = S - s
    omega
  have h3 : (s + 1) % bigint_mod = s + 1 := by
    show (s + 1) % 2 ^ 64 = s + 1
    omega
  have h4 : (P + 1) % bigint_mod = P + 1 := by
    show (P + 1) % 2 ^ 64 = P + 1
    omega
  have hpos : 0 < S - s := by omega
  have hb : S - s < 2 ^ 53 := by omega
  have hk : Double.mul (Double.of_bigint (S - s)) (Double.fin (u k))
      < Double.of_bigint (S - s) :=
    (event_test (S - s) (S - s) hb hb (u k) hu.2.1 (le_of_lt hu.2.2)).mpr
      (fl_mul_draw_lt (S - s) hpos hb (u k) hu.1 hu.2.1 hu.2.2)
  simp only [event, h1, h2, h3, h4, if_pos hk]

theorem for_events_tight (u : Nat → ℚ) (hu : unit_draws u) (n : Nat) (c : Cell)
    (h : Inv c.down) (ht : Tight c.down)
    (hn : c.down.num_selected + n ≤ c.down.num_sample) :
    for_events u n c = ⟨c.out + n,
      { c.down with num_selected := c.down.num_selected + n,
                    num_processed := c.down.num_processed + n },
      c.drawn + n⟩ := by
  induction n generalizing c with
  | zero => simp [for_events]
  | succ n ih =>
    have hlt : c.down.num_sample > c.down.num_selected := by omega
    have e := event_tight u c (hu _) h ht (by omega)
    have hi : Inv (event u c).down := (event_progress u c hu h (by omega)).inv
    have ht2 : Tight (event u c).down := by
      rw [e]; simp only [Tight] at *; omega
    have hn2 : (event u c).down.num_selected + n ≤ (event u c).down.num_sample := by
      rw [e]; dsimp only; omega
    simp only [for_events, if_pos hlt]
    rw [ih (event u c) hi ht2 hn2, e]
    simp only [Cell.mk.injEq, downsampler.mk.injEq]
    push_cast
    refine ⟨by ring, ⟨trivial, trivial, by ring, by ring⟩, by ring⟩

theorem eq_replicate_of_events_zero (freq : List Int) (h0 : ∀ x ∈ freq, 0 ≤ x)
    (he : events freq = 0) : freq = List.replicate freq.length 0 := by
  induction freq with
  | nil => rfl
  | cons x freq ih =>
    have hx : 0 ≤ x := h0 x (List.mem_cons_self _ _)
    simp only [events, List.map_cons, List.sum_cons] at he
    have hx0 : x = 0 := by omega
    have := ih (fun y hy => h0 y (List.mem_cons_of_mem _ hy))
      (by simp only [events]; omega)
    rw [List.length_cons, List.replicate_succ, ← this, hx0]

theorem apply_tight (u : Nat → ℚ) (hu : unit_draws u) (freq : List Int)
    (h0 : ∀ x ∈ freq, 0 ≤ x) (m : Nat) (hm : freq.length ≤ m) (d : downsampler) (k : Nat)
    (h : Inv d) (ht : Tight d) (hn : d.num_selected + events freq ≤ d.num_sample) :
    apply u freq (List.replicate m 0) d k
      = ⟨freq ++ List.replicate (m - freq.length) 0,
         { d with num_selected := d.num_selected + events freq,
                  num_processed := d.num_processed + events freq },
         k + events freq⟩ := by
  induction freq generalizing m d k with
  | nil => simp [apply, events]
  | cons x freq ih =>
    have hx : 0 ≤ x := h0 x (List.mem_cons_self _ _)
    have h0' : ∀ y ∈ freq, 0 ≤ y := fun y hy => h0 y (List.mem_cons_of_mem _ hy)
    have hev : events (x :: freq) = x.toNat + events freq := by
      simp only [events, List.map_cons, List.sum_cons]
    by_cases hs : d.num_selected < d.num_sample
    · obtain ⟨m, rfl⟩ : ∃ m', m = m' + 1 := ⟨m - 1, by simp at hm; omega⟩
      rw [List.replicate_succ, apply_cons_cons u x freq 0 _ d k hs]
      have e := for_events_tight u hu x.toNat ⟨0, d, k⟩ h ht (by dsimp only; omega)
      have hi : Inv (for_events u x.toNat ⟨0, d, k⟩).down :=
        (for_events_spec u hu x.toNat ⟨0, d, k⟩ h).1.inv
      rw [e] at hi ⊢
      dsimp only at hi ⊢
      rw [ih h0' m (by simpa using hm) _ _ hi (by simp only [Tight] at *; omega)
        (by dsimp only; omega)]
      simp only [Pass.mk.injEq, downsampler.mk.injEq, hev, List.length_cons]
      refine ⟨?_, ⟨trivial, trivial, by omega, by omega⟩, by omega⟩
      rw [Nat.add_sub_add_right, List.cons_append, zero_add, Int.toNat_of_nonneg hx]
    · have he : events (x :: freq) = 0 := by omega
      have hz := eq_replicate_of_events_zero (x :: freq) h0 he
      rw [apply_stop u _ _ _ _ hs, he]
      simp only [Pass.mk.injEq, Nat.add_zero, and_true]
      rw [hz, List.length_replicate, ← List.replicate_add]
      congr 1
      omega

theorem mixed_draws_unit : unit_draws mixed_draws := by
  intro i
  simp only [mixed_draws]
  split
  · exact ⟨by decide!, by norm_num, by norm_num⟩
  · exact ⟨by decide!, by norm_num, by norm_num⟩

theorem bigsum_lt_of_sum (v : List Int) (hv : ∀ x ∈ v, 0 ≤ x) (hfit : v.sum < 2 ^ 64) :
    bigsum v < bigint_mod ∧ bigsum v = events v := by
  have h1 := bigsum_eq_sum v hv (by simpa [bigint_mod] using hfit)
  have h2 := events_eq_sum v hv
  have hW : (bigint_mod : Int) = 2 ^ 64 := by simp [bigint_mod]
  constructor
  · have : (bigsum v : Int) < bigint_mod := by rw [h1, hW]; exact hfit
    exact_mod_cast this
  · have : (bigsum v : Int) = (events v : Int) := by rw [h1, h2]
    exact_mod_cast this

/-- What the single-vector operator does on a range of non-negative counts whose sum
`double` holds exactly: the sampler ends with the budget selected, and the output has
gained as many counts as were selected. -/
theorem apply_single_core (u : Nat → ℚ) (hu : unit_draws u) (v : List Int)
    (hv : ∀ x ∈ v, 0 ≤ x) (hfit : v.sum < 2 ^ 53) (p : ℚ) (hp0 : 0 ≤ p) (hp1 : p ≤ 1)
    (out : List Int) (d : downsampler) (k : Nat) :
    Inv (apply_single u v out (Double.fin p) d k).down ∧
    (((apply_single u v out (Double.fin p) d k).down.num_selected : Nat) : Int)
      = std_round (fl (p * (v.sum : ℚ))) ∧
    (v.length ≤ out.length →
      (apply_single u v out (Double.fin p) d k).out.sum
        = out.sum + std_round (fl (p * (v.sum : ℚ)))) := by
  obtain ⟨hN, hE⟩ := bigsum_lt_of_sum v hv (lt_trans hfit (by norm_num))
  have hsum := bigsum_eq_sum v hv (by
    have : v.sum < 2 ^ 64 := lt_trans hfit (by norm_num)
    simpa [bigint_mod] using this)
  have hN53 : bigsum v < 2 ^ 53 := by
    have : (bigsum v : Int) < 2 ^ 53 := by rw [hsum]; exact hfit
    exact_mod_cast this
  obtain ⟨hI, hS⟩ := single_start_inv (bigsum v) hN53 p hp0 hp1 d
  have hcast : ((bigsum v : Nat) : ℚ) = (v.sum : ℚ) := by
    exact_mod_cast congrArg (fun z : Int => (z : ℚ)) hsum
  rw [hcast] at hS
  have hx := apply_exhaust u hu v out _ k hI
    (by simp [downsampler.set_num_sample, hE])
  have hp := (apply_progress u hu v out _ k hI).1
  refine ⟨hp.inv, ?_, ?_⟩
  · show (((apply u v out _ k).down.num_selected : Nat) : Int) = _
    rw [hx]
    exact hS
  · intro hlen
    have hs := apply_sum u hu v out _ k hI hlen
    show (apply u v out _ k).out.sum = _
    rw [hx] at hs
    simp only [Nat.cast_zero, add_zero] at hs
    rw [hs]
    congr 1

theorem getD_nonneg (v : List Int) (hv : ∀ x ∈ v, 0 ≤ x) (i : Nat) : 0 ≤ v.getD i 0 := by
  induction v generalizing i with
  | nil => simp
  | cons x v ih =>
    cases i with
    | zero => exact hv x (List.mem_cons_self _ _)
    | succ i =>
      simpa using ih (fun y hy => hv y (List.mem_cons_of_mem _ hy)) i

theorem getD_replicate_zero (m i : Nat) : (List.replicate m (0 : Int)).getD i 0 = 0 := by
  induction m generalizing i with
  | zero => simp
  | succ m ih =>
    cases i with
    | zero => simp [List.replicate_succ]
    | succ i => simp [List.replicate_succ, ih]

theorem std_round_one_mul (n : Nat) : std_round (1 * (n : ℚ)) = n := by
  have hn : (0 : ℚ) ≤ (n : ℚ) := Nat.cast_nonneg n
  simp only [std_round, one_mul, if_pos hn]
  rw [Int.floor_eq_iff]
  constructor
  · push_cast; linarith
  · push_cast; linarith

theorem fl_one_mul (n : Nat) (hn : n < 2 ^ 53) : fl (1 * (n : ℚ)) = n := by
  rw [one_mul]
  exact fl_natCast n hn

theorem set_global_inv (total : Nat) (hT : total < 2 ^ 53) (p : ℚ) (h0 : 0 ≤ p)
    (h1 : p ≤ 1) :
    Inv (({} : downsampler).set_global total (Double.fin p)) ∧
    (((({} : downsampler).set_global total (Double.fin p)).num_sample : Nat) : Int)
      = std_round (fl (p * (total : ℚ))) ∧
    (({} : downsampler).set_global total (Double.fin p)).num_total = total ∧
    (({} : downsampler).set_global total (Double.fin p)).num_processed = 0 ∧
    (({} : downsampler).set_global total (Double.fin p)).num_selected = 0 := by
  obtain ⟨hI, hS⟩ := single_start_inv total hT p h0 h1 {}
  exact ⟨hI, hS, rfl, rfl, rfl⟩

theorem apply_each_spec (u : Nat → ℚ) (hu : unit_draws u) (vs : List (List Int))
    (d : downsampler) (k : Nat) (h : Inv d) :
    Progress d (apply_each u vs d k).2.1 (vs.map events).sum ∧
    selected_in (apply_each u vs d k).1 + d.num_selected
      = (apply_each u vs d k).2.1.num_selected := by
  induction vs generalizing d k with
  | nil =>
    exact ⟨Progress.refl h, by simp [apply_each, selected_in]⟩
  | cons v vs ih =>
    obtain ⟨p1, -⟩ := apply_progress u hu v (List.replicate v.length 0) d k h
    have s1 := apply_sum u hu v (List.replicate v.length 0) d k h (by simp)
    obtain ⟨p2, s2⟩ := ih (apply u v (List.replicate v.length 0) d k).down
      (apply u v (List.replicate v.length 0) d k).drawn p1.inv
    simp only [apply_each, List.map_cons, List.sum_cons, selected_in] at *
    refine ⟨p1.trans p2, ?_⟩
    simp only [List.sum_replicate, smul_zero, zero_add] at s1
    linarith

theorem events_sum_eq (vs : List (List Int)) (hvs : ∀ v ∈ vs, ∀ x ∈ v, 0 ≤ x) :
    (((vs.map events).sum : Nat) : Int) = (vs.map List.sum).sum := by
  induction vs with
  | nil => rfl
  | cons v vs ih =>
    have h1 := events_eq_sum v (hvs v (List.mem_cons_self _ _))
    have h2 := ih (fun w hw => hvs w (List.mem_cons_of_mem _ hw))
    simp only [List.map_cons, List.sum_cons, Nat.cast_add, h1, h2]

theorem sum_flatten_eq (vs : List (List Int)) : vs.flatten.sum = (vs.map List.sum).sum := by
  induction vs with
  | nil => rfl
  | cons v vs ih => simp only [List.flatten_cons, List.sum_append, List.map_cons, List.sum_cons, ih]

theorem bigsum_foldl_emod (xs : List Int) (acc : Nat) (hacc : acc < bigint_mod) :
    ((xs.foldl (fun sum x => Int.toNat (((sum : Int) + x) % (bigint_mod : Int))) acc : Nat) : Int)
      = ((acc : Int) + xs.sum) % (bigint_mod : Int) := by
  have hW : (0 : Int) < (bigint_mod : Int) := by simp [bigint_mod]
  induction xs generalizing acc with
  | nil =>
    simp only [List.foldl_nil, List.sum_nil, add_zero]
    rw [Int.emod_eq_of_lt (by omega) (by exact_mod_cast hacc)]
  | cons x xs ih =>
    have h1 : 0 ≤ ((acc : Int) + x) % (bigint_mod : Int) := Int.emod_nonneg _ (by omega)
    have h2 : ((acc : Int) + x) % (bigint_mod : Int) < bigint_mod := Int.emod_lt_of_pos _ hW
    have h3 : ((Int.toNat (((acc : Int) + x) % (bigint_mod : Int)) : Nat) : Int)
        = ((acc : Int) + x) % (bigint_mod : Int) := Int.toNat_of_nonneg h1
    have h4 : Int.toNat (((acc : Int) + x) % (bigint_mod : Int)) < bigint_mod := by
      have : ((Int.toNat (((acc : Int) + x) % (bigint_mod : Int)) : Nat) : Int) < bigint_mod := by
        rw [h3]; exact h2
      exact_mod_cast this
    simp only [List.foldl_cons, List.sum_cons]
    rw [ih _ h4, h3, Int.emod_add_emod, add_assoc]

theorem bigsum_emod (xs : List Int) : (bigsum xs : Int) = xs.sum % (bigint_mod : Int) := by
  have := bigsum_foldl_emod xs 0 (by simp [bigint_mod])
  simpa [bigsum] using this

theorem bigsum_of_fits (xs : List Int) (h0 : 0 ≤ xs.sum) (hfit : xs.sum < 2 ^ 64) :
    (bigsum xs : Int) = xs.sum := by
  rw [bigsum_emod]
  exact Int.emod_eq_of_lt h0 (by simpa [bigint_mod] using hfit)

theorem check_each_prop_ok (prop : List Double) (h : ∀ x ∈ prop, ¬ (x < 0 ∨ x > 1)) :
    check_each_prop prop = Except.ok () := by
  induction prop with
  | nil => rfl
  | cons x prop ih =>
    have hn := h x (List.mem_cons_self _ _)
    simp only [check_each_prop, if_neg hn]
    exact ih (fun y hy => h y (List.mem_cons_of_mem _ hy))

theorem check_each_prop_error (prop : List Double) (h : ∃ x ∈ prop, x < 0 ∨ 1 < x) :
    check_each_prop prop = Except.error Error.prop_range := by
  induction prop with
  | nil => simp at h
  | cons x prop ih =>
    by_cases hx : x < 0 ∨ x > 1
    · simp only [check_each_prop, if_pos hx]
    · simp only [check_each_prop, if_neg hx]
      apply ih
      obtain ⟨y, hy, hy2⟩ := h
      rcases List.mem_cons.mp hy with rfl | hy'
      · exact absurd hy2 hx
      · exact ⟨y, hy', hy2⟩

theorem check_each_prop_cases (prop : List Double) :
    (check_each_prop prop = Except.ok () ∧ ∀ x ∈ prop, ¬ (x < 0 ∨ 1 < x)) ∨
    (check_each_prop prop = Except.error Error.prop_range ∧ ∃ x ∈ prop, x < 0 ∨ 1 < x) := by
  by_cases h : ∀ x ∈ prop, ¬ (x < 0 ∨ 1 < x)
  · exact Or.inl ⟨check_each_prop_ok prop h, h⟩
  · right
    push_neg at h
    obtain ⟨x, hx, hx2⟩ := h
    exact ⟨check_each_prop_error prop ⟨x, hx, hx2⟩, ⟨x, hx, hx2⟩⟩

theorem check_mode_per_unit_length (n : Nat) (prop : List Double) (hlen : prop.length ≠ n) :
    check_downsampling_mode n prop [true] = Except.error Error.prop_length := by
  simp only [check_downsampling_mode, check_logical_scalar, if_true, if_pos hlen]

theorem check_mode_per_unit_ok (n : Nat) (prop : List Double) (hlen : prop.length = n)
    (h : ∀ x ∈ prop, ¬ (x < 0 ∨ 1 < x)) :
    check_downsampling_mode n prop [true] = Except.ok true := by
  have hn : ¬ prop.length ≠ n := fun h => h hlen
  simp only [check_downsampling_mode, check_logical_scalar, if_true, if_neg hn,
    check_each_prop_ok prop h]

theorem check_mode_per_unit_range (n : Nat) (prop : List Double) (hlen : prop.length = n)
    (h : ∃ x ∈ prop, x < 0 ∨ 1 < x) :
    check_downsampling_mode n prop [true] = Except.error Error.prop_range := by
  have hn : ¬ prop.length ≠ n := fun h => h hlen
  simp only [check_downsampling_mode, check_logical_scalar, if_true, if_neg hn,
    check_each_prop_error prop h]

theorem check_mode_global_single (n : Nat) (x : Double) :
    check_downsampling_mode n [x] [false]
      = if x < 0 ∨ x > 1 then Except.error Error.prop_range else Except.ok false := by
  simp only [check_downsampling_mode, check_logical_scalar, check_numeric_scalar,
    Bool.false_eq_true, if_false]

theorem check_mode_global_other (n : Nat) (prop : List Double) (h : ∀ x, prop ≠ [x]) :
    check_downsampling_mode n prop [false] = Except.error Error.numeric_scalar := by
  match prop, h with
  | [], _ => rfl
  | [x], h => exact absurd rfl (h x)
  | _ :: _ :: _, _ => rfl

/-- A finite proportion in [0, 1] passes both comparisons of the mode check. -/
theorem fin_in_range (p : ℚ) (h0 : 0 ≤ p) (h1 : p ≤ 1) :
    ¬ (Double.fin p < 0 ∨ Double.fin p > 1) := by
  rintro (h | h)
  · exact absurd ((fin_lt_zero p).mp h) (not_lt.mpr h0)
  · exact absurd ((one_lt_fin p).mp h) (not_lt.mpr h1)

theorem map_fin_in_range (prop : List ℚ) (h : ∀ p ∈ prop, 0 ≤ p ∧ p ≤ 1) :
    ∀ x ∈ prop.map Double.fin, ¬ (x < 0 ∨ 1 < x) := by
  intro x hx
  obtain ⟨p, hp, rfl⟩ := List.mem_map.mp hx
  exact fin_in_range p (h p hp).1 (h p hp).2

theorem check_mode_global_fin (n : Nat) (p : ℚ) (h0 : 0 ≤ p) (h1 : p ≤ 1) :
    check_downsampling_mode n [Double.fin p] [false] = Except.ok false := by
  rw [check_mode_global_single, if_neg (fin_in_range p h0 h1)]

theorem sum_take_of_drop_zero (xs : List Int) (n m : Nat)
    (h : xs.drop n = List.replicate m 0) : (xs.take n).sum = xs.sum := by
  have := List.sum_take_add_sum_drop xs n
  rw [h] at this
  simpa using this

theorem drop_append_add (A B : List Int) (n i : Nat) (hA : A.length = n) :
    (A ++ B).drop (n + i) = B.drop i := by
  subst hA
  exact List.drop_append i

theorem take_append_add (A B : List Int) (n i : Nat) (hA : A.length = n) :
    (A ++ B).take (n + i) = A ++ B.take i := by
  subst hA
  exact List.take_append i

/-- One round of the loop of `downsample_runs` in per-run mode, on a run length that is
not negative and does not lead past the end of `reads`. -/
theorem runs_loop_cons_per_run (u : Nat → ℚ) (reads : List Int) (cell : Int)
    (cells : List Int) (cursor : Nat) (p : Double) (ps : List Double) (output : List Int)
    (d : downsampler) (k : Nat) (h0 : 0 ≤ cell)
    (hle : (cursor : Int) + cell ≤ (reads.length : Int)) :
    runs_loop u true reads (cell :: cells) cursor (p :: ps) output d k
      = runs_loop u true reads cells (cursor + cell.toNat) ps
          (output.take cursor ++
            (apply_single u ((reads.drop cursor).take cell.toNat) (output.drop cursor) p d
              k).out)
          (apply_single u ((reads.drop cursor).take cell.toNat) (output.drop cursor) p d
            k).down
          (apply_single u ((reads.drop cursor).take cell.toNat) (output.drop cursor) p d
            k).drawn := by
  have h1 : ¬ ((cursor : Int) + cell < 0 ∨ (reads.length : Int) < (cursor : Int) + cell) := by
    omega
  have h2 : ¬ cell < 0 := not_lt.mpr h0
  simp only [runs_loop, if_neg h1, if_true, if_neg h2]

/-- One round of the loop of `downsample_runs` in global mode, on a run length that is
not negative and does not lead past the end of `reads`. -/
theorem runs_loop_cons_global (u : Nat → ℚ) (reads : List Int) (cell : Int)
    (cells : List Int) (cursor : Nat) (pIt : List Double) (output : List Int)
    (d : downsampler) (k : Nat) (h0 : 0 ≤ cell)
    (hle : (cursor : Int) + cell ≤ (reads.length : Int)) :
    runs_loop u false reads (cell :: cells) cursor pIt output d k
      = runs_loop u false reads cells (cursor + cell.toNat) pIt
          (output.take cursor ++
            (apply u ((reads.drop cursor).take cell.toNat) (output.drop cursor) d k).out)
          (apply u ((reads.drop cursor).take cell.toNat) (output.drop cursor) d k).down
          (apply u ((reads.drop cursor).take cell.toNat) (output.drop cursor) d k).drawn := by
  have h1 : ¬ ((cursor : Int) + cell < 0 ∨ (reads.length : Int) < (cursor : Int) + cell) := by
    omega
  have h2 : ¬ cell < 0 := not_lt.mpr h0
  simp only [runs_loop, if_neg h1, Bool.false_eq_true, if_false, if_neg h2]

/-- The positions of a run inside `reads`, for run lengths that are not negative and
add up to the part of `reads` from `cursor` on. -/
theorem run_inside (c : Int) (cells : List Int) (cursor len : Nat)
    (hc : ∀ y ∈ c :: cells, 0 ≤ y)
    (hlen : (cursor : Int) + (c :: cells).sum = (len : Int)) :
    0 ≤ c ∧ (cursor : Int) + c ≤ (len : Int) ∧ cursor + c.toNat ≤ len ∧
      ((cursor + c.toNat : Nat) : Int) + cells.sum = (len : Int) := by
  have h0 : 0 ≤ c := hc c (List.mem_cons_self _ _)
  have h1 : 0 ≤ cells.sum := List.sum_nonneg (fun y hy => hc y (List.mem_cons_of_mem _ hy))
  simp only [List.sum_cons] at hlen
  refine ⟨h0, by omega, by omega, ?_⟩
  push_cast
  rw [Int.toNat_of_nonneg h0]
  omega

theorem runs_loop_per_run (u : Nat → ℚ) (hu : unit_draws u) (reads : List Int)
    (hr : ∀ x ∈ reads, 0 ≤ x) (cells : List Int) (cursor : Nat) (pIt : List ℚ)
    (output : List Int) (d : downsampler) (k : Nat) (hc : ∀ c ∈ cells, 0 ≤ c)
    (hlen : (cursor : Int) + cells.sum = (reads.length : Int))
    (hp : pIt.length = cells.length) (hpr : ∀ p ∈ pIt, 0 ≤ p ∧ p ≤ 1)
    (hfit : ∀ run ∈ run_slices cells (reads.drop cursor), run.sum < 2 ^ 53)
    (hout : output.length = reads.length)
    (hzero : output.drop cursor = List.replicate (reads.length - cursor) 0) :
    ∃ r, runs_loop u true reads cells cursor (pIt.map Double.fin) output d k = Except.ok r ∧
      r.out.length = reads.length ∧ r.out.take cursor = output.take cursor ∧
      (run_slices cells (r.out.drop cursor)).map List.sum
        = List.zipWith (fun p run => std_round (fl (p * ((run.sum : Int) : ℚ)))) pIt
            (run_slices cells (reads.drop cursor)) := by
  induction cells generalizing cursor pIt output d k with
  | nil =>
    have hp0 : pIt = [] := List.eq_nil_of_length_eq_zero (by simpa using hp)
    subst hp0
    exact ⟨⟨output, d, k⟩, rfl, hout, rfl, rfl⟩
  | cons c cells ih =>
    obtain ⟨p, ps, rfl⟩ : ∃ p ps, pIt = p :: ps := by
      cases pIt with
      | nil => simp at hp
      | cons p ps => exact ⟨p, ps, rfl⟩
    obtain ⟨h0, hle, hn, hlen'⟩ := run_inside c cells cursor reads.length hc hlen
    have hc' : ∀ y ∈ cells, 0 ≤ y := fun y hy => hc y (List.mem_cons_of_mem _ hy)
    have hrt : ∀ x ∈ (reads.drop cursor).take c.toNat, 0 ≤ x :=
      fun x hx => hr x (List.mem_of_mem_drop (List.mem_of_mem_take hx))
    have hfit1 : ((reads.drop cursor).take c.toNat).sum < 2 ^ 53 :=
      hfit _ (by simp only [run_slices]; exact List.mem_cons_self _ _)
    have hfit2 : ∀ run ∈ run_slices cells (reads.drop (cursor + c.toNat)), run.sum < 2 ^ 53 := by
      intro run hrun
      apply hfit run
      simp only [run_slices, List.drop_drop]
      exact List.mem_cons_of_mem _ hrun
    have hpp := hpr p (List.mem_cons_self _ _)
    have htl : ((reads.drop cursor).take c.toNat).length = c.toNat := by
      rw [List.length_take, List.length_drop]
      omega
    have hA : (output.take cursor).length = cursor := by
      rw [List.length_take]
      omega
    -- the call on this run
    have hlenR : (apply_single u ((reads.drop cursor).take c.toNat) (output.drop cursor)
        (Double.fin p) d k).out.length = reads.length - cursor := by
      simp only [apply_single, apply_length, List.length_drop, hout]
    have hdropR : (apply_single u ((reads.drop cursor).take c.toNat) (output.drop cursor)
        (Double.fin p) d k).out.drop c.toNat
          = List.replicate (reads.length - (cursor + c.toNat)) 0 := by
      have := apply_drop u ((reads.drop cursor).take c.toNat) (output.drop cursor)
        { (({ d with num_total := bigsum ((reads.drop cursor).take c.toNat) }).set_num_sample
            (Double.fin p)) with num_processed := 0, num_selected := 0 } k
      rw [htl] at this
      simp only [apply_single]
      rw [this, hzero, List.drop_replicate, Nat.sub_sub]
    have hsumR := (apply_single_core u hu ((reads.drop cursor).take c.toNat) hrt hfit1 p hpp.1
      hpp.2 (output.drop cursor) d k).2.2 (by rw [htl, List.length_drop, hout]; omega)
    rw [hzero] at hsumR
    simp only [List.sum_replicate, smul_zero, zero_add] at hsumR
    rw [← hzero] at hsumR
    have htakeR : ((apply_single u ((reads.drop cursor).take c.toNat) (output.drop cursor)
        (Double.fin p) d k).out.take c.toNat).sum
          = std_round (fl (p * ((((reads.drop cursor).take c.toNat).sum : Int) : ℚ))) := by
      rw [sum_take_of_drop_zero _ _ _ hdropR, hsumR]
    have htakeL : ((apply_single u ((reads.drop cursor).take c.toNat) (output.drop cursor)
        (Double.fin p) d k).out.take c.toNat).length = c.toNat := by
      rw [List.length_take, hlenR]
      omega
    generalize hR : apply_single u ((reads.drop cursor).take c.toNat) (output.drop cursor)
      (Double.fin p) d k = R at hlenR hdropR htakeR htakeL
    -- the remaining runs
    obtain ⟨r, e, l, t, sl⟩ := ih (cursor + c.toNat) ps (output.take cursor ++ R.out) R.down
      R.drawn hc' hlen' (by simpa using hp) (fun q hq => hpr q (List.mem_cons_of_mem _ hq))
      hfit2 (by rw [List.length_append, hA, hlenR]; omega)
      (by rw [drop_append_add _ _ _ _ hA, hdropR])
    have htk : (output.take cursor ++ R.out).take (cursor + c.toNat)
        = output.take cursor ++ R.out.take c.toNat := by
      exact take_append_add _ _ _ _ hA
    rw [htk] at t
    have hsplit : r.out.drop cursor = R.out.take c.toNat ++ r.out.drop (cursor + c.toNat) := by
      have h1 := List.take_append_drop (cursor + c.toNat) r.out
      rw [t, List.append_assoc] at h1
      rw [← h1, List.drop_left' hA]
      congr 1
      rw [h1]
    refine ⟨r, ?_, l, ?_, ?_⟩
    · rw [List.map_cons, runs_loop_cons_per_run u reads c cells cursor _ _ output d k h0 hle, hR]
      exact e
    · have h2 : r.out.take cursor = (r.out.take (cursor + c.toNat)).take cursor := by
        rw [List.take_take, Nat.min_eq_left (Nat.le_add_right _ _)]
      rw [h2, t, List.take_left' hA]
    · simp only [run_slices, List.map_cons, List.zipWith_cons_cons]
      rw [hsplit, List.take_left' htakeL, List.drop_left' htakeL, htakeR, sl, List.drop_drop]

theorem bigsum_cells_eq_length (cells reads : List Int)
    (hlen : cells.sum = (reads.length : Int)) (hfit : reads.length < 2 ^ 64) :
    bigsum cells = reads.length := by
  have h := bigsum_of_fits cells (by rw [hlen]; exact Int.natCast_nonneg _)
    (by rw [hlen]; exact_mod_cast hfit)
  rw [hlen] at h
  exact_mod_cast h

theorem events_append (xs ys : List Int) : events (xs ++ ys) = events xs + events ys := by
  simp only [events, List.map_append, List.sum_append]

theorem events_take_add_drop (xs : List Int) (n : Nat) :
    events (xs.take n) + events (xs.drop n) = events xs := by
  rw [← events_append, List.take_append_drop]

theorem runs_loop_tight (u : Nat → ℚ) (hu : unit_draws u) (reads : List Int)
    (hr : ∀ x ∈ reads, 0 ≤ x) (cells : List Int) (cursor : Nat) (pIt : List Double)
    (output : List Int) (d : downsampler) (k : Nat) (hc : ∀ c ∈ cells, 0 ≤ c)
    (hlen : (cursor : Int) + cells.sum = (reads.length : Int)) (h : Inv d) (ht : Tight d)
    (hn : d.num_selected + events (reads.drop cursor) ≤ d.num_sample)
    (hout : output.length = reads.length)
    (hzero : output.drop cursor = List.replicate (reads.length - cursor) 0) :
    ∃ r, runs_loop u false reads cells cursor pIt output d k = Except.ok r ∧
      r.out = output.take cursor ++ reads.drop cursor := by
  induction cells generalizing cursor output d k with
  | nil =>
    have hcl : cursor = reads.length := by
      simp only [List.sum_nil, add_zero] at hlen
      exact_mod_cast hlen
    refine ⟨⟨output, d, k⟩, rfl, ?_⟩
    show output = _
    rw [hcl, List.drop_length, List.append_nil, ← hout, List.take_length]
  | cons c cells ih =>
    obtain ⟨h0, hle, hcn, hlen'⟩ := run_inside c cells cursor reads.length hc hlen
    have hc' : ∀ y ∈ cells, 0 ≤ y := fun y hy => hc y (List.mem_cons_of_mem _ hy)
    have hrt : ∀ x ∈ (reads.drop cursor).take c.toNat, 0 ≤ x :=
      fun x hx => hr x (List.mem_of_mem_drop (List.mem_of_mem_take hx))
    have htl : ((reads.drop cursor).take c.toNat).length = c.toNat := by
      rw [List.length_take, List.length_drop]
      omega
    have hA : (output.take cursor).length = cursor := by
      rw [List.length_take]
      omega
    have hev := events_take_add_drop (reads.drop cursor) c.toNat
    rw [List.drop_drop] at hev
    have hi := (apply_progress u hu ((reads.drop cursor).take c.toNat)
      (output.drop cursor) d k h).1.inv
    have e := apply_tight u hu ((reads.drop cursor).take c.toNat) hrt (reads.length - cursor)
      (by rw [htl]; omega) d k h ht (by omega)
    rw [← hzero] at e
    rw [e] at hi
    have ht' : Tight { d with
        num_selected := d.num_selected + events ((reads.drop cursor).take c.toNat),
        num_processed := d.num_processed + events ((reads.drop cursor).take c.toNat) } := by
      simp only [Tight] at *
      omega
    obtain ⟨r, er, eo⟩ := ih (cursor + c.toNat)
      (output.take cursor ++ ((reads.drop cursor).take c.toNat
        ++ List.replicate (reads.length - cursor - ((reads.drop cursor).take c.toNat).length) 0))
      _ (k + events ((reads.drop cursor).take c.toNat)) hc' hlen' hi ht'
      (by dsimp only; omega)
      (by rw [List.length_append, List.length_append, hA, htl, List.length_replicate]; omega)
      (by
        rw [drop_append_add _ _ _ _ hA, List.drop_left' htl, htl, Nat.sub_sub])
    refine ⟨r, ?_, ?_⟩
    · rw [runs_loop_cons_global u reads c cells cursor pIt output d k h0 hle, e]
      exact er
    · rw [eo, take_append_add _ _ _ _ hA, List.take_left' htl, List.append_assoc]
      congr 1
      have := List.take_append_drop c.toNat (reads.drop cursor)
      rw [List.drop_drop] at this
      exact this

theorem sum_range_getD (values : List Int) :
    ∑ r in Finset.range values.length, values.getD r 0 = values.sum := by
  induction values with
  | nil => simp
  | cons x values ih =>
    rw [List.length_cons, Finset.sum_range_succ']
    simp only [List.getD_cons_succ, List.getD_cons_zero, List.sum_cons, ih]
    ring

theorem lookup_zip_eq_none (indices : List Nat) (values : List Int) (i : Nat)
    (h : i ∉ indices) : (indices.zip values).lookup i = none := by
  induction indices generalizing values with
  | nil => simp
  | cons j indices ih =>
    cases values with
    | nil => simp
    | cons v values =>
      have hij : i ≠ j := fun e => h (e ▸ List.mem_cons_self _ _)
      have hi : i ∉ indices := fun e => h (List.mem_cons_of_mem _ e)
      simp only [List.zip_cons_cons, List.lookup_cons]
      have : (i == j) = false := by simpa using hij
      rw [this]
      exact ih values hi

theorem sparse_entry_sum (nrow : Nat) (indices : List Nat) (values : List Int)
    (hlen : indices.length = values.length) (hsorted : indices.Pairwise (· < ·))
    (hrow : ∀ i ∈ indices, i < nrow) :
    (Column.sparse indices values).entry_sum nrow = values.sum := by
  induction indices generalizing values with
  | nil =>
    have : values = [] := List.eq_nil_of_length_eq_zero hlen.symm
    subst this
    simp [Column.entry_sum, Column.entry]
  | cons i indices ih =>
    cases values with
    | nil => simp at hlen
    | cons v values =>
      have hs := List.pairwise_cons.mp hsorted
      have hi : i ∉ indices := fun e => absurd (hs.1 i e) (lt_irrefl _)
      have hnone := lookup_zip_eq_none indices values i hi
      have ih' := ih values (by simpa using hlen) hs.2
        (fun j hj => hrow j (List.mem_cons_of_mem _ hj))
      simp only [Column.entry_sum, Column.entry] at ih' ⊢
      have hpt : ∀ r ∈ Finset.range nrow,
          (((i :: indices).zip (v :: values)).lookup r).getD 0
            = ((indices.zip values).lookup r).getD 0 + (if r = i then v else 0) := by
        intro r _
        simp only [List.zip_cons_cons, List.lookup_cons]
        by_cases hri : r = i
        · subst hri
          simp [hnone]
        · have : (r == i) = false := by simpa using hri
          rw [this]
          simp [hri]
      rw [Finset.sum_congr rfl hpt, Finset.sum_add_distrib, ih', Finset.sum_ite_eq',
        if_pos (Finset.mem_range.mpr (hrow i (List.mem_cons_self _ _))), List.sum_cons]
      ring

theorem entry_sum_of_fits (nrow : Nat) (c : Column) (h : c.fits nrow) :
    c.entry_sum nrow = c.get_values.sum := by
  cases c with
  | dense values =>
    simp only [Column.fits] at h
    subst h
    simp only [Column.entry_sum, Column.entry, Column.get_values]
    exact sum_range_getD values
  | sparse indices values =>
    obtain ⟨h1, h2, h3⟩ := h
    exact sparse_entry_sum nrow indices values h1 h2 h3

theorem forall₂_replicate_zero (freq : List Int) (hv : ∀ x ∈ freq, 0 ≤ x) :
    List.Forall₂ (fun o x => o ≤ x) (List.replicate freq.length (0 : Int)) freq := by
  induction freq with
  | nil => exact List.Forall₂.nil
  | cons x freq ih =>
    rw [List.length_cons, List.replicate_succ]
    exact List.Forall₂.cons (hv x (List.mem_cons_self _ _))
      (ih (fun y hy => hv y (List.mem_cons_of_mem _ hy)))

theorem apply_take_le (u : Nat → ℚ) (freq : List Int) (hv : ∀ x ∈ freq, 0 ≤ x) (m : Nat)
    (hm : freq.length ≤ m) (d : downsampler) (k : Nat) :
    List.Forall₂ (fun o x => o ≤ x)
      ((apply u freq (List.replicate m 0) d k).out.take freq.length) freq := by
  induction freq generalizing m d k with
  | nil => simp
  | cons x freq ih =>
    have hx : 0 ≤ x := hv x (List.mem_cons_self _ _)
    have hv' : ∀ y ∈ freq, 0 ≤ y := fun y hy => hv y (List.mem_cons_of_mem _ hy)
    by_cases hs : d.num_selected < d.num_sample
    · obtain ⟨m, rfl⟩ : ∃ m', m = m' + 1 := ⟨m - 1, by simp at hm; omega⟩
      rw [List.replicate_succ, apply_cons_cons u x freq 0 _ d k hs]
      simp only [List.length_cons, List.take_succ_cons]
      refine List.Forall₂.cons ?_ (ih hv' m (by simpa using hm) _ _)
      have := (for_events_out_bounds u x.toNat ⟨0, d, k⟩).2
      simp only [zero_add, Int.toNat_of_nonneg hx] at this
      exact this
    · rw [apply_stop u _ _ _ _ hs, List.take_replicate, Nat.min_eq_left hm]
      exact forall₂_replicate_zero (x :: freq) hv

theorem getD_le_of_forall₂ (a b : List Int) (h : List.Forall₂ (fun o x => o ≤ x) a b)
    (r : Nat) : a.getD r 0 ≤ b.getD r 0 := by
  induction h generalizing r with
  | nil => simp
  | cons hxy _ ih =>
    cases r with
    | zero => simpa using hxy
    | succ r => simpa using ih r

theorem lookup_le_of_forall₂ (a b : List Int) (h : List.Forall₂ (fun o x => o ≤ x) a b)
    (indices : List Nat) (r : Nat) :
    ((indices.zip a).lookup r).getD 0 ≤ ((indices.zip b).lookup r).getD 0 := by
  induction h generalizing indices with
  | nil => simp
  | cons hxy _ ih =>
    cases indices with
    | nil => simp
    | cons i indices =>
      simp only [List.zip_cons_cons, List.lookup_cons]
      by_cases hri : r = i
      · subst hri
        simpa using hxy
      · have : (r == i) = false := by simpa using hri
        rw [this]
        exact ih indices

theorem fits_get_n_le (nrow : Nat) (c : Column) (h : c.fits nrow) : c.get_n ≤ nrow := by
  cases c with
  | dense values =>
    simp only [Column.fits] at h
    simp only [Column.get_n, Column.get_values, h, le_refl]
  | sparse indices values =>
    obtain ⟨h1, h2, h3⟩ := h
    have hnd : indices.Nodup := h2.imp (fun hab => ne_of_lt hab)
    have hsub : indices ⊆ List.range nrow := fun i hi => List.mem_range.mpr (h3 i hi)
    have := (List.subperm_of_subset hnd hsub).length_le
    simp only [List.length_range] at this
    simp only [Column.get_n, Column.get_values]
    omega

/-- What the second loop of `downsample_matrix_internal` does with one column whose
values have been sampled into a cleared buffer `outgoing`. -/
theorem column_written (ngenes : Nat) (col : Column) (hfit : col.fits ngenes)
    (out : List Int) (hlen : out.length = ngenes)
    (hle : List.Forall₂ (fun o x => o ≤ x) (out.take col.get_n) col.get_values)
    (hdrop : out.drop col.get_n = List.replicate (ngenes - col.get_n) 0) :
    (store_column ngenes col out).fits ngenes ∧
    (∀ r, (store_column ngenes col out).entry r ≤ col.entry r) ∧
    (store_column ngenes col out).get_values.sum = out.sum ∧
    clear_outgoing col out = List.replicate ngenes 0 := by
  have hn := fits_get_n_le ngenes col hfit
  have hsum : (out.take col.get_n).sum = out.sum := sum_take_of_drop_zero _ _ _ hdrop
  cases col with
  | dense values =>
    simp only [Column.fits] at hfit
    simp only [Column.get_n, Column.get_values] at hle hdrop hsum hn
    rw [hfit] at hle hsum
    simp only [store_column, clear_outgoing, Column.fits, Column.entry, Column.get_values,
      Column.is_sparse, Bool.false_eq_true, if_false, hlen]
    refine ⟨by rw [List.length_take, hlen, Nat.min_self], ?_, hsum, trivial⟩
    intro r
    exact getD_le_of_forall₂ _ _ hle r
  | sparse indices values =>
    obtain ⟨h1, h2, h3⟩ := hfit
    simp only [Column.get_n, Column.get_values] at hle hdrop hsum hn
    simp only [store_column, clear_outgoing, Column.fits, Column.entry, Column.get_values,
      Column.is_sparse, if_true, Column.get_n, hlen, hdrop]
    refine ⟨⟨?_, h2, h3⟩, ?_, hsum, ?_⟩
    · rw [List.length_take, hlen, h1]; omega
    · intro r
      exact lookup_le_of_forall₂ _ _ hle indices r
    · rw [Nat.min_eq_left hn, ← List.replicate_add]
      congr 1
      omega

/-- The facts about one call of the three-argument operator on a column's values and
a cleared buffer that `column_written` asks for. -/
theorem column_sampled (u : Nat → ℚ) (ngenes : Nat) (col : Column) (hfit : col.fits ngenes)
    (hnn : ∀ x ∈ col.get_values, 0 ≤ x) (d : downsampler) (k : Nat) :
    (apply u col.get_values (List.replicate ngenes 0) d k).out.length = ngenes ∧
    List.Forall₂ (fun o x => o ≤ x)
      ((apply u col.get_values (List.replicate ngenes 0) d k).out.take col.get_n)
      col.get_values ∧
    (apply u col.get_values (List.replicate ngenes 0) d k).out.drop col.get_n
      = List.replicate (ngenes - col.get_n) 0 := by
  have hn := fits_get_n_le ngenes col hfit
  refine ⟨by rw [apply_length, List.length_replicate], ?_, ?_⟩
  · exact apply_take_le u col.get_values hnn ngenes hn d k
  · have := apply_drop u col.get_values (List.replicate ngenes 0) d k
    rw [Column.get_n, this, List.drop_replicate]

theorem matrix_loop_global (u : Nat → ℚ) (hu : unit_draws u) (ngenes : Nat)
    (cols : List Column) (pIt : List Double) (d : downsampler) (k : Nat) (h : Inv d)
    (hfits : ∀ c ∈ cols, c.fits ngenes) (hnn : ∀ c ∈ cols, ∀ x ∈ c.get_values, 0 ≤ x) :
    Progress d (matrix_loop u false ngenes cols pIt (List.replicate ngenes 0) d k).2.1
      (cols.map (fun c => events c.get_values)).sum ∧
    List.Forall₂ (fun col out => out.fits ngenes ∧ ∀ r, out.entry r ≤ col.entry r) cols
      (matrix_loop u false ngenes cols pIt (List.replicate ngenes 0) d k).1 ∧
    ((matrix_loop u false ngenes cols pIt (List.replicate ngenes 0) d k).1.map
        (fun c => c.get_values.sum)).sum + d.num_selected
      = (matrix_loop u false ngenes cols pIt (List.replicate ngenes 0) d k).2.1.num_selected := by
  induction cols generalizing d k with
  | nil =>
    exact ⟨Progress.refl h, List.Forall₂.nil, by simp [matrix_loop]⟩
  | cons col cols ih =>
    have hfit := hfits col (List.mem_cons_self _ _)
    have hcn := hnn col (List.mem_cons_self _ _)
    obtain ⟨a1, a2, a3⟩ := column_sampled u ngenes col hfit hcn d k
    obtain ⟨w1, w2, w3, w4⟩ := column_written ngenes col hfit _ a1 a2 a3
    obtain ⟨p1, -⟩ := apply_progress u hu col.get_values (List.replicate ngenes 0) d k h
    have s1 := apply_sum u hu col.get_values (List.replicate ngenes 0) d k h
      (by rw [List.length_replicate]; exact fits_get_n_le ngenes col hfit)
    simp only [List.sum_replicate, smul_zero, zero_add] at s1
    obtain ⟨p2, f2, s2⟩ := ih (apply u col.get_values (List.replicate ngenes 0) d k).down
      (apply u col.get_values (List.replicate ngenes 0) d k).drawn p1.inv
      (fun c hc => hfits c (List.mem_cons_of_mem _ hc))
      (fun c hc => hnn c (List.mem_cons_of_mem _ hc))
    simp only [matrix_loop, Bool.false_eq_true, if_false, w4, List.map_cons, List.sum_cons]
    refine ⟨p1.trans p2, List.Forall₂.cons ⟨w1, w2⟩ f2, ?_⟩
    rw [w3]
    linarith

theorem matrix_total_foldl (cols : List Column) (acc : Nat)
    (hnn : ∀ c ∈ cols, ∀ x ∈ c.get_values, 0 ≤ x)
    (hfit : acc + (cols.map (fun c => events c.get_values)).sum < bigint_mod) :
    cols.foldl (fun num_total col => (num_total + bigsum col.get_values) % bigint_mod) acc
      = acc + (cols.map (fun c => events c.get_values)).sum := by
  induction cols generalizing acc with
  | nil => simp
  | cons col cols ih =>
    simp only [List.map_cons, List.sum_cons] at hfit
    have hcn := hnn col (List.mem_cons_self _ _)
    have hs : col.get_values.sum < 2 ^ 64 := by
      rw [← events_eq_sum _ hcn]
      have : events col.get_values < 2 ^ 64 := by
        have hW : bigint_mod = 2 ^ 64 := rfl
        omega
      exact_mod_cast this
    have hb := (bigsum_lt_of_sum _ hcn hs).2
    simp only [List.foldl_cons, List.map_cons, List.sum_cons]
    rw [hb, Nat.mod_eq_of_lt (by omega),
      ih _ (fun c hc => hnn c (List.mem_cons_of_mem _ hc)) (by omega)]
    omega

theorem entry_sum_eq_events (nrow : Nat) (cols : List Column)
    (hfits : ∀ c ∈ cols, c.fits nrow) (hnn : ∀ c ∈ cols, ∀ x ∈ c.get_values, 0 ≤ x) :
    (cols.map (Column.entry_sum nrow)).sum
      = (((cols.map (fun c => events c.get_values)).sum : Nat) : Int) := by
  induction cols with
  | nil => rfl
  | cons col cols ih =>
    have h1 := entry_sum_of_fits nrow col (hfits col (List.mem_cons_self _ _))
    have h2 := events_eq_sum _ (hnn col (List.mem_cons_self _ _))
    have h3 := ih (fun c hc => hfits c (List.mem_cons_of_mem _ hc))
      (fun c hc => hnn c (List.mem_cons_of_mem _ hc))
    simp only [List.map_cons, List.sum_cons, Nat.cast_add, h1, h2, h3]

theorem entry_sum_of_forall₂ (nrow : Nat) (cols outs : List Column)
    (h : List.Forall₂ (fun col out => Column.fits nrow out ∧
      ∀ r, Column.entry out r ≤ Column.entry col r) cols outs) :
    (outs.map (Column.entry_sum nrow)).sum = (outs.map (fun c => c.get_values.sum)).sum := by
  induction h with
  | nil => rfl
  | cons hab _ ih =>
    simp only [List.map_cons, List.sum_cons, ih, entry_sum_of_fits nrow _ hab.1]

theorem entry_le_of_forall₂ (n n' : Nat) (cols outs : List Column)
    (h : List.Forall₂ (fun col out => Column.fits n out ∧
      ∀ r, Column.entry out r ≤ Column.entry col r) cols outs) (r c : Nat) :
    Matrix.entry ⟨n', outs⟩ r c ≤ Matrix.entry ⟨n, cols⟩ r c := by
  induction h generalizing c with
  | nil => simp [Matrix.entry]
  | cons hab _ ih =>
    cases c with
    | zero =>
      simpa [Matrix.entry] using hab.2 r
    | succ c =>
      have := ih c
      simpa [Matrix.entry] using this

theorem bigsum_lt (xs : List Int) : bigsum xs < bigint_mod := by
  have h := bigsum_emod xs
  have hW : (0 : Int) < (bigint_mod : Int) := by simp [bigint_mod]
  have : (bigsum xs : Int) < (bigint_mod : Int) := by
    rw [h]
    exact Int.emod_lt_of_pos _ hW
  exact_mod_cast this

theorem event_keeps (u : Nat → ℚ) (c : Cell) :
    (event u c).down.num_total = c.down.num_total ∧
    (event u c).down.num_sample = c.down.num_sample := by
  unfold event
  split <;> exact ⟨rfl, rfl⟩

theorem for_events_keeps (u : Nat → ℚ) (n : Nat) (c : Cell) :
    (for_events u n c).down.num_total = c.down.num_total ∧
    (for_events u n c).down.num_sample = c.down.num_sample := by
  induction n generalizing c with
  | zero => exact ⟨rfl, rfl⟩
  | succ n ih =>
    by_cases hlt : c.down.num_sample > c.down.num_selected
    · simp only [for_events, if_pos hlt]
      obtain ⟨h1, h2⟩ := ih (event u c)
      obtain ⟨e1, e2⟩ := event_keeps u c
      exact ⟨h1.trans e1, h2.trans e2⟩
    · simp only [for_events, if_neg hlt, and_self]

theorem apply_keeps (u : Nat → ℚ) (freq out : List Int) (d : downsampler) (k : Nat) :
    (apply u freq out d k).down.num_total = d.num_total ∧
    (apply u freq out d k).down.num_sample = d.num_sample := by
  induction freq generalizing out d k with
  | nil => exact ⟨rfl, rfl⟩
  | cons x freq ih =>
    by_cases hs : d.num_selected < d.num_sample
    · have key : ∀ o : Int, ∀ os : List Int,
          (apply u freq os (for_events u x.toNat ⟨o, d, k⟩).down
              (for_events u x.toNat ⟨o, d, k⟩).drawn).down.num_total = d.num_total ∧
          (apply u freq os (for_events u x.toNat ⟨o, d, k⟩).down
              (for_events u x.toNat ⟨o, d, k⟩).drawn).down.num_sample = d.num_sample := by
        intro o os
        obtain ⟨h1, h2⟩ := ih os (for_events u x.toNat ⟨o, d, k⟩).down
          (for_events u x.toNat ⟨o, d, k⟩).drawn
        obtain ⟨e1, e2⟩ := for_events_keeps u x.toNat ⟨o, d, k⟩
        exact ⟨h1.trans e1, h2.trans e2⟩
      cases out with
      | nil =>
        simp only [apply, if_pos hs]
        exact key 0 []
      | cons o os =>
        rw [apply_cons_cons u x freq o os d k hs]
        exact key o os
    · rw [apply_stop u _ _ _ _ hs]
      exact ⟨rfl, rfl⟩

theorem apply_append (u : Nat → ℚ) (a b oa ob : List Int) (hlen : oa.length = a.length)
    (d : downsampler) (k : Nat) :
    apply u (a ++ b) (oa ++ ob) d k
      = ⟨(apply u a oa d k).out
            ++ (apply u b ob (apply u a oa d k).down (apply u a oa d k).drawn).out,
          (apply u b ob (apply u a oa d k).down (apply u a oa d k).drawn).down,
          (apply u b ob (apply u a oa d k).down (apply u a oa d k).drawn).drawn⟩ := by
  induction a generalizing oa d k with
  | nil =>
    have : oa = [] := List.eq_nil_of_length_eq_zero hlen
    subst this
    simp [apply]
  | cons x a ih =>
    cases oa with
    | nil => simp at hlen
    | cons o oa =>
      by_cases hs : d.num_selected < d.num_sample
      · rw [List.cons_append, List.cons_append, apply_cons_cons u x (a ++ b) o (oa ++ ob) d k hs,
          apply_cons_cons u x a o oa d k hs, ih oa (by simpa using hlen)]
        simp
      · rw [apply_stop u _ _ _ _ hs, apply_stop u (x :: a) _ _ _ hs]
        dsimp only
        rw [apply_stop u b _ _ _ hs]

theorem apply_single_stop (u : Nat → ℚ) (v out : List Int) (p : Double) (d : downsampler)
    (k : Nat)
    (h : Double.to_bigint (Double.round (Double.mul p (Double.of_bigint (bigsum v)))) = 0) :
    apply_single u v out p d k
      = ⟨out, { num_total := bigsum v, num_sample := 0, num_processed := 0,
                num_selected := 0 }, k⟩ := by
  simp only [apply_single, downsampler.set_num_sample, h]
  rw [apply_stop u _ _ _ _ (by simp)]

theorem Inv.bounds {d : downsampler} (h : Inv d) : Bounds d := by
  obtain ⟨-, h1, h2, h3, h4⟩ := h
  exact ⟨Nat.zero_le _, h3, Nat.zero_le _, h1, by omega⟩

theorem for_events_states_last (u : Nat → ℚ) (n : Nat) (c : Cell) :
    (for_events u n c).down = (for_events_states u n c).getLastD c.down := by
  induction n generalizing c with
  | zero => rfl
  | succ n ih =>
    by_cases hlt : c.down.num_sample > c.down.num_selected
    · simp only [for_events, for_events_states, if_pos hlt, List.getLastD_cons]
      exact ih (event u c)
    · simp only [for_events, for_events_states, if_neg hlt, List.getLastD_nil]

theorem getLastD_append (xs ys : List downsampler) (d : downsampler) :
    (xs ++ ys).getLastD d = ys.getLastD (xs.getLastD d) := by
  induction xs generalizing d with
  | nil => rfl
  | cons x xs ih =>
    rw [List.cons_append, List.getLastD_cons, List.getLastD_cons]
    exact ih x

theorem apply_states_last (u : Nat → ℚ) (freq out : List Int) (d : downsampler) (k : Nat) :
    (apply u freq out d k).down = (apply_states u freq out d k).getLastD d := by
  induction freq generalizing out d k with
  | nil => rfl
  | cons x freq ih =>
    by_cases hs : d.num_selected < d.num_sample
    · cases out with
      | nil =>
        simp only [apply, apply_states, if_pos hs]
        rw [getLastD_append, ← for_events_states_last]
        exact ih [] _ _
      | cons o os =>
        simp only [apply, apply_states, if_pos hs]
        rw [getLastD_append, ← for_events_states_last]
        exact ih os _ _
    · rw [apply_stop u _ _ _ _ hs]
      simp only [apply_states, if_neg hs, List.getLastD_nil]

theorem for_events_states_inv (u : Nat → ℚ) (hu : unit_draws u) (n : Nat) (c : Cell)
    (h : Inv c.down) : ∀ s ∈ for_events_states u n c, Inv s := by
  induction n generalizing c with
  | zero =>
    intro s hs
    simp [for_events_states] at hs
  | succ n ih =>
    intro s hs
    by_cases hlt : c.down.num_sample > c.down.num_selected
    · have hi := (event_progress u c hu h hlt).inv
      simp only [for_events_states, if_pos hlt, List.mem_cons] at hs
      rcases hs with rfl | hs
      · exact hi
      · exact ih (event u c) hi s hs
    · simp [for_events_states, if_neg hlt] at hs

theorem apply_states_inv (u : Nat → ℚ) (hu : unit_draws u) (freq out : List Int)
    (d : downsampler) (k : Nat) (h : Inv d) : ∀ s ∈ apply_states u freq out d k, Inv s := by
  induction freq generalizing out d k with
  | nil =>
    intro s hs
    simp [apply_states] at hs
  | cons x freq ih =>
    intro s hs
    by_cases hlt : d.num_selected < d.num_sample
    · have key : ∀ o : Int, ∀ os : List Int,
          s ∈ for_events_states u x.toNat ⟨o, d, k⟩ ++
            apply_states u freq os (for_events u x.toNat ⟨o, d, k⟩).down
              (for_events u x.toNat ⟨o, d, k⟩).drawn → Inv s := by
        intro o os hmem
        rcases List.mem_append.mp hmem with h1 | h1
        · exact for_events_states_inv u hu x.toNat ⟨o, d, k⟩ h s h1
        · exact ih os _ _ (for_events_spec u hu x.toNat ⟨o, d, k⟩ h).1.inv s h1
      cases out with
      | nil =>
        simp only [apply_states, if_pos hlt] at hs
        exact key 0 [] hs
      | cons o os =>
        simp only [apply_states, if_pos hlt] at hs
        exact key o os hs
    · simp [apply_states, if_neg hlt] at hs

theorem apply_each_states_inv (u : Nat → ℚ) (hu : unit_draws u) (vs : List (List Int))
    (d : downsampler) (k : Nat) (h : Inv d) : ∀ s ∈ apply_each_states u vs d k, Inv s := by
  induction vs generalizing d k with
  | nil =>
    intro s hs
    simp [apply_each_states] at hs
  | cons v vs ih =>
    intro s hs
    simp only [apply_each_states] at hs
    rcases List.mem_append.mp hs with h1 | h1
    · exact apply_states_inv u hu v _ d k h s h1
    · exact ih _ _ (apply_progress u hu v _ d k h).1.inv s h1

theorem check_mode_ok_shape (n : Nat) (prop : List Double) (bycol : List Bool) (percol : Bool)
    (h : check_downsampling_mode n prop bycol = Except.ok percol) :
    bycol = [percol] ∧ (percol = true → prop.length = n) ∧
      (percol = false → prop.length = 1) := by
  match bycol, h with
  | [], h => simp [check_downsampling_mode, check_logical_scalar] at h
  | _ :: _ :: _, h => simp [check_downsampling_mode, check_logical_scalar] at h
  | [true], h =>
    by_cases hlen : prop.length = n
    · rcases check_each_prop_cases prop with ⟨-, hall⟩ | ⟨-, hex⟩
      · rw [check_mode_per_unit_ok n prop hlen hall] at h
        injection h with h
        subst h
        exact ⟨rfl, fun _ => hlen, (fun hf => by cases hf)⟩
      · rw [check_mode_per_unit_range n prop hlen hex] at h
        cases h
    · rw [check_mode_per_unit_length n prop hlen] at h
      cases h
  | [false], h =>
    by_cases hs : ∃ x, prop = [x]
    · obtain ⟨x, rfl⟩ := hs
      rw [check_mode_global_single] at h
      by_cases hx : x < 0 ∨ x > 1
      · rw [if_pos hx] at h
        cases h
      · rw [if_neg hx] at h
        injection h with h
        subst h
        exact ⟨rfl, (fun hf => by cases hf), fun _ => rfl⟩
    · push_neg at hs
      rw [check_mode_global_other n prop hs] at h
      cases h

theorem cast_int_intCast (x : Int) : cast_int (x : ℚ) = x := by
  unfold cast_int
  split
  · exact Int.floor_intCast x
  · exact Int.ceil_intCast x

theorem bigsum_numeric_foldl (xs : List Int) (acc : Nat) :
    (xs.map (fun x : Int => (x : ℚ))).foldl
        (fun sum x => Int.toNat (((sum : Int) + cast_int x) % (bigint_mod : Int))) acc
      = xs.foldl (fun sum x => Int.toNat (((sum : Int) + x) % (bigint_mod : Int))) acc := by
  induction xs generalizing acc with
  | nil => rfl
  | cons x xs ih =>
    simp only [List.map_cons, List.foldl_cons, cast_int_intCast]
    exact ih _

theorem bigsum_numeric_intCast (xs : List Int) :
    bigsum_numeric (xs.map (fun x : Int => (x : ℚ))) = bigsum xs :=
  bigsum_numeric_foldl xs 0

theorem sum_eq_zero_of_all_zero (v : List Int) (hz : ∀ x ∈ v, x = 0) : v.sum = 0 := by
  induction v with
  | nil => rfl
  | cons x v ih =>
    rw [List.sum_cons, hz x (List.mem_cons_self _ _),
      ih (fun y hy => hz y (List.mem_cons_of_mem _ hy))]
    rfl

theorem clear_outgoing_zero (col : Column) (n : Nat) :
    clear_outgoing col (List.replicate n 0) = List.replicate n 0 := by
  unfold clear_outgoing
  split
  · rw [List.length_replicate, List.drop_replicate, ← List.replicate_add]
    congr 1
    omega
  · rw [List.length_replicate]

theorem lookup_zip_zero (indices : List Nat) (zs : List Int) (hz : ∀ z ∈ zs, z = 0)
    (r : Nat) : ((indices.zip zs).lookup r).getD 0 = 0 := by
  induction indices generalizing zs with
  | nil => simp
  | cons i indices ih =>
    cases zs with
    | nil => simp
    | cons z zs =>
      simp only [List.zip_cons_cons, List.lookup_cons]
      by_cases hri : r = i
      · subst hri
        simpa using hz z (List.mem_cons_self _ _)
      · have : (r == i) = false := by simpa using hri
        rw [this]
        exact ih zs (fun y hy => hz y (List.mem_cons_of_mem _ hy))

theorem store_column_zero_entry (ngenes : Nat) (col : Column) (n r : Nat) :
    (store_column ngenes col (List.replicate n 0)).entry r = 0 := by
  cases col with
  | dense values =>
    simp only [store_column, Column.entry, List.take_replicate]
    exact getD_replicate_zero _ r
  | sparse indices values =>
    simp only [store_column, Column.entry]
    apply lookup_zip_zero
    intro z hz
    exact List.eq_of_mem_replicate (List.mem_of_mem_take hz)

/-- The second loop of `downsample_matrix_internal` on columns of zeros, entered with a
cleared buffer and, in global mode, with the budget used up: every column is stored
from the cleared buffer and no draw is taken. -/
theorem matrix_loop_zero (u : Nat → ℚ) (percol : Bool) (ngenes : Nat) (cols : List Column)
    (pIt : List Double) (d : downsampler) (k : Nat)
    (hz : ∀ c ∈ cols, ∀ x ∈ c.get_values, x = 0)
    (hd : percol = false → ¬ d.num_selected < d.num_sample) :
    (matrix_loop u percol ngenes cols pIt (List.replicate ngenes 0) d k).1
      = cols.map (fun col => store_column ngenes col (List.replicate ngenes 0)) ∧
    (matrix_loop u percol ngenes cols pIt (List.replicate ngenes 0) d k).2.2 = k := by
  induction cols generalizing pIt d with
  | nil => exact ⟨rfl, rfl⟩
  | cons col cols ih =>
    have hcz := hz col (List.mem_cons_self _ _)
    have hz' : ∀ c ∈ cols, ∀ x ∈ c.get_values, x = 0 :=
      fun c hc => hz c (List.mem_cons_of_mem _ hc)
    cases percol with
    | true =>
      have hb : Double.to_bigint (Double.round (Double.mul (pIt.headD 0)
          (Double.of_bigint (bigsum col.get_values)))) = 0 := by
        have hs : (bigsum col.get_values : Int) = 0 := by
          rw [bigsum_emod, sum_eq_zero_of_all_zero _ hcz]
          simp
        have hs' : bigsum col.get_values = 0 := by exact_mod_cast hs
        rw [hs']
        exact budget_zero_total _
      have e := apply_single_stop u col.get_values (List.replicate ngenes 0) (pIt.headD 0) d k hb
      obtain ⟨i1, i2⟩ := ih pIt.tail
        { num_total := bigsum col.get_values, num_sample := 0, num_processed := 0,
          num_selected := 0 } hz' (fun h => by cases h)
      simp only [matrix_loop, if_true, e, clear_outgoing_zero, List.map_cons, i1, i2,
        and_self]
    | false =>
      have e := apply_stop u col.get_values (List.replicate ngenes 0) d k (hd rfl)
      obtain ⟨i1, i2⟩ := ih pIt d hz' hd
      simp only [matrix_loop, Bool.false_eq_true, if_false, e, clear_outgoing_zero,
        List.map_cons, i1, i2, and_self]

theorem matrix_total_zero (cols : List Column) (hz : ∀ c ∈ cols, ∀ x ∈ c.get_values, x = 0) :
    matrix_total cols = 0 := by
  have key : ∀ cs : List Column, (∀ c ∈ cs, ∀ x ∈ c.get_values, x = 0) →
      cs.foldl (fun num_total col => (num_total + bigsum col.get_values) % bigint_mod) 0
        = 0 := by
    intro cs
    induction cs with
    | nil => intro _; rfl
    | cons c cs ih =>
      intro h
      have hs : (bigsum c.get_values : Int) = 0 := by
        rw [bigsum_emod, sum_eq_zero_of_all_zero _ (h c (List.mem_cons_self _ _))]
        simp
      have hs' : bigsum c.get_values = 0 := by exact_mod_cast hs
      simp only [List.foldl_cons, hs', Nat.add_zero, Nat.zero_mod]
      exact ih (fun c' hc' => h c' (List.mem_cons_of_mem _ hc'))
  exact key cols hz

theorem cast_int_zero : cast_int 0 = 0 := by
  have := cast_int_intCast 0
  simpa using this

theorem bigsum_numeric_zero (xs : List ℚ) (hz : ∀ x ∈ xs, x = 0) : bigsum_numeric xs = 0 := by
  have key : ∀ ys : List ℚ, (∀ y ∈ ys, y = 0) →
      ys.foldl (fun sum x => Int.toNat (((sum : Int) + cast_int x) % (bigint_mod : Int))) 0
        = 0 := by
    intro ys
    induction ys with
    | nil => intro _; rfl
    | cons y ys ih =>
      intro h
      have hy : y = 0 := h y (List.mem_cons_self _ _)
      have h0 : Int.toNat ((((0 : Nat) : Int) + cast_int y) % (bigint_mod : Int)) = 0 := by
        rw [hy, cast_int_zero]
        rfl
      simp only [List.foldl_cons, h0]
      exact ih (fun z hz' => h z (List.mem_cons_of_mem _ hz'))
  exact key xs hz

theorem apply_numeric_stop (u : Nat → ℚ) (freq : List ℚ) (out : List Int) (d : downsampler)
    (k : Nat) (hs : ¬ d.num_selected < d.num_sample) :
    apply_numeric u freq out d k = ⟨out, d, k⟩ := by
  cases freq with
  | nil => rfl
  | cons x freq => simp only [apply_numeric, if_neg hs]

theorem apply_single_numeric_stop (u : Nat → ℚ) (v : List ℚ) (out : List Int) (p : Double)
    (d : downsampler) (k : Nat)
    (h : Double.to_bigint (Double.round (Double.mul p (Double.of_bigint (bigsum_numeric v))))
      = 0) :
    apply_single_numeric u v out p d k
      = ⟨out, { num_total := bigsum_numeric v, num_sample := 0, num_processed := 0,
                num_selected := 0 }, k⟩ := by
  simp only [apply_single_numeric, downsampler.set_num_sample, h]
  rw [apply_numeric_stop u _ _ _ _ (by simp)]

theorem clear_outgoing_numeric_zero (col : NumColumn) (n : Nat) :
    clear_outgoing_numeric col (List.replicate n 0) = List.replicate n 0 := by
  unfold clear_outgoing_numeric
  split
  · rw [List.length_replicate, List.drop_replicate, ← List.replicate_add]
    congr 1
    omega
  · rw [List.length_replicate]

theorem lookup_zip_zero_numeric (indices : List Nat) (zs : List ℚ) (hz : ∀ z ∈ zs, z = 0)
    (r : Nat) : ((indices.zip zs).lookup r).getD 0 = 0 := by
  induction indices generalizing zs with
  | nil => simp
  | cons i indices ih =>
    cases zs with
    | nil => simp
    | cons z zs =>
      simp only [List.zip_cons_cons, List.lookup_cons]
      by_cases hri : r = i
      · subst hri
        simpa using hz z (List.mem_cons_self _ _)
      · have : (r == i) = false := by simpa using hri
        rw [this]
        exact ih zs (fun y hy => hz y (List.mem_cons_of_mem _ hy))

theorem getD_zero_of_all_zero (zs : List ℚ) (hz : ∀ z ∈ zs, z = 0) (r : Nat) :
    zs.getD r 0 = 0 := by
  induction zs generalizing r with
  | nil => simp
  | cons z zs ih =>
    cases r with
    | zero => simpa using hz z (List.mem_cons_self _ _)
    | succ r => simpa using ih (fun y hy => hz y (List.mem_cons_of_mem _ hy)) r

theorem map_cast_take_replicate_zero (m n : Nat) :
    ∀ z ∈ ((List.replicate n (0 : Int)).take m).map (fun o : Int => (o : ℚ)), z = 0 := by
  intro z hz
  obtain ⟨o, ho, rfl⟩ := List.mem_map.mp hz
  have := List.eq_of_mem_replicate (List.mem_of_mem_take ho)
  rw [this]
  simp

theorem store_column_numeric_zero_entry (ngenes : Nat) (col : NumColumn) (n r : Nat) :
    (store_column_numeric ngenes col (List.replicate n 0)).entry r = 0 := by
  cases col with
  | dense values =>
    simp only [store_column_numeric, NumColumn.entry]
    exact getD_zero_of_all_zero _ (map_cast_take_replicate_zero _ _) r
  | sparse indices values =>
    simp only [store_column_numeric, NumColumn.entry]
    exact lookup_zip_zero_numeric _ _ (map_cast_take_replicate_zero _ _) r

theorem matrix_loop_numeric_zero (u : Nat → ℚ) (percol : Bool) (ngenes : Nat)
    (cols : List NumColumn) (pIt : List Double) (d : downsampler) (k : Nat)
    (hz : ∀ c ∈ cols, ∀ x ∈ c.get_values, x = 0)
    (hd : percol = false → ¬ d.num_selected < d.num_sample) :
    (matrix_loop_numeric u percol ngenes cols pIt (List.replicate ngenes 0) d k).1
      = cols.map (fun col => store_column_numeric ngenes col (List.replicate ngenes 0)) ∧
    (matrix_loop_numeric u percol ngenes cols pIt (List.replicate ngenes 0) d k).2.2 = k := by
  induction cols generalizing pIt d with
  | nil => exact ⟨rfl, rfl⟩
  | cons col cols ih =>
    have hcz := hz col (List.mem_cons_self _ _)
    have hz' : ∀ c ∈ cols, ∀ x ∈ c.get_values, x = 0 :=
      fun c hc => hz c (List.mem_cons_of_mem _ hc)
    cases percol with
    | true =>
      have hb : Double.to_bigint (Double.round (Double.mul (pIt.headD 0)
          (Double.of_bigint (bigsum_numeric col.get_values)))) = 0 := by
        rw [bigsum_numeric_zero _ hcz]
        exact budget_zero_total _
      have e := apply_single_numeric_stop u col.get_values (List.replicate ngenes 0)
        (pIt.headD 0) d k hb
      obtain ⟨i1, i2⟩ := ih pIt.tail
        { num_total := bigsum_numeric col.get_values, num_sample := 0, num_processed := 0,
          num_selected := 0 } hz' (fun h => by cases h)
      simp only [matrix_loop_numeric, if_true, e, clear_outgoing_numeric_zero, List.map_cons,
        i1, i2, and_self]
    | false =>
      have e := apply_numeric_stop u col.get_values (List.replicate ngenes 0) d k (hd rfl)
      obtain ⟨i1, i2⟩ := ih pIt d hz' hd
      simp only [matrix_loop_numeric, Bool.false_eq_true, if_false, e,
        clear_outgoing_numeric_zero, List.map_cons, i1, i2, and_self]

theorem matrix_total_numeric_zero (cols : List NumColumn)
    (hz : ∀ c ∈ cols, ∀ x ∈ c.get_values, x = 0) : matrix_total_numeric cols = 0 := by
  have key : ∀ cs : List NumColumn, (∀ c ∈ cs, ∀ x ∈ c.get_values, x = 0) →
      cs.foldl
        (fun num_total col => (num_total + bigsum_numeric col.get_values) % bigint_mod) 0
        = 0 := by
    intro cs
    induction cs with
    | nil => intro _; rfl
    | cons c cs ih =>
      intro h
      simp only [List.foldl_cons, bigsum_numeric_zero _ (h c (List.mem_cons_self _ _)),
        Nat.add_zero, Nat.zero_mod]
      exact ih (fun c' hc' => h c' (List.mem_cons_of_mem _ hc'))
  exact key cols hz

theorem selects_real_iff (d : downsampler) (hT : d.num_total < 2 ^ 64)
    (hP : d.num_processed ≤ d.num_total) (hS : d.num_selected ≤ d.num_sample)
    (hq : d.num_sample + d.num_processed ≤ d.num_total + d.num_selected) (x : ℝ) :
    selects d x ↔
      ((d.num_total : ℝ) - d.num_processed) * x < (d.num_sample : ℝ) - d.num_selected := by
  have h1 : (d.num_total + bigint_mod - d.num_processed) % bigint_mod
      = d.num_total - d.num_processed := by
    show (d.num_total + 2 ^ 64 - d.num_processed) % 2 ^ 64 = d.num_total - d.num_processed
    omega
  have h2 : (d.num_sample + bigint_mod - d.num_selected) % bigint_mod
      = d.num_sample - d.num_selected := by
    show (d.num_sample + 2 ^ 64 - d.num_selected) % 2 ^ 64 = d.num_sample - d.num_selected
    omega
  unfold selects
  rw [h1, h2, Nat.cast_sub hP, Nat.cast_sub hS]

theorem selected_draws_eq_Ico (d : downsampler) (hT : d.num_total < 2 ^ 64)
    (hP : d.num_processed ≤ d.num_total)
    (hq : d.num_sample + d.num_processed ≤ d.num_total + d.num_selected)
    (hlt : d.num_selected < d.num_sample) :
    {x : ℝ | 0 ≤ x ∧ x < 1 ∧ selects d x}
      = Set.Ico 0 (((d.num_sample : ℝ) - d.num_selected)
          / ((d.num_total : ℝ) - d.num_processed)) := by
  have hiff := selects_real_iff d hT hP (le_of_lt hlt) hq
  have hb : (0 : ℝ) < (d.num_sample : ℝ) - d.num_selected := by
    have : (d.num_selected : ℝ) < d.num_sample := by exact_mod_cast hlt
    linarith
  have hab : (d.num_sample : ℝ) - d.num_selected ≤ (d.num_total : ℝ) - d.num_processed := by
    have : ((d.num_sample + d.num_processed : Nat) : ℝ)
        ≤ ((d.num_total + d.num_selected : Nat) : ℝ) := by exact_mod_cast hq
    push_cast at this
    linarith
  have ha : (0 : ℝ) < (d.num_total : ℝ) - d.num_processed := lt_of_lt_of_le hb hab
  ext x
  simp only [Set.mem_setOf_eq, Set.mem_Ico, hiff]
  constructor
  · rintro ⟨h0, -, hs⟩
    refine ⟨h0, ?_⟩
    rw [lt_div_iff₀ ha]
    linarith
  · rintro ⟨h0, hx⟩
    rw [lt_div_iff₀ ha] at hx
    refine ⟨h0, ?_, by linarith⟩
    by_contra hge
    push_neg at hge
    nlinarith

theorem event_selected_iff (u : Nat → ℚ) (c : Cell) :
    (event u c).out = c.out + 1 ↔
      Double.mul
          (Double.of_bigint
            ((c.down.num_total + bigint_mod - c.down.num_processed) % bigint_mod))
          (Double.fin (u c.drawn))
        < Double.of_bigint
            ((c.down.num_sample + bigint_mod - c.down.num_selected) % bigint_mod) := by
  unfold event
  constructor
  · intro h
    by_contra hn
    rw [if_neg hn] at h
    simp only at h
    omega
  · intro h
    rw [if_pos h]

theorem event_count (u : Nat → ℚ) (c : Cell) (hlt : c.down.num_selected < c.down.num_sample)
    (hS : c.down.num_sample < bigint_mod) :
    (event u c).down.num_sample = c.down.num_sample ∧
    (event u c).down.num_selected ≤ c.down.num_sample ∧
    (event u c).out + c.down.num_selected = c.out + (event u c).down.num_selected := by
  have h3 : (c.down.num_selected + 1) % bigint_mod = c.down.num_selected + 1 := by
    have : c.down.num_sample < 2 ^ 64 := hS
    show (c.down.num_selected + 1) % 2 ^ 64 = c.down.num_selected + 1
    omega
  unfold event
  split
  · dsimp only
    rw [h3]
    refine ⟨rfl, by omega, ?_⟩
    push_cast
    ring
  · dsimp only
    exact ⟨rfl, le_of_lt hlt, rfl⟩

theorem for_events_count (u : Nat → ℚ) (n : Nat) (c : Cell)
    (h : c.down.num_selected ≤ c.down.num_sample) (hS : c.down.num_sample < bigint_mod) :
    (for_events u n c).down.num_sample = c.down.num_sample ∧
    (for_events u n c).down.num_selected ≤ c.down.num_sample ∧
    (for_events u n c).out + c.down.num_selected
      = c.out + (for_events u n c).down.num_selected := by
  induction n generalizing c with
  | zero => exact ⟨rfl, h, rfl⟩
  | succ n ih =>
    by_cases hlt : c.down.num_sample > c.down.num_selected
    · obtain ⟨a1, a2, a3⟩ := event_count u c hlt hS
      obtain ⟨b1, b2, b3⟩ := ih (event u c) (by rw [a1]; exact a2) (by rw [a1]; exact hS)
      simp only [for_events, if_pos hlt]
      rw [a1] at b1 b2
      exact ⟨b1, b2, by linarith⟩
    · simp only [for_events, if_neg hlt]
      exact ⟨trivial, h, trivial⟩

/-- The count of the three-argument operator, from any state in which no more than the
budget has been selected: the budget is kept and never exceeded, and the output gains as
many counts as are selected. -/
theorem apply_count (u : Nat → ℚ) (freq out : List Int) (d : downsampler) (k : Nat)
    (h : d.num_selected ≤ d.num_sample) (hS : d.num_sample < bigint_mod)
    (hlen : freq.length ≤ out.length) :
    (apply u freq out d k).down.num_sample = d.num_sample ∧
    (apply u freq out d k).down.num_selected ≤ d.num_sample ∧
    (apply u freq out d k).out.sum + d.num_selected
      = out.sum + (apply u freq out d k).down.num_selected := by
  induction freq generalizing out d k with
  | nil => exact ⟨rfl, h, rfl⟩
  | cons x freq ih =>
    by_cases hs : d.num_selected < d.num_sample
    · cases out with
      | nil => simp at hlen
      | cons o os =>
        rw [apply_cons_cons u x freq o os d k hs]
        obtain ⟨a1, a2, a3⟩ := for_events_count u x.toNat ⟨o, d, k⟩ h hS
        obtain ⟨b1, b2, b3⟩ := ih os (for_events u x.toNat ⟨o, d, k⟩).down
          (for_events u x.toNat ⟨o, d, k⟩).drawn (by rw [a1]; exact a2) (by rw [a1]; exact hS)
          (by simpa using hlen)
        rw [a1] at b1 b2
        simp only [List.sum_cons] at *
        exact ⟨b1, b2, by linarith⟩
    · rw [apply_stop u _ _ _ _ hs]
      exact ⟨rfl, h, rfl⟩

theorem wide_counts_length : wide_counts.length = 2 ^ 23 + 1 := by
  rw [wide_counts, List.length_append, List.length_replicate]
  rfl

theorem wide_counts_sum : wide_counts.sum = 2 ^ 53 + 1 := by
  rw [wide_counts, List.sum_append, List.sum_replicate]
  norm_num

theorem wide_counts_mem : ∀ x ∈ wide_counts, 0 ≤ x ∧ x < 2 ^ 31 := by
  intro x hx
  rw [wide_counts, List.mem_append] at hx
  rcases hx with h | h
  · rw [List.eq_of_mem_replicate h]
    norm_num
  · rw [List.mem_singleton] at h
    rw [h]
    norm_num

theorem bigsum_wide_counts : bigsum wide_counts = 2 ^ 53 + 1 := by
  have h := bigsum_eq_sum wide_counts (fun x hx => (wide_counts_mem x hx).1)
    (by rw [wide_counts_sum]; decide)
  rw [wide_counts_sum] at h
  exact_mod_cast h

/-- The budget on a total of `2 ^ 53 + 1` with proportion 1: the total is rounded to
`2 ^ 53` when it is converted to `double`. -/
theorem budget_wide :
    Double.to_bigint (Double.round (Double.mul (Double.fin 1)
      (Double.of_bigint (2 ^ 53 + 1)))) = 2 ^ 53 := by decide!

theorem std_round_close (y : ℚ) (h0 : 0 ≤ y) : |((std_round y : Int) : ℚ) - y| ≤ 1 / 2 := by
  simp only [std_round, if_pos h0]
  have h1 := Int.floor_le (y + 1 / 2)
  have h2 := Int.lt_floor_add_one (y + 1 / 2)
  rw [abs_le]
  constructor <;> linarith

/-- The budget lies within `1/2 + N / 2 ^ 53` of the exact product. -/
theorem budget_close (N : Nat) (hN : N < 2 ^ 53) (p : ℚ) (h0 : 0 ≤ p) (h1 : p ≤ 1) :
    |((std_round (fl (p * (N : ℚ))) : Int) : ℚ) - p * (N : ℚ)| ≤ 1 / 2 + (N : ℚ) / 2 ^ 53 := by
  have hn : (0 : ℚ) ≤ (N : ℚ) := Nat.cast_nonneg N
  have hx0 : 0 ≤ p * (N : ℚ) := mul_nonneg h0 hn
  have hxN : p * (N : ℚ) ≤ N := by nlinarith
  have a := std_round_close _ (fl_nonneg _ hx0)
  have b := fl_close _ hx0 N hN hxN
  have e : ((std_round (fl (p * (N : ℚ))) : Int) : ℚ) - p * (N : ℚ)
      = (((std_round (fl (p * (N : ℚ))) : Int) : ℚ) - fl (p * (N : ℚ)))
        + (fl (p * (N : ℚ)) - p * (N : ℚ)) := by ring
  rw [e]
  exact le_trans (abs_add _ _) (add_le_add a b)

theorem rounds_numeric_intCast (x : Int) : rounds_numeric (x : ℚ) = x.toNat := by
  unfold rounds_numeric
  rw [Int.ceil_intCast]

theorem apply_numeric_intCast (u : Nat → ℚ) (xs : List Int) (out : List Int)
    (d : downsampler) (k : Nat) :
    apply_numeric u (xs.map (fun x : Int => (x : ℚ))) out d k = apply u xs out d k := by
  induction xs generalizing out d k with
  | nil => rfl
  | cons x xs ih =>
    by_cases hs : d.num_selected < d.num_sample
    · cases out with
      | nil =>
        simp only [List.map_cons, apply_numeric, apply, if_pos hs, rounds_numeric_intCast, ih]
      | cons o os =>
        simp only [List.map_cons, apply_numeric, apply, if_pos hs, rounds_numeric_intCast, ih]
    · simp only [List.map_cons, apply_numeric, apply, if_neg hs]

theorem apply_single_numeric_intCast (u : Nat → ℚ) (xs : List Int) (out : List Int)
    (p : Double) (d : downsampler) (k : Nat) :
    apply_single_numeric u (xs.map (fun x : Int => (x : ℚ))) out p d k
      = apply_single u xs out p d k := by
  simp only [apply_single_numeric, apply_single, bigsum_numeric_intCast,
    apply_numeric_intCast]

theorem to_numeric_get_values (c : Column) :
    c.to_numeric.get_values = c.get_values.map (fun x : Int => (x : ℚ)) := by
  cases c <;> rfl

theorem to_numeric_get_n (c : Column) : c.to_numeric.get_n = c.get_n := by
  simp only [NumColumn.get_n, Column.get_n, to_numeric_get_values, List.length_map]

theorem to_numeric_is_sparse (c : Column) : c.to_numeric.is_sparse = c.is_sparse := by
  cases c <;> rfl

theorem store_column_to_numeric (ngenes : Nat) (col : Column) (out : List Int) :
    store_column_numeric ngenes col.to_numeric out
      = (store_column ngenes col out).to_numeric := by
  cases col with
  | dense values => rfl
  | sparse indices values =>
    simp only [Column.to_numeric, store_column_numeric, store_column, NumColumn.get_n,
      NumColumn.get_values, Column.get_n, Column.get_values, List.length_map]

theorem clear_outgoing_to_numeric (col : Column) (out : List Int) :
    clear_outgoing_numeric col.to_numeric out = clear_outgoing col out := by
  simp only [clear_outgoing_numeric, clear_outgoing, to_numeric_is_sparse, to_numeric_get_n]

/-- The second loop of `downsample_matrix_internal` at the types of `double`, on a matrix
that holds integer counts: it does what the loop at the integer types does. -/
theorem matrix_loop_to_numeric (u : Nat → ℚ) (percol : Bool) (ngenes : Nat)
    (cols : List Column) (pIt : List Double) (outgoing : List Int) (d : downsampler)
    (k : Nat) :
    matrix_loop_numeric u percol ngenes (cols.map Column.to_numeric) pIt outgoing d k
      = ((matrix_loop u percol ngenes cols pIt outgoing d k).1.map Column.to_numeric,
         (matrix_loop u percol ngenes cols pIt outgoing d k).2.1,
         (matrix_loop u percol ngenes cols pIt outgoing d k).2.2) := by
  induction cols generalizing pIt outgoing d k with
  | nil => rfl
  | cons col cols ih =>
    simp only [List.map_cons, matrix_loop_numeric, matrix_loop, to_numeric_get_values,
      apply_single_numeric_intCast, apply_numeric_intCast, clear_outgoing_to_numeric,
      store_column_to_numeric, ih]

theorem matrix_total_to_numeric (cols : List Column) :
    matrix_total_numeric (cols.map Column.to_numeric) = matrix_total cols := by
  have key : ∀ (cs : List Column) (acc : Nat),
      (cs.map Column.to_numeric).foldl
          (fun num_total col => (num_total + bigsum_numeric col.get_values) % bigint_mod) acc
        = cs.foldl (fun num_total col => (num_total + bigsum col.get_values) % bigint_mod)
            acc := by
    intro cs
    induction cs with
    | nil => intro acc; rfl
    | cons c cs ih =>
      intro acc
      simp only [List.map_cons, List.foldl_cons, to_numeric_get_values,
        bigsum_numeric_intCast]
      exact ih _
  exact key cols 0

/-- `downsample_matrix` on a matrix of `double` that holds integer counts returns what
it returns on the matrix of integer type with the same counts, held as `double`. -/
theorem downsample_matrix_to_numeric (u : Nat → ℚ) (mat : Matrix) (prop : List Double)
    (bycol : List Bool) (k : Nat) (out : Matrix)
    (h : (downsample_matrix u mat prop bycol k).1 = Except.ok out) :
    (downsample_matrix_numeric u mat.to_numeric prop bycol k).1
      = Except.ok out.to_numeric := by
  have hn : mat.to_numeric.ncol = mat.ncol := by
    simp only [NumMatrix.ncol, Matrix.ncol, Matrix.to_numeric, List.length_map]
  simp only [downsample_matrix, downsample_matrix_internal] at h
  simp only [downsample_matrix_numeric, downsample_matrix_internal_numeric, hn]
  cases hm : check_downsampling_mode mat.ncol prop bycol with
  | error e =>
    rw [hm] at h
    cases h
  | ok percol =>
    rw [hm] at h
    simp only at h ⊢
    injection h with h
    subst h
    simp only [Matrix.to_numeric, matrix_loop_to_numeric, matrix_total_to_numeric]

theorem to_numeric_entry (c : Column) (r : Nat) :
    c.to_numeric.entry r = ((c.entry r : Int) : ℚ) := by
  cases c with
  | dense values =>
    simp only [Column.to_numeric, NumColumn.entry, Column.entry]
    induction values generalizing r with
    | nil => simp
    | cons x xs ih =>
      cases r with
      | zero => simp
      | succ r => simpa using ih r
  | sparse indices values =>
    simp only [Column.to_numeric, NumColumn.entry, Column.entry]
    induction indices generalizing values with
    | nil => simp
    | cons i indices ih =>
      cases values with
      | nil => simp
      | cons x xs =>
        simp only [List.map_cons, List.zip_cons_cons, List.lookup_cons]
        by_cases hri : r = i
        · subst hri
          simp
        · have : (r == i) = false := by simpa using hri
          rw [this]
          exact ih xs

theorem matrix_to_numeric_entry (m : Matrix) (r c : Nat) :
    m.to_numeric.entry r c = ((m.entry r c : Int) : ℚ) := by
  simp only [Matrix.to_numeric, NumMatrix.entry, Matrix.entry, List.get?_eq_getElem?,
    List.getElem?_map]
  cases m.cols[c]? with
  | none => simp
  | some col => exact to_numeric_entry col r

theorem ok_of_toOption {ε α : Type} (x : Except ε α) (a : α) (h : x.toOption = some a) :
    x = Except.ok a := by
  cases x with
  | error e => simp [Except.toOption] at h
  | ok b =>
    simp only [Except.toOption, Option.some.injEq] at h
    rw [h]

/-- `downsample_runs` in global mode with proportion 1 on a single run that covers all of
`reads`: the output is that of one call of the three-argument operator on `reads`. -/
theorem downsample_runs_single_run (u : Nat → ℚ) (reads : List Int) (k : Nat) (c : Int)
    (h0 : 0 ≤ c) (hc : c.toNat = reads.length) (hb : bigsum [c] = reads.length) :
    (downsample_runs u [c] reads [Double.fin 1] [false] k).1
      = Except.ok (apply u reads (List.replicate reads.length 0)
          (({} : downsampler).set_global (bigsum reads) (Double.fin 1)) k).out := by
  have hn : ¬ bigsum [c] ≠ reads.length := fun h => h hb
  have hm : check_downsampling_mode ([c] : List Int).length [Double.fin 1] [false]
      = Except.ok false := check_mode_global_fin _ 1 (by norm_num) (le_refl _)
  have hle : ((0 : Nat) : Int) + c ≤ (reads.length : Int) := by omega
  simp only [downsample_runs, if_neg hn, hm, Bool.false_eq_true, if_false,
    List.headD_cons]
  rw [hb, runs_loop_cons_global u reads c [] 0 _ _ _ _ h0 hle]
  simp only [hc, List.drop_zero, List.take_length, List.take_zero, List.nil_append,
    runs_loop]

/-- A `double` passes both comparisons of the mode check exactly when it lies in [0, 1]
or is not-a-number. -/
theorem passes_iff (x : Double) : ¬ (x < 0 ∨ 1 < x) ↔ (x.in_unit ∨ x = Double.nan) := by
  cases x with
  | nan =>
    constructor
    · intro _
      exact Or.inr rfl
    · intro _
      rintro (h | h) <;> cases h
  | inf s =>
    constructor
    · intro h
      exfalso
      apply h
      cases s
      · exact Or.inr rfl
      · exact Or.inl rfl
    · rintro (h | h)
      · exact absurd h (by simp [Double.in_unit])
      · cases h
  | fin q =>
    rw [fin_lt_zero, one_lt_fin]
    simp only [Double.in_unit]
    constructor
    · intro h
      push_neg at h
      exact Or.inl h
    · rintro (h | h)
      · push_neg
        exact h
      · cases h

/-- The loop of `downsample_runs` on run lengths that are not negative and add up to the
part of `reads` from `cursor` on, with a proportion for each run in per-run mode: every
range lies inside the vectors, and the loop ends with a result as long as `output`. -/
theorem runs_loop_in_bounds (u : Nat → ℚ) (percol : Bool) (reads : List Int)
    (cells : List Int) (cursor : Nat) (pIt : List Double) (output : List Int)
    (d : downsampler) (k : Nat) (hc : ∀ c ∈ cells, 0 ≤ c)
    (hlen : (cursor : Int) + cells.sum = (reads.length : Int))
    (hp : percol = true → cells.length ≤ pIt.length)
    (hout : output.length = reads.length) :
    ∃ r, runs_loop u percol reads cells cursor pIt output d k = Except.ok r ∧
      r.out.length = reads.length := by
  induction cells generalizing cursor pIt output d k with
  | nil => exact ⟨⟨output, d, k⟩, rfl, hout⟩
  | cons c cells ih =>
    obtain ⟨h0, hle, hn, hlen'⟩ := run_inside c cells cursor reads.length hc hlen
    have hc' : ∀ y ∈ cells, 0 ≤ y := fun y hy => hc y (List.mem_cons_of_mem _ hy)
    have hA : (output.take cursor).length = cursor := by
      rw [List.length_take]
      omega
    cases percol with
    | true =>
      obtain ⟨p, ps, rfl⟩ : ∃ p ps, pIt = p :: ps := by
        cases pIt with
        | nil =>
          have := hp rfl
          simp at this
        | cons p ps => exact ⟨p, ps, rfl⟩
      rw [runs_loop_cons_per_run u reads c cells cursor p ps output d k h0 hle]
      apply ih _ _ _ _ _ hc' hlen'
      · intro _
        have := hp rfl
        simpa using this
      · rw [List.length_append, hA]
        simp only [apply_single, apply_length, List.length_drop, hout]
        omega
    | false =>
      rw [runs_loop_cons_global u reads c cells cursor pIt output d k h0 hle]
      apply ih _ _ _ _ _ hc' hlen'
      · intro h
        cases h
      · rw [List.length_append, hA, apply_length, List.length_drop, hout]
        omega

/-! ## The properties of the specification -/

/-! ### C1: the single-vector call selects exactly the budget -/

/-- The point at which C1 fails as it is worded: for the vector `[10]` and the proportion
0.35, a `double` in [0,1], the product `0.35 * 10` is rounded to the `double` 3.5 and
`std::round` takes it to 4, so the single-vector call returns `[4]`; yet
`round(p * sum(v))` is 3, because the `double` 0.35 lies a little below 7/20. -/
theorem apply_single_sum_counterexample :
    is_double double_0_35 ∧ 0 ≤ double_0_35 ∧ double_0_35 ≤ 1 ∧
    (apply_single mixed_draws [10] [0] (Double.fin double_0_35) {} 0).out = [4] ∧
    std_round (double_0_35 * ((([10] : List Int).sum : Int) : ℚ)) = 3 := by
  decide!

/-- C1, amended: for a frequency vector of non-negative integers whose sum lies below
`2 ^ 53`, a proportion `p` in [0,1] and uniform draws in [0,1), the single-vector call
on an all-zero output buffer leaves an output whose entries sum to exactly
`std::round` of the product as `double` forms it: the product `p * sum(v)` rounded to
the nearest `double`, then to the nearest integer, halves away from zero. That sum lies
within `1/2 + sum(v) / 2 ^ 53` of `p * sum(v)`. -/
theorem apply_single_sum_rounded (u : Nat → ℚ) (hu : unit_draws u) (v : List Int)
    (hv : ∀ x ∈ v, 0 ≤ x) (hfit : v.sum < 2 ^ 53) (p : ℚ) (hp0 : 0 ≤ p) (hp1 : p ≤ 1)
    (m : Nat) (hm : v.length ≤ m) (d : downsampler) (k : Nat) :
    (apply_single u v (List.replicate m 0) (Double.fin p) d k).out.sum
      = std_round (fl (p * (v.sum : ℚ))) ∧
    |(((apply_single u v (List.replicate m 0) (Double.fin p) d k).out.sum : Int) : ℚ)
        - p * (v.sum : ℚ)| ≤ 1 / 2 + (v.sum : ℚ) / 2 ^ 53 := by
  have h := (apply_single_core u hu v hv hfit p hp0 hp1 (List.replicate m 0) d k).2.2
    (by simpa using hm)
  have h1 : (apply_single u v (List.replicate m 0) (Double.fin p) d k).out.sum
      = std_round (fl (p * (v.sum : ℚ))) := by simpa using h
  refine ⟨h1, ?_⟩
  rw [h1]
  have hs0 : 0 ≤ v.sum := List.sum_nonneg hv
  have hN : v.sum.toNat < 2 ^ 53 := by omega
  have hc : ((v.sum.toNat : Nat) : ℚ) = (v.sum : ℚ) := by
    have : ((v.sum.toNat : Nat) : Int) = v.sum := Int.toNat_of_nonneg hs0
    exact_mod_cast congrArg (fun z : Int => (z : ℚ)) this
  have := budget_close v.sum.toNat hN p hp0 hp1
  rw [hc] at this
  exact this

theorem apply_single_sum_rounded_witness :
    (apply_single mixed_draws [5, 3, 2] (List.replicate 3 0) (Double.fin (1 / 2)) {} 0).out.sum
      = std_round (fl ((1 / 2 : ℚ) * ((([5, 3, 2] : List Int).sum : Int) : ℚ))) ∧
    |(((apply_single mixed_draws [5, 3, 2] (List.replicate 3 0) (Double.fin (1 / 2)) {}
          0).out.sum : Int) : ℚ)
        - (1 / 2 : ℚ) * ((([5, 3, 2] : List Int).sum : Int) : ℚ)|
      ≤ 1 / 2 + ((([5, 3, 2] : List Int).sum : Int) : ℚ) / 2 ^ 53 :=
  apply_single_sum_rounded mixed_draws mixed_draws_unit [5, 3, 2] (by decide) (by decide)
    (1 / 2) (by norm_num) (by norm_num) 3 (by decide) {} 0

/-! ### C2: the output never exceeds the input -/

/-- C2: for a frequency vector of non-negative integers, the output of the
single-vector call started from an all-zero buffer satisfies `out[i] <= v[i]` at every
position `i` (the buffer keeps its length), whatever the proportion and the draws. -/
theorem apply_single_le_input (u : Nat → ℚ) (v : List Int) (hv : ∀ x ∈ v, 0 ≤ x) (p : ℚ)
    (d : downsampler) (k : Nat) :
    (apply_single u v (List.replicate v.length 0) (Double.fin p) d k).out.length
      = v.length ∧
    ∀ i, (apply_single u v (List.replicate v.length 0) (Double.fin p) d k).out.getD i 0
      ≤ v.getD i 0 := by
  constructor
  · simp only [apply_single, apply_length, List.length_replicate]
  · intro i
    have h := (apply_bounds u v (List.replicate v.length 0)
      { (({ d with num_total := bigsum v }).set_num_sample (Double.fin p)) with
          num_processed := 0, num_selected := 0 } k i).2
    rw [getD_replicate_zero, zero_add, Int.toNat_of_nonneg (getD_nonneg v hv i)] at h
    exact h

theorem apply_single_le_input_witness :
    (apply_single mixed_draws [5, 3, 2] (List.replicate ([5, 3, 2] : List Int).length 0)
        (Double.fin (1 / 2)) {} 0).out.length = ([5, 3, 2] : List Int).length ∧
    ∀ i, (apply_single mixed_draws [5, 3, 2]
        (List.replicate ([5, 3, 2] : List Int).length 0) (Double.fin (1 / 2)) {} 0).out.getD i 0
      ≤ ([5, 3, 2] : List Int).getD i 0 :=
  apply_single_le_input mixed_draws [5, 3, 2] (by decide) (1 / 2) {} 0

/-! ### C3: proportion one returns the input -/

/-- The point at which C3 fails as it is worded: `wide_counts` holds `2 ^ 23 + 1`
non-negative counts, each of which fits an `int`, and their sum is `2 ^ 53 + 1`. The
conversion of that sum to `double` rounds it to `2 ^ 53`, so with proportion 1 the
budget is `2 ^ 53`: one event stays unselected, the output sums to at most `2 ^ 53`, and
the vector is not returned unchanged. -/
theorem apply_single_one_counterexample :
    (∀ x ∈ wide_counts, 0 ≤ x ∧ x < 2 ^ 31) ∧ wide_counts.sum = 2 ^ 53 + 1 ∧
    (apply_single mixed_draws wide_counts (List.replicate wide_counts.length 0)
      (Double.fin 1) {} 0).down.num_sample = 2 ^ 53 ∧
    (apply_single mixed_draws wide_counts (List.replicate wide_counts.length 0)
      (Double.fin 1) {} 0).out.sum ≤ 2 ^ 53 ∧
    (apply_single mixed_draws wide_counts (List.replicate wide_counts.length 0)
      (Double.fin 1) {} 0).out ≠ wide_counts := by
  have hc := apply_count mixed_draws wide_counts (List.replicate wide_counts.length 0)
    { num_total := 2 ^ 53 + 1, num_sample := 2 ^ 53, num_processed := 0, num_selected := 0 } 0
    (Nat.zero_le _) (by decide) (by simp)
  have hstart : ({ (({ ({} : downsampler) with num_total := bigsum wide_counts }).set_num_sample
      (Double.fin 1)) with num_processed := 0, num_selected := 0 } : downsampler)
      = { num_total := 2 ^ 53 + 1, num_sample := 2 ^ 53, num_processed := 0,
          num_selected := 0 } := by
    simp only [downsampler.set_num_sample, bigsum_wide_counts, budget_wide]
  have he : apply_single mixed_draws wide_counts (List.replicate wide_counts.length 0)
      (Double.fin 1) {} 0
      = apply mixed_draws wide_counts (List.replicate wide_counts.length 0)
        { num_total := 2 ^ 53 + 1, num_sample := 2 ^ 53, num_processed := 0,
          num_selected := 0 } 0 := by
    simp only [apply_single, hstart]
  rw [he]
  obtain ⟨c1, c2, c3⟩ := hc
  simp only [List.sum_replicate, smul_zero, Nat.cast_zero, add_zero, zero_add] at c3
  have hsum : (apply mixed_draws wide_counts (List.replicate wide_counts.length 0)
      { num_total := 2 ^ 53 + 1, num_sample := 2 ^ 53, num_processed := 0,
        num_selected := 0 } 0).out.sum ≤ 2 ^ 53 := by
    have h53 : ((2 ^ 53 : Nat) : Int) = 2 ^ 53 := by norm_num
    rw [c3, ← h53]
    exact Int.ofNat_le.mpr c2
  refine ⟨wide_counts_mem, wide_counts_sum, c1, hsum, ?_⟩
  intro h
  rw [h, wide_counts_sum] at hsum
  norm_num at hsum

/-- C3, amended: for a frequency vector of non-negative integers whose sum lies below
`2 ^ 53` and uniform draws in [0,1), the single-vector call with proportion 1 on an
all-zero buffer returns `v` unchanged: every event is selected, whatever the draws. -/
theorem apply_single_one (u : Nat → ℚ) (hu : unit_draws u) (v : List Int)
    (hv : ∀ x ∈ v, 0 ≤ x) (hfit : v.sum < 2 ^ 53) (d : downsampler) (k : Nat) :
    (apply_single u v (List.replicate v.length 0) (Double.fin 1) d k).out = v := by
  obtain ⟨hN, hE⟩ := bigsum_lt_of_sum v hv (lt_trans hfit (by norm_num))
  have hsum := bigsum_eq_sum v hv (by
    have : v.sum < 2 ^ 64 := lt_trans hfit (by norm_num)
    simpa [bigint_mod] using this)
  have hN53 : bigsum v < 2 ^ 53 := by
    have : (bigsum v : Int) < 2 ^ 53 := by rw [hsum]; exact hfit
    exact_mod_cast this
  obtain ⟨hI, hS⟩ := single_start_inv (bigsum v) hN53 1 (by norm_num) (le_refl _) d
  have hone := std_round_one_mul (bigsum v)
  rw [one_mul] at hone
  rw [fl_one_mul _ hN53, hone] at hS
  have hS' : (({ d with num_total := bigsum v }).set_num_sample (Double.fin 1)).num_sample
      = bigsum v := by
    exact_mod_cast hS
  have ht := apply_tight u hu v hv v.length (le_refl _)
    { (({ d with num_total := bigsum v }).set_num_sample (Double.fin 1)) with
        num_processed := 0, num_selected := 0 } k hI
    (by simp only [Tight]; rw [hS']; simp [downsampler.set_num_sample])
    (by dsimp only; rw [hS']; omega)
  simp only [apply_single]
  rw [ht]
  simp

theorem apply_single_one_witness :
    (apply_single mixed_draws [5, 0, 2] (List.replicate ([5, 0, 2] : List Int).length 0)
        (Double.fin 1) {} 0).out = [5, 0, 2] :=
  apply_single_one mixed_draws mixed_draws_unit [5, 0, 2] (by decide) (by decide) {} 0

/-! ### C4: one budget shared by a sequence of calls -/

/-- The point at which C4 fails as it is worded: with total 10 and the proportion 0.35
the calls on `[5]` and `[3, 2]` select 4 events, above `round(p * total)`, which is 3:
the budget is `std::round` of the product 3.5 that `double` forms. -/
theorem apply_each_budget_counterexample :
    is_double double_0_35 ∧ 0 ≤ double_0_35 ∧ double_0_35 ≤ 1 ∧
    selected_in (apply_each mixed_draws [[5], [3, 2]]
        (({} : downsampler).set_global 10 (Double.fin double_0_35)) 0).1 = 4 ∧
    std_round (double_0_35 * ((10 : Nat) : ℚ)) = 3 := by
  decide!

/-- C4, amended: a fresh sampler is given `set_global(total, p)` and then the
three-argument operator on `u_1, ..., u_k` in order, each into its own zeroed output.
When the vectors hold non-negative integers whose sums add up to `total`, which lies
below `2 ^ 53`, and `p` lies in [0,1], the number of events selected never exceeds the
budget `std::round(p * total)`, the product being the one `double` forms, after any
prefix of the calls, equals that budget after the last call, and so equals the number
selected by one single-vector call over the concatenation. -/
theorem apply_each_budget (u : Nat → ℚ) (hu : unit_draws u) (vs : List (List Int))
    (hvs : ∀ v ∈ vs, ∀ x ∈ v, 0 ≤ x) (total : Nat)
    (htot : (vs.map List.sum).sum = (total : Int)) (hfit : total < 2 ^ 53) (p : ℚ)
    (hp0 : 0 ≤ p) (hp1 : p ≤ 1) (k : Nat) :
    (∀ j, selected_in
        (apply_each u (vs.take j) (({} : downsampler).set_global total (Double.fin p)) k).1
      ≤ std_round (fl (p * (total : ℚ)))) ∧
    selected_in (apply_each u vs (({} : downsampler).set_global total (Double.fin p)) k).1
      = std_round (fl (p * (total : ℚ))) ∧
    selected_in (apply_each u vs (({} : downsampler).set_global total (Double.fin p)) k).1
      = (apply_single u vs.flatten (List.replicate vs.flatten.length 0) (Double.fin p) {}
          k).out.sum := by
  obtain ⟨hI, hS, hT, hP, hs⟩ := set_global_inv total hfit p hp0 hp1
  have hfinal : selected_in
      (apply_each u vs (({} : downsampler).set_global total (Double.fin p)) k).1
      = std_round (fl (p * (total : ℚ))) := by
    obtain ⟨pr, sel⟩ := apply_each_spec u hu vs _ k hI
    have hev : (vs.map events).sum = total := by
      have := events_sum_eq vs hvs
      rw [htot] at this
      exact_mod_cast this
    have h1 := pr.inv
    have h2 := pr.sample
    have h3 := pr.total
    have h4 := pr.all
    rw [hs] at sel
    simp only [Nat.cast_zero, add_zero] at sel
    rw [sel, ← hS, ← h2]
    obtain ⟨-, i1, -, -, i4⟩ := h1
    have : (apply_each u vs (({} : downsampler).set_global total (Double.fin p))
          k).2.1.num_selected
        = (apply_each u vs (({} : downsampler).set_global total (Double.fin p))
          k).2.1.num_sample := by
      by_contra hne
      have := h4 (by omega)
      omega
    rw [this]
  refine ⟨?_, hfinal, ?_⟩
  · intro j
    obtain ⟨pr, sel⟩ := apply_each_spec u hu (vs.take j) _ k hI
    have h1 := pr.inv.2.1
    have h2 := pr.sample
    rw [hs] at sel
    rw [← hS, ← h2]
    simp only [Nat.cast_zero, add_zero] at sel
    rw [sel]
    exact_mod_cast h1
  · have hsum : vs.flatten.sum = (total : Int) := by rw [sum_flatten_eq, htot]
    have hnn : ∀ x ∈ vs.flatten, 0 ≤ x := by
      intro x hx
      obtain ⟨v, hv, hxv⟩ := List.mem_flatten.mp hx
      exact hvs v hv x hxv
    have h := (apply_single_core u hu vs.flatten hnn (by rw [hsum]; exact_mod_cast hfit) p
      hp0 hp1 (List.replicate vs.flatten.length 0) {} k).2.2 (by simp)
    rw [hfinal, h, hsum]
    simp

theorem apply_each_budget_witness :
    (∀ j, selected_in
        (apply_each mixed_draws (([[5], [3, 2]] : List (List Int)).take j)
          (({} : downsampler).set_global 10 (Double.fin (1 / 2))) 0).1
      ≤ std_round (fl ((1 / 2 : ℚ) * ((10 : Nat) : ℚ)))) ∧
    selected_in (apply_each mixed_draws [[5], [3, 2]]
        (({} : downsampler).set_global 10 (Double.fin (1 / 2))) 0).1
      = std_round (fl ((1 / 2 : ℚ) * ((10 : Nat) : ℚ))) ∧
    selected_in (apply_each mixed_draws [[5], [3, 2]]
        (({} : downsampler).set_global 10 (Double.fin (1 / 2))) 0).1
      = (apply_single mixed_draws ([[5], [3, 2]] : List (List Int)).flatten
          (List.replicate ([[5], [3, 2]] : List (List Int)).flatten.length 0)
          (Double.fin (1 / 2)) {} 0).out.sum :=
  apply_each_budget mixed_draws mixed_draws_unit [[5], [3, 2]] (by decide) 10 (by decide)
    (by decide) (1 / 2) (by norm_num) (by norm_num) 0

/-! ### C5: a matrix in global mode -/

/-- The point at which C5 fails as it is worded: on a matrix with a dense and a sparse
column and grand total 10, global mode with the proportion 0.35 returns a matrix whose
entries sum to 4, not to `round(p * grand_total)`, which is 3. -/
theorem downsample_matrix_global_counterexample :
    is_double double_0_35 ∧ 0 ≤ double_0_35 ∧ double_0_35 ≤ 1 ∧
    (⟨3, [Column.dense [2, 0, 1], Column.sparse [0, 2] [3, 4]]⟩ : Matrix).entry_sum = 10 ∧
    (downsample_matrix mixed_draws ⟨3, [Column.dense [2, 0, 1], Column.sparse [0, 2] [3, 4]]⟩
        [Double.fin double_0_35] [false] 0).1
      = Except.ok ⟨3, [Column.dense [1, 0, 0], Column.sparse [0, 2] [2, 1]]⟩ ∧
    (⟨3, [Column.dense [1, 0, 0], Column.sparse [0, 2] [2, 1]]⟩ : Matrix).entry_sum = 4 ∧
    std_round (double_0_35 * ((10 : Int) : ℚ)) = 3 := by
  refine ⟨by decide!, by decide!, by decide!, by decide!, ?_, by decide!, by decide!⟩
  exact ok_of_toOption _ _ (by decide!)

/-- C5, amended: in global mode (flag false, scalar `p` in [0,1]) on a matrix of
non-negative integer counts, with dense or sparse columns, whose grand total lies below
`2 ^ 53`, `downsample_matrix` returns a matrix with the same numbers of rows and columns
whose entries sum to exactly `std::round(p * grand_total)`, the product being the one
`double` forms, and in which every entry is at most the input entry in the same row and
column. When the counts, each of which fits an `int`, are held in a matrix of `double`,
`downsample_matrix` returns the same matrix, held as `double`. -/
theorem downsample_matrix_global (u : Nat → ℚ) (hu : unit_draws u) (mat : Matrix) (p : ℚ)
    (k : Nat) (hfits : ∀ c ∈ mat.cols, c.fits mat.nrow)
    (hnn : ∀ c ∈ mat.cols, ∀ x ∈ c.get_values, 0 ≤ x) (hfit : mat.entry_sum < 2 ^ 53)
    (hp0 : 0 ≤ p) (hp1 : p ≤ 1) :
    ∃ out, (downsample_matrix u mat [Double.fin p] [false] k).1 = Except.ok out ∧
      out.nrow = mat.nrow ∧ out.ncol = mat.ncol ∧
      out.entry_sum = std_round (fl (p * ((mat.entry_sum : Int) : ℚ))) ∧
      (∀ r c, out.entry r c ≤ mat.entry r c) ∧
      ((∀ c ∈ mat.cols, ∀ x ∈ c.get_values, x < 2 ^ 31) →
        (downsample_matrix_numeric u mat.to_numeric [Double.fin p] [false] k).1
            = Except.ok out.to_numeric ∧
        ∀ r c, out.to_numeric.entry r c ≤ mat.to_numeric.entry r c) := by
  have hm : check_downsampling_mode mat.ncol [Double.fin p] [false] = Except.ok false :=
    check_mode_global_fin mat.ncol p hp0 hp1
  have hes := entry_sum_eq_events mat.nrow mat.cols hfits hnn
  have hes' : mat.entry_sum = (((mat.cols.map (fun c => events c.get_values)).sum : Nat) : Int) :=
    hes
  have hlt53 : (mat.cols.map (fun c => events c.get_values)).sum < 2 ^ 53 := by
    have : (((mat.cols.map (fun c => events c.get_values)).sum : Nat) : Int) < 2 ^ 53 := by
      rw [← hes']; exact hfit
    exact_mod_cast this
  have hlt : (mat.cols.map (fun c => events c.get_values)).sum < bigint_mod := by
    have hW : bigint_mod = 2 ^ 64 := rfl
    rw [hW]
    omega
  have htot : matrix_total mat.cols = (mat.cols.map (fun c => events c.get_values)).sum := by
    have := matrix_total_foldl mat.cols 0 hnn (by simpa using hlt)
    simpa [matrix_total] using this
  obtain ⟨hI, hS, hT, hP, hs⟩ := set_global_inv (matrix_total mat.cols)
    (by rw [htot]; exact hlt53) p hp0 hp1
  obtain ⟨pr, fa, sm⟩ := matrix_loop_global u hu mat.nrow mat.cols [Double.fin p]
    (({} : downsampler).set_global (matrix_total mat.cols) (Double.fin p)) k hI hfits hnn
  have hrun : (downsample_matrix u mat [Double.fin p] [false] k).1
      = Except.ok ⟨mat.nrow, (matrix_loop u false mat.nrow mat.cols [Double.fin p]
          (List.replicate mat.nrow 0)
          (({} : downsampler).set_global (matrix_total mat.cols) (Double.fin p)) k).1⟩ := by
    simp only [downsample_matrix, downsample_matrix_internal, hm, Bool.false_eq_true, if_false,
      List.headD_cons]
  have hle : ∀ r c, Matrix.entry ⟨mat.nrow, (matrix_loop u false mat.nrow mat.cols
      [Double.fin p] (List.replicate mat.nrow 0)
      (({} : downsampler).set_global (matrix_total mat.cols) (Double.fin p)) k).1⟩ r c
        ≤ mat.entry r c := by
    intro r c
    exact entry_le_of_forall₂ mat.nrow mat.nrow _ _ fa r c
  refine ⟨⟨mat.nrow, (matrix_loop u false mat.nrow mat.cols [Double.fin p]
    (List.replicate mat.nrow 0)
    (({} : downsampler).set_global (matrix_total mat.cols) (Double.fin p)) k).1⟩, hrun, rfl,
    ?_, ?_, hle, ?_⟩
  · exact (List.Forall₂.length_eq fa).symm
  · have hsel : (matrix_loop u false mat.nrow mat.cols [Double.fin p]
          (List.replicate mat.nrow 0)
          (({} : downsampler).set_global (matrix_total mat.cols) (Double.fin p))
          k).2.1.num_selected
        = (({} : downsampler).set_global (matrix_total mat.cols) (Double.fin p)).num_sample := by
      obtain ⟨-, i1, -, -, i4⟩ := pr.inv
      have h2 := pr.sample
      have h3 := pr.total
      have h4 := pr.all
      by_contra hne
      have := h4 (by omega)
      omega
    show ((matrix_loop u false mat.nrow mat.cols [Double.fin p] (List.replicate mat.nrow 0)
      (({} : downsampler).set_global (matrix_total mat.cols) (Double.fin p)) k).1.map
        (Column.entry_sum mat.nrow)).sum = _
    rw [entry_sum_of_forall₂ mat.nrow _ _ fa]
    rw [hs, hsel] at sm
    simp only [Nat.cast_zero, add_zero] at sm
    rw [sm, hS, htot, hes', Int.cast_natCast]
  · intro _
    refine ⟨downsample_matrix_to_numeric u mat [Double.fin p] [false] k _ hrun, ?_⟩
    intro r c
    rw [matrix_to_numeric_entry, matrix_to_numeric_entry]
    exact_mod_cast hle r c

theorem downsample_matrix_global_witness :
    ∃ out, (downsample_matrix mixed_draws
        ⟨3, [Column.dense [2, 0, 1], Column.sparse [0, 2] [3, 4]]⟩ [Double.fin (1 / 2)]
          [false] 0).1 = Except.ok out ∧
      out.nrow = (⟨3, [Column.dense [2, 0, 1], Column.sparse [0, 2] [3, 4]]⟩ : Matrix).nrow ∧
      out.ncol = (⟨3, [Column.dense [2, 0, 1], Column.sparse [0, 2] [3, 4]]⟩ : Matrix).ncol ∧
      out.entry_sum = std_round (fl ((1 / 2 : ℚ) *
        (((⟨3, [Column.dense [2, 0, 1], Column.sparse [0, 2] [3, 4]]⟩ : Matrix).entry_sum
          : Int) : ℚ))) ∧
      (∀ r c, out.entry r c
        ≤ (⟨3, [Column.dense [2, 0, 1], Column.sparse [0, 2] [3, 4]]⟩ : Matrix).entry r c) ∧
      ((∀ c ∈ (⟨3, [Column.dense [2, 0, 1], Column.sparse [0, 2] [3, 4]]⟩ : Matrix).cols,
          ∀ x ∈ c.get_values, x < 2 ^ 31) →
        (downsample_matrix_numeric mixed_draws
            (⟨3, [Column.dense [2, 0, 1], Column.sparse [0, 2] [3, 4]]⟩ : Matrix).to_numeric
            [Double.fin (1 / 2)] [false] 0).1 = Except.ok out.to_numeric ∧
        ∀ r c, out.to_numeric.entry r c
          ≤ (⟨3, [Column.dense [2, 0, 1], Column.sparse [0, 2] [3, 4]]⟩
              : Matrix).to_numeric.entry r c) :=
  downsample_matrix_global mixed_draws mixed_draws_unit
    ⟨3, [Column.dense [2, 0, 1], Column.sparse [0, 2] [3, 4]]⟩ (1 / 2) 0
    (by
      intro c hc
      simp only [List.mem_cons, List.mem_singleton, List.not_mem_nil, or_false] at hc
      rcases hc with rfl | rfl
      · rfl
      · exact ⟨rfl, by decide, by decide⟩)
    (by
      intro c hc
      simp only [List.mem_cons, List.mem_singleton, List.not_mem_nil, or_false] at hc
      rcases hc with rfl | rfl <;> decide)
    (by decide) (by norm_num) (by norm_num)

/-! ### C6: runs with a proportion each -/

/-- The point at which C6 fails as it is worded: in per-run mode the single run `[10]`
with the proportion 0.35 gives the output `[4]`, while `round(prop[0] * 10)` is 3. -/
theorem downsample_runs_per_run_counterexample :
    is_double double_0_35 ∧ 0 ≤ double_0_35 ∧ double_0_35 ≤ 1 ∧
    (downsample_runs mixed_draws [1] [10] [Double.fin double_0_35] [true] 0).1
      = Except.ok [4] ∧
    std_round (double_0_35 * ((([10] : List Int).sum : Int) : ℚ)) = 3 := by
  refine ⟨by decide!, by decide!, by decide!, ?_, by decide!⟩
  exact ok_of_toOption _ _ (by decide!)

/-- C6, amended: in per-run mode, for non-negative run lengths `cells` and non-negative
`reads` with `sum(cells) = len(reads)` (a length below `2 ^ 64`, every run's sum below
`2 ^ 53`) and a proportion vector of length `len(cells)` with entries in [0,1],
`downsample_runs` returns a vector as long as `reads` in which the entries of the i-th
run sum to exactly `std::round(prop[i] * sum of the i-th run of reads)`, the product
being the one `double` forms. -/
theorem downsample_runs_per_run (u : Nat → ℚ) (hu : unit_draws u) (cells reads : List Int)
    (prop : List ℚ) (k : Nat) (hc : ∀ c ∈ cells, 0 ≤ c) (hr : ∀ x ∈ reads, 0 ≤ x)
    (hlen : cells.sum = (reads.length : Int)) (hsize : reads.length < 2 ^ 64)
    (hfit : ∀ run ∈ run_slices cells reads, run.sum < 2 ^ 53)
    (hp : prop.length = cells.length) (hpr : ∀ p ∈ prop, 0 ≤ p ∧ p ≤ 1) :
    ∃ out, (downsample_runs u cells reads (prop.map Double.fin) [true] k).1 = Except.ok out ∧
      out.length = reads.length ∧
      (run_slices cells out).map List.sum
        = List.zipWith (fun p run => std_round (fl (p * ((run.sum : Int) : ℚ)))) prop
            (run_slices cells reads) := by
  have hb := bigsum_cells_eq_length cells reads hlen hsize
  have hn : ¬ bigsum cells ≠ reads.length := fun h => h hb
  have hm := check_mode_per_unit_ok cells.length (prop.map Double.fin)
    (by rw [List.length_map]; exact hp) (map_fin_in_range prop hpr)
  obtain ⟨r, e, h1, -, h2⟩ := runs_loop_per_run u hu reads hr cells 0 prop
    (List.replicate reads.length 0) {} k hc (by simpa using hlen) hp hpr
    (by simpa using hfit) (by simp) (by simp)
  refine ⟨r.out, ?_, h1, by simpa using h2⟩
  simp only [downsample_runs, if_neg hn, hm, if_true]
  rw [hb, e]

theorem downsample_runs_per_run_witness :
    ∃ out, (downsample_runs mixed_draws [2, 3] [4, 1, 2, 0, 3]
        (([1 / 2, 1 / 4] : List ℚ).map Double.fin) [true] 0).1 = Except.ok out ∧
      out.length = ([4, 1, 2, 0, 3] : List Int).length ∧
      (run_slices [2, 3] out).map List.sum
        = List.zipWith (fun p run => std_round (fl (p * ((run.sum : Int) : ℚ))))
            [1 / 2, 1 / 4] (run_slices [2, 3] [4, 1, 2, 0, 3]) :=
  downsample_runs_per_run mixed_draws mixed_draws_unit [2, 3] [4, 1, 2, 0, 3] [1 / 2, 1 / 4] 0
    (by decide) (by decide) (by decide) (by decide) (by decide) (by decide)
    (by
      intro p hp
      simp only [List.mem_cons, List.mem_singleton, List.not_mem_nil, or_false] at hp
      rcases hp with rfl | rfl <;> norm_num)

/-! ### C7: runs in global mode with proportion one -/

/-- The point at which C7 fails as it is worded: `wide_counts` holds `2 ^ 23 + 1`
non-negative reads, each of which fits an `int`, that sum to `2 ^ 53 + 1`. With one run
of that length, proportion 1 and `per_run = false`, `set_global` stores the budget
`2 ^ 53`, the total as `double` rounds it: `downsample_runs` returns a vector that sums
to at most `2 ^ 53`, not `reads`. -/
theorem downsample_runs_one_counterexample :
    (∀ x ∈ wide_counts, 0 ≤ x ∧ x < 2 ^ 31) ∧
    ([2 ^ 23 + 1] : List Int).sum = (wide_counts.length : Int) ∧
    (({} : downsampler).set_global (bigsum wide_counts) (Double.fin 1)).num_sample = 2 ^ 53 ∧
    (∃ out, (downsample_runs mixed_draws [2 ^ 23 + 1] wide_counts [Double.fin 1] [false]
        0).1 = Except.ok out ∧ out.sum ≤ 2 ^ 53) ∧
    (downsample_runs mixed_draws [2 ^ 23 + 1] wide_counts [Double.fin 1] [false] 0).1
      ≠ Except.ok wide_counts := by
  have hlenZ : ([2 ^ 23 + 1] : List Int).sum = (wide_counts.length : Int) := by
    rw [wide_counts_length]
    norm_num
  have hb : bigsum [2 ^ 23 + 1] = wide_counts.length := by
    rw [wide_counts_length]
    decide
  have hstart : ({} : downsampler).set_global (bigsum wide_counts) (Double.fin 1)
      = { num_total := 2 ^ 53 + 1, num_sample := 2 ^ 53, num_processed := 0,
          num_selected := 0 } := by
    simp only [downsampler.set_global, downsampler.set_num_sample, bigsum_wide_counts,
      budget_wide]
  have htoNat : ((2 ^ 23 + 1 : Int)).toNat = wide_counts.length := by
    rw [wide_counts_length]
    decide
  have hc := apply_count mixed_draws wide_counts (List.replicate wide_counts.length 0)
    { num_total := 2 ^ 53 + 1, num_sample := 2 ^ 53, num_processed := 0, num_selected := 0 } 0
    (Nat.zero_le _) (by decide) (by simp)
  obtain ⟨c1, c2, c3⟩ := hc
  simp only [List.sum_replicate, smul_zero, Nat.cast_zero, add_zero, zero_add] at c3
  have hsum : (apply mixed_draws wide_counts (List.replicate wide_counts.length 0)
      { num_total := 2 ^ 53 + 1, num_sample := 2 ^ 53, num_processed := 0,
        num_selected := 0 } 0).out.sum ≤ 2 ^ 53 := by
    have h53 : ((2 ^ 53 : Nat) : Int) = 2 ^ 53 := by norm_num
    rw [c3, ← h53]
    exact Int.ofNat_le.mpr c2
  have hrun : (downsample_runs mixed_draws [2 ^ 23 + 1] wide_counts [Double.fin 1] [false]
      0).1 = Except.ok (apply mixed_draws wide_counts (List.replicate wide_counts.length 0)
        { num_total := 2 ^ 53 + 1, num_sample := 2 ^ 53, num_processed := 0,
          num_selected := 0 } 0).out := by
    rw [downsample_runs_single_run mixed_draws wide_counts 0 (2 ^ 23 + 1) (by norm_num)
      htoNat hb, hstart]
  refine ⟨wide_counts_mem, hlenZ, by rw [hstart], ⟨_, hrun, hsum⟩, ?_⟩
  rw [hrun]
  intro h
  injection h with h
  rw [h, wide_counts_sum] at hsum
  norm_num at hsum

/-- C7, amended: for non-negative run lengths `cells` and non-negative `reads` with
`sum(cells) = len(reads)` (a length below `2 ^ 64`) whose sum lies below `2 ^ 53`,
`downsample_runs` with proportion 1 and `per_run = false` returns `reads` unchanged,
whatever the draws in [0,1). -/
theorem downsample_runs_one (u : Nat → ℚ) (hu : unit_draws u) (cells reads : List Int)
    (k : Nat) (hc : ∀ c ∈ cells, 0 ≤ c) (hr : ∀ x ∈ reads, 0 ≤ x)
    (hlen : cells.sum = (reads.length : Int)) (hsize : reads.length < 2 ^ 64)
    (hfit : reads.sum < 2 ^ 53) :
    (downsample_runs u cells reads [Double.fin 1] [false] k).1 = Except.ok reads := by
  have hb := bigsum_cells_eq_length cells reads hlen hsize
  have hn : ¬ bigsum cells ≠ reads.length := fun h => h hb
  have hm : check_downsampling_mode cells.length [Double.fin 1] [false] = Except.ok false :=
    check_mode_global_fin _ 1 (by norm_num) (le_refl _)
  obtain ⟨hN, hE⟩ := bigsum_lt_of_sum reads hr (lt_trans hfit (by norm_num))
  have hsum := bigsum_eq_sum reads hr (by
    have : reads.sum < 2 ^ 64 := lt_trans hfit (by norm_num)
    simpa [bigint_mod] using this)
  have hN53 : bigsum reads < 2 ^ 53 := by
    have : (bigsum reads : Int) < 2 ^ 53 := by rw [hsum]; exact hfit
    exact_mod_cast this
  obtain ⟨hI, hS, hT, hP, hs⟩ := set_global_inv (bigsum reads) hN53 1 (by norm_num) (le_refl _)
  have hone := std_round_one_mul (bigsum reads)
  rw [one_mul] at hone
  rw [fl_one_mul _ hN53, hone] at hS
  have hS' : (({} : downsampler).set_global (bigsum reads) (Double.fin 1)).num_sample
      = bigsum reads := by
    exact_mod_cast hS
  obtain ⟨r, e, eo⟩ := runs_loop_tight u hu reads hr cells 0 [Double.fin 1]
    (List.replicate reads.length 0)
    (({} : downsampler).set_global (bigsum reads) (Double.fin 1)) k hc (by simpa using hlen) hI
    (by simp only [Tight]; omega) (by rw [List.drop_zero]; omega) (by simp) (by simp)
  simp only [downsample_runs, if_neg hn, hm, Bool.false_eq_true, if_false,
    List.headD_cons]
  rw [hb, e]
  show Except.ok r.out = Except.ok reads
  rw [eo]
  simp

theorem downsample_runs_one_witness :
    (downsample_runs mixed_draws [2, 3] [1, 1, 1, 1, 1] [Double.fin 1] [false] 0).1
      = Except.ok [1, 1, 1, 1, 1] :=
  downsample_runs_one mixed_draws mixed_draws_unit [2, 3] [1, 1, 1, 1, 1] 0
    (by decide) (by decide) (by decide) (by decide) (by decide)

/-! ### C8: run lengths that do not match -/

/-- C8: whenever the sum of the run lengths (which fits the 64-bit accumulator)
differs from the length of `reads`, `downsample_runs` fails with the run-length
failure, for every proportion input and flag, valid or not: no draw has been taken and
there is no output. -/
theorem downsample_runs_length_mismatch (u : Nat → ℚ) (cells reads : List Int)
    (prop : List Double) (bycol : List Bool) (k : Nat) (h0 : 0 ≤ cells.sum)
    (hfit : cells.sum < 2 ^ 64) (hne : cells.sum ≠ (reads.length : Int)) :
    downsample_runs u cells reads prop bycol k = (Except.error Error.reads_length, k) := by
  have hb := bigsum_of_fits cells h0 hfit
  have hne' : bigsum cells ≠ reads.length := by
    intro h
    apply hne
    rw [← hb, h]
  simp only [downsample_runs, if_pos hne']

theorem downsample_runs_length_mismatch_witness :
    downsample_runs mixed_draws [2, 3] [1, 1, 1, 1] [Double.fin (3 / 2)] [true, false] 7
      = (Except.error Error.reads_length, 7) :=
  downsample_runs_length_mismatch mixed_draws [2, 3] [1, 1, 1, 1] [Double.fin (3 / 2)]
    [true, false] 7 (by decide) (by decide) (by decide)

/-! ### C9: when the mode check succeeds -/

/-- C9, the code at the failing input: a proportion that is not-a-number does not lie in
[0,1], yet `curprop < 0` and `curprop > 1` are both false of it, so
`check_downsampling_mode` succeeds on it, in global mode and in per-unit mode, and
returns the flag. In general the check succeeds if and only if the flag is true, `prop`
has `n` entries and every entry passes both comparisons, or the flag is false and `prop`
is a single scalar that passes both; and a `double` passes both comparisons exactly when
it lies in [0,1] or is not-a-number. -/
theorem check_downsampling_mode_accepts_nan :
    ¬ Double.in_unit Double.nan ∧
    check_downsampling_mode 1 [Double.nan] [false] = Except.ok false ∧
    check_downsampling_mode 1 [Double.nan] [true] = Except.ok true ∧
    (∀ x : Double, ¬ (x < 0 ∨ 1 < x) ↔ (x.in_unit ∨ x = Double.nan)) ∧
    (∀ (n : Nat) (prop : List Double) (flag b : Bool),
      check_downsampling_mode n prop [flag] = Except.ok b ↔
        b = flag ∧
        ((flag = true ∧ prop.length = n ∧ ∀ x ∈ prop, ¬ (x < 0 ∨ 1 < x)) ∨
         (flag = false ∧ ∃ x, prop = [x] ∧ ¬ (x < 0 ∨ 1 < x)))) := by
  refine ⟨fun h => h, rfl, rfl, passes_iff, ?_⟩
  intro n prop flag b
  cases flag with
  | true =>
    by_cases hlen : prop.length = n
    · rcases check_each_prop_cases prop with ⟨-, h⟩ | ⟨-, h⟩
      · rw [check_mode_per_unit_ok n prop hlen h]
        constructor
        · intro hb
          injection hb with hb
          exact ⟨hb.symm, Or.inl ⟨rfl, hlen, h⟩⟩
        · rintro ⟨rfl, -⟩
          rfl
      · rw [check_mode_per_unit_range n prop hlen h]
        constructor
        · intro hb
          cases hb
        · rintro ⟨-, ⟨-, -, hall⟩ | ⟨hf, -⟩⟩
          · obtain ⟨x, hx, hx2⟩ := h
            exact absurd hx2 (hall x hx)
          · cases hf
    · rw [check_mode_per_unit_length n prop hlen]
      constructor
      · intro hb
        cases hb
      · rintro ⟨-, ⟨-, hl, -⟩ | ⟨hf, -⟩⟩
        · exact absurd hl hlen
        · cases hf
  | false =>
    by_cases hs : ∃ x, prop = [x]
    · obtain ⟨x, rfl⟩ := hs
      rw [check_mode_global_single]
      by_cases hx : x < 0 ∨ x > 1
      · rw [if_pos hx]
        constructor
        · intro hb
          cases hb
        · rintro ⟨-, ⟨hf, -⟩ | ⟨-, y, hy, hy2⟩⟩
          · cases hf
          · injection hy with hy
            subst hy
            exact absurd hx hy2
      · rw [if_neg hx]
        constructor
        · intro hb
          injection hb with hb
          exact ⟨hb.symm, Or.inr ⟨rfl, x, rfl, hx⟩⟩
        · rintro ⟨rfl, -⟩
          rfl
    · push_neg at hs
      rw [check_mode_global_other n prop hs]
      constructor
      · intro hb
        cases hb
      · rintro ⟨-, ⟨hf, -⟩ | ⟨-, y, hy, -⟩⟩
        · cases hf
        · exact absurd hy (hs y)

/-! ### C10: how the mode check fails -/

/-- The point at which C10 fails as it is worded: in per-unit mode with two units, the
proportion vector `[1.5]` holds a value outside [0,1], yet the failure raised is the
length failure, not the range failure. -/
theorem check_mode_range_counterexample :
    check_downsampling_mode 2 [Double.fin (3 / 2)] [true] = Except.error Error.prop_length ∧
    check_downsampling_mode 2 [Double.fin (3 / 2)] [true] ≠ Except.error Error.prop_range := by
  have e := check_mode_per_unit_length 2 [Double.fin (3 / 2)] (by decide)
  refine ⟨e, ?_⟩
  rw [e]
  intro h
  cases h

/-- C10, amended: in per-unit mode a proportion vector whose length differs from the
unit count fails with the length failure; a per-unit proportion vector of the right
length that holds a value outside [0,1], and a global scalar proportion outside [0,1],
fail with the range failure. -/
theorem check_downsampling_mode_failures (n : Nat) (prop : List Double) (x : Double) :
    (prop.length ≠ n →
      check_downsampling_mode n prop [true] = Except.error Error.prop_length) ∧
    (prop.length = n → (∃ y ∈ prop, y < 0 ∨ 1 < y) →
      check_downsampling_mode n prop [true] = Except.error Error.prop_range) ∧
    ((x < 0 ∨ 1 < x) →
      check_downsampling_mode n [x] [false] = Except.error Error.prop_range) := by
  refine ⟨check_mode_per_unit_length n prop, check_mode_per_unit_range n prop, ?_⟩
  intro hx
  rw [check_mode_global_single, if_pos hx]

theorem check_downsampling_mode_failures_witness :
    check_downsampling_mode 3 [Double.fin (1 / 2), Double.fin (1 / 2)] [true]
      = Except.error Error.prop_length ∧
    check_downsampling_mode 2 [Double.fin (1 / 2), Double.fin (3 / 2)] [true]
      = Except.error Error.prop_range ∧
    check_downsampling_mode 2 [Double.fin double_minus_0_1] [false]
      = Except.error Error.prop_range :=
  ⟨(check_downsampling_mode_failures 3 [Double.fin (1 / 2), Double.fin (1 / 2)] 0).1
      (by decide),
   (check_downsampling_mode_failures 2 [Double.fin (1 / 2), Double.fin (3 / 2)] 0).2.1 rfl
     ⟨Double.fin (3 / 2), by simp, Or.inr (by decide!)⟩,
   (check_downsampling_mode_failures 2 [] (Double.fin double_minus_0_1)).2.2
     (Or.inl (by decide!))⟩

/-! ### C11: what `set_global` sets -/

/-- The point at which C11 fails as it is worded: on a sampler left by an earlier call
of the three-argument operator (5 events processed, 2 selected), `set_global(6, 0.5)`
sets the total and the budget and leaves both counters as they were. -/
theorem set_global_counterexample :
    (apply mixed_draws [5] [0] (({} : downsampler).set_global 10 (Double.fin (1 / 2)))
        0).down.set_global 6 (Double.fin (1 / 2))
      = { num_total := 6, num_sample := 3, num_processed := 5, num_selected := 2 } ∧
    (apply mixed_draws [5] [0] (({} : downsampler).set_global 10 (Double.fin (1 / 2)))
        0).down.set_global 6 (Double.fin (1 / 2))
      ≠ { num_total := 6, num_sample := 3, num_processed := 0, num_selected := 0 } := by
  decide!

/-- C11, amended: for every sampler state, every total below `2 ^ 53` and every
proportion in [0,1], `set_global(total, p)` sets `num_total = total` and
`num_sample = std::round(p * total)`, the product being the one `double` forms (the
exact product rounded to the nearest `double`), and leaves `num_processed` and
`num_selected` as they were; on a sampler whose counters are 0, as a fresh one, the
state is `{total, std::round(p * total), 0, 0}`. -/
theorem set_global_sets (d : downsampler) (total : Nat) (hT : total < 2 ^ 53) (p : ℚ)
    (hp0 : 0 ≤ p) (hp1 : p ≤ 1) :
    d.set_global total (Double.fin p)
      = { num_total := total, num_sample := (std_round (fl (p * (total : ℚ)))).toNat,
          num_processed := d.num_processed, num_selected := d.num_selected } ∧
    (d.num_processed = 0 → d.num_selected = 0 →
      d.set_global total (Double.fin p)
        = { num_total := total, num_sample := (std_round (fl (p * (total : ℚ)))).toNat,
            num_processed := 0, num_selected := 0 }) := by
  have e := (budget_spec total hT p hp0 hp1).1
  have h1 : d.set_global total (Double.fin p)
      = { num_total := total, num_sample := (std_round (fl (p * (total : ℚ)))).toNat,
          num_processed := d.num_processed, num_selected := d.num_selected } := by
    simp only [downsampler.set_global, downsampler.set_num_sample, e]
  refine ⟨h1, ?_⟩
  intro hP hs
  rw [h1, hP, hs]

theorem set_global_sets_witness :
    ({ num_total := 10, num_sample := 5, num_processed := 5, num_selected := 2 }
        : downsampler).set_global 6 (Double.fin (1 / 2))
      = { num_total := 6,
          num_sample := (std_round (fl ((1 / 2 : ℚ) * ((6 : Nat) : ℚ)))).toNat,
          num_processed := 5, num_selected := 2 } ∧
    (({} : downsampler).set_global 6 (Double.fin (1 / 2))
      = { num_total := 6,
          num_sample := (std_round (fl ((1 / 2 : ℚ) * ((6 : Nat) : ℚ)))).toNat,
          num_processed := 0, num_selected := 0 }) :=
  ⟨(set_global_sets ⟨10, 5, 5, 2⟩ 6 (by decide) (1 / 2) (by norm_num) (by norm_num)).1,
   (set_global_sets {} 6 (by decide) (1 / 2) (by norm_num) (by norm_num)).2 rfl rfl⟩

/-! ### C12: the bounds on the counters -/

/-- The point at which C12 fails as it is worded: for the total `2 ^ 53 + 3` and the
proportion 1, the conversion of the total to `double` rounds it to `2 ^ 53 + 4`, which
`set_global` stores as the budget: `num_sample` exceeds `num_total`. -/
theorem bounds_counterexample :
    (({} : downsampler).set_global (2 ^ 53 + 3) (Double.fin 1)).num_total = 2 ^ 53 + 3 ∧
    (({} : downsampler).set_global (2 ^ 53 + 3) (Double.fin 1)).num_sample = 2 ^ 53 + 4 ∧
    ¬ Bounds (({} : downsampler).set_global (2 ^ 53 + 3) (Double.fin 1)) := by
  have h1 : (({} : downsampler).set_global (2 ^ 53 + 3) (Double.fin 1)).num_total
      = 2 ^ 53 + 3 := rfl
  have h2 : (({} : downsampler).set_global (2 ^ 53 + 3) (Double.fin 1)).num_sample
      = 2 ^ 53 + 4 := by decide!
  refine ⟨h1, h2, ?_⟩
  intro h
  have h3 := h.2.2.2.2
  rw [h1, h2] at h3
  norm_num at h3

/-- C12, amended: from a fresh sampler and `set_global(total, p)` with `p` in [0,1] and
`total` below `2 ^ 53`, the sampler satisfies `0 <= num_processed <= num_total` and
`0 <= num_selected <= num_sample <= num_total` at the start and after every event step
of every following call of the three-argument operator, whatever the integer frequency
vectors and the draws in [0,1); and the same holds at the start and after every event
step of a single-vector call on a vector whose wide sum lies below `2 ^ 53`, from any
sampler, the last of these states being the one the call leaves. -/
theorem bounds_at_every_step (u : Nat → ℚ) (hu : unit_draws u) (total : Nat)
    (hT : total < 2 ^ 53) (p : ℚ) (hp0 : 0 ≤ p) (hp1 : p ≤ 1) (vs : List (List Int))
    (v out : List Int) (hv : bigsum v < 2 ^ 53) (d : downsampler) (k : Nat) :
    Bounds (({} : downsampler).set_global total (Double.fin p)) ∧
    (∀ s ∈ apply_each_states u vs (({} : downsampler).set_global total (Double.fin p)) k,
      Bounds s) ∧
    (∀ s ∈ apply_single_states u v out (Double.fin p) d k, Bounds s) ∧
    (apply_single u v out (Double.fin p) d k).down
      = (apply_single_states u v out (Double.fin p) d k).getLastD d := by
  obtain ⟨hI, -⟩ := set_global_inv total hT p hp0 hp1
  obtain ⟨hJ, -⟩ := single_start_inv (bigsum v) hv p hp0 hp1 d
  refine ⟨hI.bounds, ?_, ?_, ?_⟩
  · intro s hs
    exact (apply_each_states_inv u hu vs _ k hI s hs).bounds
  · intro s hs
    simp only [apply_single_states, List.mem_cons] at hs
    rcases hs with rfl | hs
    · exact hJ.bounds
    · exact (apply_states_inv u hu v out _ k hJ s hs).bounds
  · simp only [apply_single, apply_single_states, List.getLastD_cons]
    exact apply_states_last u v out _ k

theorem bounds_at_every_step_witness :
    Bounds (({} : downsampler).set_global 10 (Double.fin (1 / 2))) ∧
    (∀ s ∈ apply_each_states mixed_draws [[5], [3, 2]]
      (({} : downsampler).set_global 10 (Double.fin (1 / 2))) 0, Bounds s) ∧
    (∀ s ∈ apply_single_states mixed_draws [5, 3, 2] [0, 0, 0] (Double.fin (1 / 2))
      ⟨7, 3, 4, 1⟩ 0, Bounds s) ∧
    (apply_single mixed_draws [5, 3, 2] [0, 0, 0] (Double.fin (1 / 2)) ⟨7, 3, 4, 1⟩ 0).down
      = (apply_single_states mixed_draws [5, 3, 2] [0, 0, 0] (Double.fin (1 / 2)) ⟨7, 3, 4, 1⟩
          0).getLastD ⟨7, 3, 4, 1⟩ :=
  bounds_at_every_step mixed_draws mixed_draws_unit 10 (by decide) (1 / 2) (by norm_num)
    (by norm_num) [[5], [3, 2]] [5, 3, 2] [0, 0, 0] (by decide) ⟨7, 3, 4, 1⟩ 0

/-! ### C13: the ranges of the sampling phase -/

/-- C13, the code at the failing input: the run lengths `[3, -1]` with two reads and two
proportions pass both checks of `downsample_runs` (the wide sum of the run lengths is 2,
the number of reads, and the mode check succeeds), and then the first run hands the
range `[rIt, rIt + 3)` of a vector of two elements to the sampler: `bigsum` reads past
the end of `reads`, whatever the draws. When no run length is negative, every input that
passes both checks is sampled inside the vectors, and the call returns a vector as long
as `reads`. -/
theorem downsample_runs_overrun (u : Nat → ℚ) (k : Nat) :
    bigsum [3, -1] = ([1, 1] : List Int).length ∧
    check_downsampling_mode ([3, -1] : List Int).length [Double.fin 1, Double.fin 1] [true]
      = Except.ok true ∧
    (downsample_runs u [3, -1] [1, 1] [Double.fin 1, Double.fin 1] [true] k).1
      = Except.error Error.overrun ∧
    (∀ (cells reads : List Int) (prop : List Double) (bycol : List Bool) (percol : Bool),
      (∀ c ∈ cells, 0 ≤ c) → cells.sum < 2 ^ 64 → bigsum cells = reads.length →
      check_downsampling_mode cells.length prop bycol = Except.ok percol →
      ∃ out, (downsample_runs u cells reads prop bycol k).1 = Except.ok out ∧
        out.length = reads.length) := by
  have hb : bigsum [3, -1] = ([1, 1] : List Int).length := by decide
  have hm : check_downsampling_mode ([3, -1] : List Int).length
      [Double.fin 1, Double.fin 1] [true] = Except.ok true :=
    check_mode_per_unit_ok _ _ rfl (map_fin_in_range [1, 1] (by
      intro p hp
      simp only [List.mem_cons, List.mem_singleton, List.not_mem_nil, or_false, or_self] at hp
      subst hp
      norm_num))
  refine ⟨hb, hm, ?_, ?_⟩
  · have hn : ¬ bigsum [3, -1] ≠ ([1, 1] : List Int).length := fun h => h hb
    have h1 : ((0 : Nat) : Int) + 3 < 0 ∨ ((([1, 1] : List Int).length : Nat) : Int)
        < ((0 : Nat) : Int) + 3 := Or.inr (by decide)
    simp only [downsample_runs, if_neg hn, hm, if_true, runs_loop, if_pos h1]
  · intro cells reads prop bycol percol hc hfit hsum hmode
    have hs0 : 0 ≤ cells.sum := List.sum_nonneg hc
    have hbs := bigsum_of_fits cells hs0 hfit
    rw [hsum] at hbs
    obtain ⟨-, hT, -⟩ := check_mode_ok_shape cells.length prop bycol percol hmode
    have hn : ¬ bigsum cells ≠ reads.length := fun h => h hsum
    obtain ⟨r, e, l⟩ := runs_loop_in_bounds u percol reads cells 0 prop
      (List.replicate reads.length 0)
      (if percol then ({} : downsampler)
        else ({} : downsampler).set_global (bigsum reads) (prop.headD 0)) k hc
      (by rw [← hbs]; simp) (fun h => by rw [hT h]) (by simp)
    refine ⟨r.out, ?_, l⟩
    simp only [downsample_runs, if_neg hn, hmode]
    rw [hsum, e]

theorem downsample_runs_overrun_witness :
    ∃ out, (downsample_runs mixed_draws [2, 3] [4, 1, 2, 0, 3]
        [Double.fin (1 / 2), Double.fin (1 / 4)] [true] 0).1 = Except.ok out ∧
      out.length = ([4, 1, 2, 0, 3] : List Int).length :=
  (downsample_runs_overrun mixed_draws 0).2.2.2 [2, 3] [4, 1, 2, 0, 3]
    [Double.fin (1 / 2), Double.fin (1 / 4)] [true] true (by decide) (by decide) (by decide)
    (check_mode_per_unit_ok _ _ rfl (map_fin_in_range [1 / 2, 1 / 4] (by
      intro p hp
      simp only [List.mem_cons, List.mem_singleton, List.not_mem_nil, or_false] at hp
      rcases hp with rfl | rfl <;> norm_num)))

/-! ### C14: the wide sum is exact -/

/-- C14: for every sequence of non-negative counts, each below `2 ^ 31`, whose true sum
is below `2 ^ 64`, `bigsum` returns exactly the mathematical sum: the accumulator does
not wrap, and the conversion of each element loses nothing, whether the counts are
held in a vector of `int` or in a vector of `double`. `bigsum` returns the sum and
nothing else; the sequence is only read. -/
theorem bigsum_exact (xs : List Int) (h0 : ∀ x ∈ xs, 0 ≤ x) (_h31 : ∀ x ∈ xs, x < 2 ^ 31)
    (hfit : xs.sum < 2 ^ 64) :
    (bigsum xs : Int) = xs.sum ∧
    (bigsum_numeric (xs.map (fun x : Int => (x : ℚ))) : Int) = xs.sum := by
  have h := bigsum_of_fits xs (List.sum_nonneg h0) hfit
  exact ⟨h, by rw [bigsum_numeric_intCast]; exact h⟩

theorem bigsum_exact_witness :
    (bigsum [2147483647, 0, 5] : Int) = ([2147483647, 0, 5] : List Int).sum ∧
    (bigsum_numeric (([2147483647, 0, 5] : List Int).map (fun x : Int => (x : ℚ))) : Int)
      = ([2147483647, 0, 5] : List Int).sum :=
  bigsum_exact [2147483647, 0, 5] (by decide) (by decide) (by decide)

/-! ### C15: real-valued counts -/

/-- C15, the code at the failing input: on the matrix of `double` with the single
column `(0.5, 2)`, proportion 1 in global mode, `bigsum` counts no event for the value
0.5 (`static_cast<int>` gives 0) while the inner loop makes one round for it (`0 < 0.5`),
and the output column is `(1, 1)` whatever the draws in [0,1): its first entry, 1,
exceeds the input entry 0.5. -/
theorem downsample_matrix_numeric_exceeds (u : Nat → ℚ) (hu : unit_draws u) (k : Nat) :
    (downsample_matrix_numeric u ⟨2, [NumColumn.dense [1 / 2, 2]]⟩ [Double.fin 1] [false]
        k).1
      = Except.ok ⟨2, [NumColumn.dense [1, 1]]⟩ ∧
    NumMatrix.entry ⟨2, [NumColumn.dense [1 / 2, 2]]⟩ 0 0
      < NumMatrix.entry ⟨2, [NumColumn.dense [1, 1]]⟩ 0 0 ∧
    cast_int (1 / 2) = 0 ∧ rounds_numeric (1 / 2) = 1 := by
  have hm : check_downsampling_mode 1 [Double.fin 1] [false] = Except.ok false :=
    check_mode_global_fin 1 1 (by norm_num) (le_refl _)
  have hc : cast_int (1 / 2) = 0 := by decide!
  have hr : rounds_numeric (1 / 2) = 1 := by decide!
  have hr2 : rounds_numeric 2 = 2 := by decide!
  have htot : matrix_total_numeric [NumColumn.dense [1 / 2, 2]] = 2 := by decide!
  have hstart : ({} : downsampler).set_global 2 (Double.fin 1) = ⟨2, 2, 0, 0⟩ := by decide!
  have hi0 : Inv ⟨2, 2, 0, 0⟩ := by
    refine ⟨?_, ?_, ?_, ?_, ?_⟩ <;> decide
  have hi1 : Inv ⟨2, 2, 1, 1⟩ := by
    refine ⟨?_, ?_, ?_, ?_, ?_⟩ <;> decide
  have e1 : event u ⟨0, ⟨2, 2, 0, 0⟩, k⟩ = ⟨1, ⟨2, 2, 1, 1⟩, k + 1⟩ :=
    event_tight u ⟨0, ⟨2, 2, 0, 0⟩, k⟩ (hu k) hi0 rfl (by show (0 : Nat) < 2; decide)
  have e2 : event u ⟨0, ⟨2, 2, 1, 1⟩, k + 1⟩ = ⟨1, ⟨2, 2, 2, 2⟩, k + 1 + 1⟩ :=
    event_tight u ⟨0, ⟨2, 2, 1, 1⟩, k + 1⟩ (hu (k + 1)) hi1 rfl
      (by show (1 : Nat) < 2; decide)
  have f1 : for_events u 1 ⟨0, ⟨2, 2, 0, 0⟩, k⟩ = ⟨1, ⟨2, 2, 1, 1⟩, k + 1⟩ := by
    simp only [for_events, e1]
    simp
  have f2 : for_events u 2 ⟨0, ⟨2, 2, 1, 1⟩, k + 1⟩ = ⟨1, ⟨2, 2, 2, 2⟩, k + 1 + 1⟩ := by
    simp only [for_events, e2]
    simp
  have ha : apply_numeric u [1 / 2, 2] [0, 0] ⟨2, 2, 0, 0⟩ k
      = ⟨[1, 1], ⟨2, 2, 2, 2⟩, k + 1 + 1⟩ := by
    simp only [apply_numeric, hr, hr2, f1, f2]
    simp
  refine ⟨?_, by decide!, hc, hr⟩
  simp only [downsample_matrix_numeric, downsample_matrix_internal_numeric, NumMatrix.ncol,
    List.length_cons, List.length_nil, hm, htot, List.headD_cons, hstart,
    matrix_loop_numeric, Bool.false_eq_true, if_false, NumColumn.get_values]
  show Except.ok _ = Except.ok _
  rw [show List.replicate 2 (0 : Int) = [0, 0] from rfl, ha]
  rfl

theorem downsample_matrix_numeric_exceeds_witness :
    (downsample_matrix_numeric mixed_draws ⟨2, [NumColumn.dense [1 / 2, 2]]⟩ [Double.fin 1]
        [false] 0).1
      = Except.ok ⟨2, [NumColumn.dense [1, 1]]⟩ ∧
    NumMatrix.entry ⟨2, [NumColumn.dense [1 / 2, 2]]⟩ 0 0
      < NumMatrix.entry ⟨2, [NumColumn.dense [1, 1]]⟩ 0 0 ∧
    cast_int (1 / 2) = 0 ∧ rounds_numeric (1 / 2) = 1 :=
  downsample_matrix_numeric_exceeds mixed_draws mixed_draws_unit 0

/-! ### C16: a matrix of zeros -/

/-- C16: for every matrix of zeros (any number of rows and columns, dense or sparse
columns, of integer type or of `double`) and every proportion input that passes
`check_downsampling_mode` (a scalar in [0,1] in global mode, one value in [0,1] for each
column in per-column mode), `downsample_matrix` returns a matrix with the same numbers
of rows and columns in which every entry is 0, and takes no uniform draw. -/
theorem downsample_matrix_zero (u : Nat → ℚ) (prop : List ℚ) (bycol : List Bool)
    (percol : Bool) (k : Nat) (mat : Matrix) (nmat : NumMatrix)
    (hz : ∀ c ∈ mat.cols, ∀ x ∈ c.get_values, x = 0)
    (hzn : ∀ c ∈ nmat.cols, ∀ x ∈ c.get_values, x = 0)
    (hmode : check_downsampling_mode mat.ncol (prop.map Double.fin) bycol = Except.ok percol)
    (hmoden : check_downsampling_mode nmat.ncol (prop.map Double.fin) bycol
      = Except.ok percol) :
    (∃ out, downsample_matrix u mat (prop.map Double.fin) bycol k = (Except.ok out, k) ∧
      out.nrow = mat.nrow ∧ out.ncol = mat.ncol ∧ ∀ r c, out.entry r c = 0) ∧
    (∃ out, downsample_matrix_numeric u nmat (prop.map Double.fin) bycol k
        = (Except.ok out, k) ∧
      out.nrow = nmat.nrow ∧ out.ncol = nmat.ncol ∧ ∀ r c, out.entry r c = 0) := by
  have hd : ∀ p : Double, percol = false →
      ¬ (if percol then ({} : downsampler)
          else ({} : downsampler).set_global 0 p).num_selected
        < (if percol then ({} : downsampler)
          else ({} : downsampler).set_global 0 p).num_sample := by
    intro p hp
    subst hp
    simp only [Bool.false_eq_true, if_false, downsampler.set_global,
      downsampler.set_num_sample, budget_zero_total]
    decide
  constructor
  · have hT := matrix_total_zero mat.cols hz
    obtain ⟨l1, l2⟩ := matrix_loop_zero u percol mat.nrow mat.cols (prop.map Double.fin) _ k
      hz (hd ((prop.map Double.fin).headD 0))
    refine ⟨⟨mat.nrow, mat.cols.map
      (fun col => store_column mat.nrow col (List.replicate mat.nrow 0))⟩, ?_, rfl, ?_, ?_⟩
    · simp only [downsample_matrix, downsample_matrix_internal, hmode, hT]
      rw [l1, l2]
    · simp only [Matrix.ncol, List.length_map]
    · intro r c
      simp only [Matrix.entry, List.get?_eq_getElem?, List.getElem?_map]
      cases mat.cols[c]? with
      | none => rfl
      | some col => exact store_column_zero_entry mat.nrow col mat.nrow r
  · have hT := matrix_total_numeric_zero nmat.cols hzn
    obtain ⟨l1, l2⟩ := matrix_loop_numeric_zero u percol nmat.nrow nmat.cols
      (prop.map Double.fin) _ k hzn (hd ((prop.map Double.fin).headD 0))
    refine ⟨⟨nmat.nrow, nmat.cols.map
      (fun col => store_column_numeric nmat.nrow col (List.replicate nmat.nrow 0))⟩,
      ?_, rfl, ?_, ?_⟩
    · simp only [downsample_matrix_numeric, downsample_matrix_internal_numeric, hmoden, hT]
      rw [l1, l2]
    · simp only [NumMatrix.ncol, List.length_map]
    · intro r c
      simp only [NumMatrix.entry, List.get?_eq_getElem?, List.getElem?_map]
      cases nmat.cols[c]? with
      | none => rfl
      | some col => exact store_column_numeric_zero_entry nmat.nrow col nmat.nrow r

theorem downsample_matrix_zero_witness :
    (∃ out, downsample_matrix mixed_draws ⟨2, [Column.dense [0, 0], Column.sparse [] []]⟩
        (([1 / 2] : List ℚ).map Double.fin) [false] 0 = (Except.ok out, 0) ∧
      out.nrow = (⟨2, [Column.dense [0, 0], Column.sparse [] []]⟩ : Matrix).nrow ∧
      out.ncol = (⟨2, [Column.dense [0, 0], Column.sparse [] []]⟩ : Matrix).ncol ∧
      ∀ r c, out.entry r c = 0) ∧
    (∃ out, downsample_matrix_numeric mixed_draws
        ⟨2, [NumColumn.dense [0, 0], NumColumn.dense [0, 0]]⟩
        (([1 / 2] : List ℚ).map Double.fin) [false] 0 = (Except.ok out, 0) ∧
      out.nrow = (⟨2, [NumColumn.dense [0, 0], NumColumn.dense [0, 0]]⟩ : NumMatrix).nrow ∧
      out.ncol = (⟨2, [NumColumn.dense [0, 0], NumColumn.dense [0, 0]]⟩ : NumMatrix).ncol ∧
      ∀ r c, out.entry r c = 0) :=
  downsample_matrix_zero mixed_draws [1 / 2] [false] false 0
    ⟨2, [Column.dense [0, 0], Column.sparse [] []]⟩
    ⟨2, [NumColumn.dense [0, 0], NumColumn.dense [0, 0]]⟩
    (by
      intro c hc
      simp only [List.mem_cons, List.mem_singleton, List.not_mem_nil, or_false] at hc
      rcases hc with rfl | rfl <;> decide)
    (by
      intro c hc x hx
      simp only [List.mem_cons, List.mem_singleton, List.not_mem_nil, or_false, or_self] at hc
      subst hc
      simp only [NumColumn.get_values, List.mem_cons, List.mem_singleton, List.not_mem_nil,
        or_false, or_self] at hx
      exact hx)
    (check_mode_global_fin _ (1 / 2) (by norm_num) (by norm_num))
    (check_mode_global_fin _ (1 / 2) (by norm_num) (by norm_num))

/-! ### C17: the probability of selecting an event -/

/-- The point at which C17 fails as it is worded: in the state `{3, 1, 0, 0}`, which
`set_global(3, 0.25)` gives a fresh sampler, the draw `u` that is the `double` nearest to
one third lies in [0,1) and satisfies `(3 - 0) * u < 1 - 0`, so it belongs to the set the
claim measures; yet the product `3 * u` is rounded to the `double` 1.0, the test
`1.0 < 1.0` fails, and the event is not selected. -/
theorem selection_probability_counterexample :
    ({} : downsampler).set_global 3 (Double.fin (1 / 4))
      = { num_total := 3, num_sample := 1, num_processed := 0, num_selected := 0 } ∧
    Bounds { num_total := 3, num_sample := 1, num_processed := 0, num_selected := 0 } ∧
    is_double double_third ∧ 0 ≤ double_third ∧ double_third < 1 ∧
    selects { num_total := 3, num_sample := 1, num_processed := 0, num_selected := 0 }
      double_third ∧
    event (fun _ => double_third)
        ⟨0, { num_total := 3, num_sample := 1, num_processed := 0, num_selected := 0 }, 0⟩
      = ⟨0, { num_total := 3, num_sample := 1, num_processed := 1, num_selected := 0 }, 1⟩ := by
  refine ⟨by decide!, ⟨by decide, by decide, by decide, by decide, by decide⟩, by decide!,
    by decide!, by decide!, ?_, by decide!⟩
  show (((3 + bigint_mod - 0) % bigint_mod : Nat) : ℚ) * double_third
    < (((1 + bigint_mod - 0) % bigint_mod : Nat) : ℚ)
  decide!

/-- C17, amended: at every state with `num_selected < num_sample` that satisfies the
bounds of the invariant, has a total below `2 ^ 53` and has no more events left to
select than to process (as every state has that a run from a fresh sampler reaches), the
test the program makes on a draw `u`, a `double` in [0,1), selects the event only if
`(num_total - num_processed) * u < num_sample - num_selected`, and selects it whenever
`(num_total - num_processed) * u <= (num_sample - num_selected) * (1 - 2 ^ -53)`: the
draws that select are those of the interval from 0 to
`(num_sample - num_selected) / (num_total - num_processed)`, except possibly draws in its
topmost part of relative width `2 ^ -53`. The interval itself, the set of real `u` in
[0,1) with `(num_total - num_processed) * u < num_sample - num_selected`, has length
exactly this quotient. -/
theorem selection_probability (d : downsampler) (hb : Bounds d) (hT : d.num_total < 2 ^ 53)
    (hq : d.num_sample + d.num_processed ≤ d.num_total + d.num_selected)
    (hlt : d.num_selected < d.num_sample) :
    (∀ (u : Nat → ℚ) (c : Cell), c.down = d →
      is_double (u c.drawn) → 0 ≤ u c.drawn → u c.drawn < 1 →
      ((event u c).out = c.out + 1 → selects d (u c.drawn)) ∧
      (((d.num_total : ℚ) - d.num_processed) * u c.drawn
          ≤ ((d.num_sample : ℚ) - d.num_selected) * (1 - 1 / 2 ^ 53) →
        (event u c).out = c.out + 1)) ∧
    MeasureTheory.volume {x : ℝ | 0 ≤ x ∧ x < 1 ∧ selects d x}
      = ENNReal.ofReal (((d.num_sample : ℝ) - d.num_selected)
          / ((d.num_total : ℝ) - d.num_processed)) := by
  obtain ⟨-, hP, -, hS, hST⟩ := hb
  have hT64 : d.num_total < 2 ^ 64 := lt_trans hT (by norm_num)
  constructor
  · intro u c hc hd h0 h1
    subst hc
    have e1 : (c.down.num_total + bigint_mod - c.down.num_processed) % bigint_mod
        = c.down.num_total - c.down.num_processed := by
      show (c.down.num_total + 2 ^ 64 - c.down.num_processed) % 2 ^ 64
        = c.down.num_total - c.down.num_processed
      omega
    have e2 : (c.down.num_sample + bigint_mod - c.down.num_selected) % bigint_mod
        = c.down.num_sample - c.down.num_selected := by
      show (c.down.num_sample + 2 ^ 64 - c.down.num_selected) % 2 ^ 64
        = c.down.num_sample - c.down.num_selected
      omega
    have ha : c.down.num_total - c.down.num_processed < 2 ^ 53 := by omega
    have hb53 : c.down.num_sample - c.down.num_selected < 2 ^ 53 := by omega
    have hb0 : 0 < c.down.num_sample - c.down.num_selected := by omega
    have htest := event_test (c.down.num_total - c.down.num_processed)
      (c.down.num_sample - c.down.num_selected) ha hb53 (u c.drawn) h0 (le_of_lt h1)
    have hiff := event_selected_iff u c
    rw [e1, e2, htest] at hiff
    have han : (0 : ℚ) ≤ ((c.down.num_total - c.down.num_processed : Nat) : ℚ) :=
      Nat.cast_nonneg _
    have hx0 : 0 ≤ ((c.down.num_total - c.down.num_processed : Nat) : ℚ) * u c.drawn :=
      mul_nonneg han h0
    constructor
    · intro hsel
      have hfl := hiff.mp hsel
      show (((c.down.num_total + bigint_mod - c.down.num_processed) % bigint_mod : Nat) : ℚ)
          * u c.drawn
        < (((c.down.num_sample + bigint_mod - c.down.num_selected) % bigint_mod : Nat) : ℚ)
      rw [e1, e2]
      by_contra hge
      have hx53 : ((c.down.num_total - c.down.num_processed : Nat) : ℚ) * u c.drawn
          < 2 ^ 53 := by
        have h2 : ((c.down.num_total - c.down.num_processed : Nat) : ℚ) < 2 ^ 53 := by
          exact_mod_cast ha
        nlinarith
      have := natCast_le_fl _ hx53 (c.down.num_sample - c.down.num_selected) (not_lt.mp hge)
      exact absurd hfl (not_lt.mpr this)
    · intro hle
      apply hiff.mpr
      apply fl_lt_natCast _ hx0 _ hb0 hb53
      rw [Nat.cast_sub hP, Nat.cast_sub hS]
      exact hle
  · rw [selected_draws_eq_Ico d hT64 hP hq hlt, Real.volume_Ico, sub_zero]

theorem selection_probability_witness :
    (∀ (u : Nat → ℚ) (c : Cell),
      c.down = { num_total := 10, num_sample := 5, num_processed := 1, num_selected := 3 } →
      is_double (u c.drawn) → 0 ≤ u c.drawn → u c.drawn < 1 →
      ((event u c).out = c.out + 1 →
        selects { num_total := 10, num_sample := 5, num_processed := 1, num_selected := 3 }
          (u c.drawn)) ∧
      ((((10 : Nat) : ℚ) - (1 : Nat)) * u c.drawn
          ≤ (((5 : Nat) : ℚ) - (3 : Nat)) * (1 - 1 / 2 ^ 53) →
        (event u c).out = c.out + 1)) ∧
    MeasureTheory.volume
        {x : ℝ | 0 ≤ x ∧ x < 1 ∧
          selects { num_total := 10, num_sample := 5, num_processed := 1, num_selected := 3 } x}
      = ENNReal.ofReal ((((5 : Nat) : ℝ) - (3 : Nat)) / (((10 : Nat) : ℝ) - (1 : Nat))) :=
  selection_probability ⟨10, 5, 1, 3⟩
    ⟨by decide, by decide, by decide, by decide, by decide⟩ (by decide) (by decide) (by decide)

/-! ### C18: a budget of zero -/

/-- C18: whenever the budget is zero, because the proportion is 0 (any frequency
vector) or because the frequency vector sums to 0 (any proportion), the single-vector
call takes no uniform draw, leaves `num_processed` and `num_selected` at 0, and leaves
an all-zero output buffer all zeros. -/
theorem apply_single_zero_budget (u : Nat → ℚ) (v : List Int) (p : ℚ)
    (h : p = 0 ∨ v.sum = 0) (m : Nat) (d : downsampler) (k : Nat) :
    (apply_single u v (List.replicate m 0) (Double.fin p) d k).drawn = k ∧
    (apply_single u v (List.replicate m 0) (Double.fin p) d k).down.num_processed = 0 ∧
    (apply_single u v (List.replicate m 0) (Double.fin p) d k).down.num_selected = 0 ∧
    (apply_single u v (List.replicate m 0) (Double.fin p) d k).down.num_sample = 0 ∧
    (apply_single u v (List.replicate m 0) (Double.fin p) d k).out = List.replicate m 0 := by
  have hz : Double.to_bigint (Double.round (Double.mul (Double.fin p)
      (Double.of_bigint (bigsum v)))) = 0 := by
    apply budget_zero p (bigsum v) (bigsum_lt v)
    rcases h with h | h
    · exact Or.inl h
    · right
      have hb : (bigsum v : Int) = 0 := by
        rw [bigsum_emod, h]
        simp
      exact_mod_cast hb
  rw [apply_single_stop u v _ (Double.fin p) d k hz]
  exact ⟨rfl, rfl, rfl, rfl, rfl⟩

theorem apply_single_zero_budget_witness :
    (apply_single mixed_draws [5, 3, 2] (List.replicate 3 0) (Double.fin 0) ⟨7, 3, 4, 1⟩
      11).drawn = 11 ∧
    (apply_single mixed_draws [5, 3, 2] (List.replicate 3 0) (Double.fin 0) ⟨7, 3, 4, 1⟩
      11).down.num_processed = 0 ∧
    (apply_single mixed_draws [5, 3, 2] (List.replicate 3 0) (Double.fin 0) ⟨7, 3, 4, 1⟩
      11).down.num_selected = 0 ∧
    (apply_single mixed_draws [5, 3, 2] (List.replicate 3 0) (Double.fin 0) ⟨7, 3, 4, 1⟩
      11).down.num_sample = 0 ∧
    (apply_single mixed_draws [5, 3, 2] (List.replicate 3 0) (Double.fin 0) ⟨7, 3, 4, 1⟩ 11).out
      = List.replicate 3 0 :=
  apply_single_zero_budget mixed_draws [5, 3, 2] 0 (Or.inl rfl) 3 ⟨7, 3, 4, 1⟩ 11

/-! ### C19: how the budget is rounded -/

/-- The point at which C19 fails as it is worded: for the total 10 and the proportion
0.35, and for the total 5 and the proportion 0.3, both values of `double`, the budget
`set_global` stores is 4 and 2, while `floor(p * total + 1/2)` is 3 and 1: the product is
rounded to the nearest `double`, 3.5 and 1.5, before `std::round` sees it. -/
theorem num_sample_counterexample :
    is_double double_0_35 ∧ 0 ≤ double_0_35 ∧ double_0_35 ≤ 1 ∧
    (({} : downsampler).set_global 10 (Double.fin double_0_35)).num_sample = 4 ∧
    Int.floor (double_0_35 * ((10 : Nat) : ℚ) + 1 / 2) = 3 ∧
    is_double double_0_3 ∧ 0 ≤ double_0_3 ∧ double_0_3 ≤ 1 ∧
    (({} : downsampler).set_global 5 (Double.fin double_0_3)).num_sample = 2 ∧
    Int.floor (double_0_3 * ((5 : Nat) : ℚ) + 1 / 2) = 1 := by
  decide!

/-- C19, amended: for every total below `2 ^ 53` and every proportion `p` in [0,1], the
budget `num_sample` that `set_global` computes, and the one the single-vector call
computes from the wide sum of its vector (when that lies below `2 ^ 53`), is
`floor(x + 1/2)` where `x` is the `double` nearest to `p * total`: the integer nearest to
`x`, the upper one at a tie. It lies within `1/2 + total / 2 ^ 53` of `p * total` and
between 0 and the total. -/
theorem num_sample_rounds (d : downsampler) (total : Nat) (hT : total < 2 ^ 53) (p : ℚ)
    (hp0 : 0 ≤ p) (hp1 : p ≤ 1) (u : Nat → ℚ) (v out : List Int) (hv : bigsum v < 2 ^ 53)
    (k : Nat) :
    (((d.set_global total (Double.fin p)).num_sample : Nat) : Int)
      = Int.floor (fl (p * (total : ℚ)) + 1 / 2) ∧
    |((d.set_global total (Double.fin p)).num_sample : ℚ) - p * (total : ℚ)|
      ≤ 1 / 2 + (total : ℚ) / 2 ^ 53 ∧
    (d.set_global total (Double.fin p)).num_sample ≤ total ∧
    (((apply_single u v out (Double.fin p) d k).down.num_sample : Nat) : Int)
      = Int.floor (fl (p * (bigsum v : ℚ)) + 1 / 2) ∧
    (apply_single u v out (Double.fin p) d k).down.num_sample ≤ bigsum v := by
  have key : ∀ N : Nat, N < 2 ^ 53 →
      (((Double.to_bigint (Double.round (Double.mul (Double.fin p) (Double.of_bigint N)))
          : Nat) : Int) = Int.floor (fl (p * (N : ℚ)) + 1 / 2)) ∧
      Double.to_bigint (Double.round (Double.mul (Double.fin p) (Double.of_bigint N))) ≤ N ∧
      (((Double.to_bigint (Double.round (Double.mul (Double.fin p) (Double.of_bigint N)))
          : Nat) : Int) = std_round (fl (p * (N : ℚ)))) := by
    intro N hN
    obtain ⟨e1, e2, e3⟩ := budget_spec N hN p hp0 hp1
    have hn : (0 : ℚ) ≤ fl (p * (N : ℚ)) :=
      fl_nonneg _ (mul_nonneg hp0 (Nat.cast_nonneg N))
    rw [e1, Int.toNat_of_nonneg e2]
    refine ⟨by simp only [std_round, if_pos hn], by omega, rfl⟩
  obtain ⟨g1, g2, g3⟩ := key total hT
  obtain ⟨s1, s2, -⟩ := key (bigsum v) hv
  have hg : (d.set_global total (Double.fin p)).num_sample
      = Double.to_bigint (Double.round (Double.mul (Double.fin p) (Double.of_bigint total))) :=
    rfl
  have hs : (apply_single u v out (Double.fin p) d k).down.num_sample
      = Double.to_bigint (Double.round (Double.mul (Double.fin p)
          (Double.of_bigint (bigsum v)))) := by
    simp only [apply_single]
    rw [(apply_keeps u v out _ k).2]
    rfl
  rw [hg, hs]
  refine ⟨g1, ?_, g2, s1, s2⟩
  have hq : ((Double.to_bigint (Double.round (Double.mul (Double.fin p)
      (Double.of_bigint total))) : Nat) : ℚ)
      = ((std_round (fl (p * (total : ℚ))) : Int) : ℚ) := by
    rw [← g3, Int.cast_natCast]
  rw [hq]
  exact budget_close total hT p hp0 hp1

theorem num_sample_rounds_witness :
    ((((({} : downsampler).set_global 5 (Double.fin (1 / 2))).num_sample : Nat) : Int)
        = Int.floor (fl ((1 / 2 : ℚ) * ((5 : Nat) : ℚ)) + 1 / 2) ∧
      |((({} : downsampler).set_global 5 (Double.fin (1 / 2))).num_sample : ℚ)
          - (1 / 2 : ℚ) * ((5 : Nat) : ℚ)| ≤ 1 / 2 + ((5 : Nat) : ℚ) / 2 ^ 53 ∧
      (({} : downsampler).set_global 5 (Double.fin (1 / 2))).num_sample ≤ 5 ∧
      (((apply_single mixed_draws [5] [0] (Double.fin (1 / 2)) {} 0).down.num_sample : Nat)
          : Int) = Int.floor (fl ((1 / 2 : ℚ) * (bigsum [5] : ℚ)) + 1 / 2) ∧
      (apply_single mixed_draws [5] [0] (Double.fin (1 / 2)) {} 0).down.num_sample
        ≤ bigsum [5]) ∧
    (({} : downsampler).set_global 5 (Double.fin (1 / 2))).num_sample = 3 :=
  ⟨num_sample_rounds {} 5 (by decide) (1 / 2) (by norm_num) (by norm_num) mixed_draws [5] [0]
    (by decide) 0, by decide!⟩

/-! ### C20: two calls against one call on the concatenation -/

/-- C20: for two integer vectors `a` and `b` (non-negative or not) whose sums add up
to `total` (which fits the 64-bit accumulator), a fresh sampler given
`set_global(total, p)`, then the three-argument operator on `a` and on `b`, each into
its own zeroed output and drawing from the stream in order, produces outputs whose
concatenation is, position by position, the output of the single-vector call on
`a ++ b` from the same point of the stream, and takes as many draws. -/
theorem apply_twice_eq_single (u : Nat → ℚ) (a b : List Int) (total : Nat)
    (htot : (total : Int) = a.sum + b.sum) (hfit : total < 2 ^ 64) (p : ℚ)
    (d : downsampler) (k : Nat) :
    (apply u a (List.replicate a.length 0)
        (({} : downsampler).set_global total (Double.fin p)) k).out
      ++ (apply u b (List.replicate b.length 0)
          (apply u a (List.replicate a.length 0)
            (({} : downsampler).set_global total (Double.fin p)) k).down
          (apply u a (List.replicate a.length 0)
            (({} : downsampler).set_global total (Double.fin p)) k).drawn).out
      = (apply_single u (a ++ b) (List.replicate (a ++ b).length 0) (Double.fin p) d k).out ∧
    (apply u b (List.replicate b.length 0)
        (apply u a (List.replicate a.length 0)
          (({} : downsampler).set_global total (Double.fin p)) k).down
        (apply u a (List.replicate a.length 0)
          (({} : downsampler).set_global total (Double.fin p)) k).drawn).drawn
      = (apply_single u (a ++ b) (List.replicate (a ++ b).length 0) (Double.fin p) d k).drawn := by
  have hsum : (a ++ b).sum = (total : Int) := by rw [List.sum_append, htot]
  have hbs : bigsum (a ++ b) = total := by
    have := bigsum_of_fits (a ++ b) (by rw [hsum]; exact Int.natCast_nonneg _)
      (by rw [hsum]; exact_mod_cast hfit)
    rw [hsum] at this
    exact_mod_cast this
  have hstart : ({ (({ d with num_total := bigsum (a ++ b) }).set_num_sample (Double.fin p)) with
      num_processed := 0, num_selected := 0 } : downsampler)
      = ({} : downsampler).set_global total (Double.fin p) := by
    simp only [downsampler.set_global, downsampler.set_num_sample, hbs]
  have hsplit := apply_append u a b (List.replicate a.length 0) (List.replicate b.length 0)
    (by simp) (({} : downsampler).set_global total (Double.fin p)) k
  simp only [apply_single, hstart, List.length_append, List.replicate_add, hsplit, and_self]

theorem apply_twice_eq_single_witness :
    (apply mixed_draws [5] (List.replicate ([5] : List Int).length 0)
        (({} : downsampler).set_global 10 (Double.fin (1 / 2))) 0).out
      ++ (apply mixed_draws [3, 2] (List.replicate ([3, 2] : List Int).length 0)
          (apply mixed_draws [5] (List.replicate ([5] : List Int).length 0)
            (({} : downsampler).set_global 10 (Double.fin (1 / 2))) 0).down
          (apply mixed_draws [5] (List.replicate ([5] : List Int).length 0)
            (({} : downsampler).set_global 10 (Double.fin (1 / 2))) 0).drawn).out
      = (apply_single mixed_draws ([5] ++ [3, 2])
          (List.replicate (([5] : List Int) ++ [3, 2]).length 0) (Double.fin (1 / 2)) {} 0).out ∧
    (apply mixed_draws [3, 2] (List.replicate ([3, 2] : List Int).length 0)
        (apply mixed_draws [5] (List.replicate ([5] : List Int).length 0)
          (({} : downsampler).set_global 10 (Double.fin (1 / 2))) 0).down
        (apply mixed_draws [5] (List.replicate ([5] : List Int).length 0)
          (({} : downsampler).set_global 10 (Double.fin (1 / 2))) 0).drawn).drawn
      = (apply_single mixed_draws ([5] ++ [3, 2])
          (List.replicate (([5] : List Int) ++ [3, 2]).length 0) (Double.fin (1 / 2)) {} 0).drawn :=
  apply_twice_eq_single mixed_draws [5] [3, 2] 10 (by decide) (by decide) (1 / 2) {} 0

end DropletUtils
